import Mathlib

/-!
# Device memory sub-allocator of the Parawave Vulkan C++ library

A shallow embedding of `VulkanMemoryRange`, `VulkanMemory` and `VulkanMemoryPool`
(`modules/pw_vulkan/memory`) together with theorems about range acquisition,
disposal and defragmentation.

Conventions of the embedding:

* `vk::DeviceSize` is `uint64_t`: values are natural numbers below `2 ^ 64`,
  and every addition and subtraction of the source is taken modulo `2 ^ 64`
  (`wadd`, `wsub`).
* A pointer to a `VulkanMemory` object is the natural number `addr` of that
  object; `0` is `nullptr`.
* `juce::Array` is a `List`; `getReference (i)` is list indexing, `add` appends
  at the end, `removeIf` is a filter.
-/

namespace parawave

/-- Number of values of `vk::DeviceSize` (an unsigned 64 bit integer). -/
def deviceSizeLimit : Nat := 2 ^ 64

/-- Addition of two `vk::DeviceSize` values (wraps modulo `2 ^ 64`). -/
def wadd (x y : Nat) : Nat := (x + y) % deviceSizeLimit

/-- Subtraction of two `vk::DeviceSize` values `x - y` (wraps modulo `2 ^ 64`);
both arguments are below `2 ^ 64`. -/
def wsub (x y : Nat) : Nat := (x + (deviceSizeLimit - y)) % deviceSizeLimit

/-! ## VulkanMemoryRange -/

/-- The class `VulkanMemoryRange`: a range of memory in a device memory allocation. -/
structure VulkanMemoryRange where
  /-- Address of the owning `VulkanMemory` block, `0` for `nullptr`. -/
  memory : Nat
  memorySize : Nat
  memoryOffset : Nat
  free : Bool
  deriving DecidableEq, Repr

namespace VulkanMemoryRange

/-- The default constructor `VulkanMemoryRange()`. -/
def empty : VulkanMemoryRange := ⟨0, 0, 0, false⟩

def getMemoryBlock (r : VulkanMemoryRange) : Nat := r.memory

def getSize (r : VulkanMemoryRange) : Nat := r.memorySize

def getOffset (r : VulkanMemoryRange) : Nat := r.memoryOffset

def getEnd (r : VulkanMemoryRange) : Nat := wadd r.getOffset r.getSize

def isFree (r : VulkanMemoryRange) : Bool := r.free

def isEmpty (r : VulkanMemoryRange) : Bool := r.getSize == 0

/-- The member `operator==`: owner, size, offset and free flag all agree. -/
def opEq (r other : VulkanMemoryRange) : Bool :=
  if r.memory == other.memory && r.getSize == other.getSize &&
      r.getOffset == other.getOffset && r.isFree == other.isFree then true
  else false

end VulkanMemoryRange

/-! ## VulkanMemory -/

/-- The class `VulkanMemory`: a fixed block of device memory. Only the members
that the range bookkeeping reads or writes are kept (`device`, `memory` and the
mapped `data` pointer play no part in it); `addr` is the address of the
object, the value of `this`. -/
structure VulkanMemory where
  addr : Nat
  memorySize : Nat
  memoryTypeIndex : Nat
  ranges : List VulkanMemoryRange
  deriving DecidableEq, Repr

namespace VulkanMemory

/-- The constructor `VulkanMemory (device, memorySize_, memoryTypeIndex_)` of the
object placed at address `addr`: one free range covering the whole block. -/
def create (addr memorySize_ memoryTypeIndex_ : Nat) : VulkanMemory :=
  { addr := addr, memorySize := memorySize_, memoryTypeIndex := memoryTypeIndex_,
    ranges := [⟨addr, memorySize_, 0, true⟩] }

def size (m : VulkanMemory) : Nat := m.memorySize

def getMemoryTypeIndex (m : VulkanMemory) : Nat := m.memoryTypeIndex

/-- The method `contains`: `juce::Array::contains` compares the argument with
every stored range by `operator==`. -/
def contains (m : VulkanMemory) (range : VulkanMemoryRange) : Bool :=
  m.ranges.any (fun r => range.opEq r)

/-- The method `isFree`: no range of the block is in use. -/
def isFree (m : VulkanMemory) : Bool :=
  m.ranges.all (fun range => range.isFree)

/-- The size that is left of `range` once its offset has been moved up to
`rangeAlignment`, as computed in the loop body of `findFreeRange`
(`newSize -= rangeAlignment - delta` is an unsigned subtraction). -/
def reducedSize (range : VulkanMemoryRange) (rangeAlignment : Nat) : Nat :=
  if rangeAlignment != 0 then
    let delta := range.getOffset % rangeAlignment
    if delta != 0 then wsub range.getSize (rangeAlignment - delta) else range.getSize
  else range.getSize

/-- The loop of `findFreeRange` over the ranges from index `i` on. -/
def findFreeRangeFrom (rangeSize rangeAlignment : Nat) :
    List VulkanMemoryRange → Nat → Option (Nat × Nat)
  | [], _ => none
  | range :: rest, i =>
    if range.isFree && decide (reducedSize range rangeAlignment ≥ rangeSize) then
      some (i, reducedSize range rangeAlignment)
    else findFreeRangeFrom rangeSize rangeAlignment rest (i + 1)

/-- The method `findFreeRange`: index and reduced size of the first free range
that is big enough; `none` stands for the pair `(-1, 0)`. -/
def findFreeRange (m : VulkanMemory) (rangeSize rangeAlignment : Nat) : Option (Nat × Nat) :=
  findFreeRangeFrom rangeSize rangeAlignment m.ranges 0

/-- The offset of a range moved up to the required alignment, as done in
`acquireRange`. -/
def alignedOffset (memoryOffset rangeAlignment : Nat) : Nat :=
  if rangeAlignment != 0 then
    let delta := memoryOffset % rangeAlignment
    if delta != 0 then wadd memoryOffset (rangeAlignment - delta) else memoryOffset
  else memoryOffset

/-- The method `acquireRange`. The result is the returned flag, the value of
the out parameter `destRange` after the call, and the block after the call. -/
def acquireRange (m : VulkanMemory) (destRange : VulkanMemoryRange)
    (rangeSize rangeAlignment : Nat) : Bool × VulkanMemoryRange × VulkanMemory :=
  if rangeSize > m.memorySize then (false, destRange, m)
  else
    match m.findFreeRange rangeSize rangeAlignment with
    | none => (false, destRange, m)
    | some (index, newSize) =>
      if newSize == 0 then (false, destRange, m)
      else
        match m.ranges[index]? with
        | none => (false, destRange, m)
        | some range =>
          let aligned : VulkanMemoryRange :=
            { range with memorySize := newSize,
                         memoryOffset := alignedOffset range.memoryOffset rangeAlignment }
          if aligned.memorySize == rangeSize then
            let used : VulkanMemoryRange := { aligned with free := false }
            (true, used, { m with ranges := m.ranges.set index used })
          else
            let newRangeSize := wsub aligned.memorySize rangeSize
            let newRangeOffset := wadd aligned.memoryOffset rangeSize
            let used : VulkanMemoryRange :=
              { aligned with memorySize := rangeSize, free := false }
            (true, used,
              { m with ranges :=
                  m.ranges.set index used ++ [⟨m.addr, newRangeSize, newRangeOffset, true⟩] })

/-- The method `mergeAllRanges`: when every range is free the list is replaced
by one free range over the whole block. -/
def mergeAllRanges (m : VulkanMemory) : Bool × VulkanMemory :=
  if m.ranges.all (fun range => range.isFree) then
    (true, { m with ranges := [⟨m.addr, m.memorySize, 0, true⟩] })
  else (false, m)

/-- The comparison of `RangeComparator::compareElements` as an order: `first`
does not come after `second`. -/
def offsetLE (first second : VulkanMemoryRange) : Prop :=
  first.getOffset ≤ second.getOffset

instance : DecidableRel offsetLE := fun a b => Nat.decLe a.getOffset b.getOffset

/-- The method `sortRanges`: the ranges sorted by offset. `juce::Array::sort`
leaves the order of ranges with equal offsets open; the embedding keeps their
order. -/
def sortRanges (m : VulkanMemory) : VulkanMemory :=
  { m with ranges := m.ranges.insertionSort offsetLE }

/-- The method `removeEmptyRanges`. -/
def removeEmptyRanges (m : VulkanMemory) : VulkanMemory :=
  { m with ranges := m.ranges.filter (fun range => !range.isEmpty) }

/-- The body of the loop of `mergeAdjacentRanges` at index `i`. -/
def mergeAdjacentStep (ranges : List VulkanMemoryRange) (i : Nat) : List VulkanMemoryRange :=
  if i < 1 then ranges
  else
    match ranges[i]?, ranges[i - 1]? with
    | some right, some left =>
      if !right.isFree then ranges
      else if !left.isFree then ranges
      else
        let distance := wsub right.getEnd left.getEnd
        (ranges.set (i - 1) { left with memorySize := wadd left.memorySize distance }).set i
          { right with memoryOffset := 0, memorySize := 0 }
    | _, _ => ranges

/-- The loop `for (int i = ranges.size(); --i >= 0;)` of `mergeAdjacentRanges`
with `k` indices `k - 1, ..., 0` still to visit. -/
def mergeAdjacentLoop : Nat → List VulkanMemoryRange → List VulkanMemoryRange
  | 0, ranges => ranges
  | k + 1, ranges => mergeAdjacentLoop k (mergeAdjacentStep ranges k)

/-- The method `mergeAdjacentRanges`. -/
def mergeAdjacentRanges (m : VulkanMemory) : VulkanMemory :=
  { m with ranges := mergeAdjacentLoop m.ranges.length m.ranges }

/-- The first block of `defragmentRanges` after the merge: a free first range
is moved to offset `0`. -/
def moveFirstToStart (ranges : List VulkanMemoryRange) : List VulkanMemoryRange :=
  match ranges[0]? with
  | some range => if range.isFree then ranges.set 0 { range with memoryOffset := 0 } else ranges
  | none => ranges

/-- The second block of `defragmentRanges` after the merge: a free last range
that ends before the end of the block is enlarged up to it. -/
def growLastToEnd (memorySize : Nat) (ranges : List VulkanMemoryRange) :
    List VulkanMemoryRange :=
  match ranges[ranges.length - 1]? with
  | some range =>
    if range.isFree && decide (range.getEnd < memorySize) then
      ranges.set (ranges.length - 1) { range with memorySize := wsub memorySize range.getOffset }
    else ranges
  | none => ranges

/-- The method `defragmentRanges`. -/
def defragmentRanges (m : VulkanMemory) : VulkanMemory :=
  if (mergeAllRanges m).1 then (mergeAllRanges m).2
  else
    let cleaned := removeEmptyRanges (mergeAdjacentRanges (sortRanges m))
    if cleaned.ranges.length > 0 then
      { cleaned with ranges := growLastToEnd m.memorySize (moveFirstToStart cleaned.ranges) }
    else cleaned

/-- The search `std::find (ranges.begin(), ranges.end(), range)`: the index of
the first stored range equal to `range`, `none` for `ranges.end()`. -/
def findRange (range : VulkanMemoryRange) : List VulkanMemoryRange → Option Nat
  | [] => none
  | r :: rest => if r.opEq range then some 0 else (findRange range rest).map (· + 1)

/-- The method `disposeRange`. When no stored range equals `range` the
assertion `jassert (iterator != ranges.end())` fails and the write through the
end iterator has no defined behaviour: the result is `none`. -/
def disposeRange (m : VulkanMemory) (range : VulkanMemoryRange) (defragmentAfter : Bool) :
    Option VulkanMemory :=
  match findRange range m.ranges with
  | none => none
  | some i =>
    match m.ranges[i]? with
    | none => none
    | some found =>
      let m1 : VulkanMemory := { m with ranges := m.ranges.set i { found with free := true } }
      if defragmentAfter then some (defragmentRanges m1) else some m1

end VulkanMemory

/-! ## VulkanMemoryPool -/

/-- The class `VulkanMemoryPool`: a pool of device memory blocks. -/
structure VulkanMemoryPool where
  minBlockSize : Nat
  blocks : List VulkanMemory
  deriving DecidableEq, Repr

namespace VulkanMemoryPool

/-- The method `size`: the sum of the block sizes. -/
def size (p : VulkanMemoryPool) : Nat :=
  p.blocks.foldl (fun totalSize block => wadd totalSize block.size) 0

/-- The integer part of the binary logarithm, by repeated halving; `fuel`
bounds the number of halvings. -/
def log2Loop : Nat → Nat → Nat
  | 0, _ => 0
  | fuel + 1, n => if n ≥ 2 then log2Loop fuel (n / 2) + 1 else 0

/-- The value of `static_cast<vk::DeviceSize> (std::log2l (size))` for a
non-zero `size`, with `log2l` taken as the exact logarithm: the integer part of
the binary logarithm (64 halvings are enough for a 64 bit value). -/
def log2Floor (size : Nat) : Nat := log2Loop 64 size

/-- The function `nextPowerOfTwo`. For `size = 0` the logarithm has no integer
value and for `size ≥ 2 ^ 63` the shift count is `64`; C++ defines no result
for either, which is `none`. -/
def nextPowerOfTwo (size : Nat) : Option Nat :=
  if size = 0 then none
  else
    let power := log2Floor size + 1
    if power < 64 then some (2 ^ power) else none

/-- The method `allocateBlock`; `newAddr` is the address of the block that
`std::make_unique` creates. -/
def allocateBlock (p : VulkanMemoryPool) (newAddr allocationSize memoryType : Nat) :
    Option VulkanMemory :=
  if allocationSize > p.minBlockSize then
    (nextPowerOfTwo allocationSize).map (fun s => VulkanMemory.create newAddr s memoryType)
  else some (VulkanMemory.create newAddr p.minBlockSize memoryType)

/-- The loop of `acquire` over the existing blocks: whether a block took the
request, the variable `range` after the loop, and the blocks after the loop. -/
def acquireFromBlocks (requiredSize requiredAlignment memoryTypeIndex : Nat) :
    VulkanMemoryRange → List VulkanMemory → Bool × VulkanMemoryRange × List VulkanMemory
  | range, [] => (false, range, [])
  | range, block :: rest =>
    if memoryTypeIndex == block.getMemoryTypeIndex then
      let r := block.acquireRange range requiredSize requiredAlignment
      if r.1 then (true, r.2.1, r.2.2 :: rest)
      else
        let s := acquireFromBlocks requiredSize requiredAlignment memoryTypeIndex r.2.1 rest
        (s.1, s.2.1, r.2.2 :: s.2.2)
    else
      let s := acquireFromBlocks requiredSize requiredAlignment memoryTypeIndex range rest
      (s.1, s.2.1, block :: s.2.2)

/-- The method `acquire (requiredSize, requiredAlignment, memoryTypeIndex)`:
the returned range and the pool after the call. `newAddr` is the address of
the block that is created when the pool has to grow. The result is `none`
only where `allocateBlock` has no defined result. -/
def acquire (p : VulkanMemoryPool) (newAddr requiredSize requiredAlignment memoryTypeIndex : Nat) :
    Option (VulkanMemoryRange × VulkanMemoryPool) :=
  let s := acquireFromBlocks requiredSize requiredAlignment memoryTypeIndex
    VulkanMemoryRange.empty p.blocks
  if s.1 then some (s.2.1, { p with blocks := s.2.2 })
  else
    match allocateBlock p newAddr requiredSize memoryTypeIndex with
    | none => none
    | some newBlock =>
      let r := newBlock.acquireRange s.2.1 requiredSize requiredAlignment
      some (r.2.1, { p with blocks := s.2.2 ++ [r.2.2] })

end VulkanMemoryPool

/-! ## Vocabulary of the statements -/

/-- The alignment padding of a range at `offset`: the distance from `offset`
up to the next multiple of `alignment`, and `0` when no alignment is asked for. -/
def alignPadding (offset alignment : Nat) : Nat :=
  if alignment = 0 then 0 else (alignment - offset % alignment) % alignment

/-- Position `y` follows position `x`: with `gaps = false` they coincide, with
`gaps = true` unused space may lie between them. -/
def follows (gaps : Bool) (x y : Nat) : Prop :=
  if gaps then x ≤ y else x = y

instance (gaps : Bool) (x y : Nat) : Decidable (follows gaps x y) := by
  unfold follows; infer_instance

/-- The ranges of `l`, in list order, lie one after the other between `x` and
`y`: the first starts at `x` (or later, when gaps are allowed), every range
starts where the one before it ends (or later), and the last ends at `y` (or
earlier). -/
def Covers (gaps : Bool) : List VulkanMemoryRange → Nat → Nat → Prop
  | [], x, y => follows gaps x y
  | r :: rs, x, y => follows gaps x r.memoryOffset ∧ Covers gaps rs (r.memoryOffset + r.memorySize) y

instance Covers.decide (gaps : Bool) :
    (l : List VulkanMemoryRange) → (x y : Nat) → Decidable (Covers gaps l x y)
  | [], x, y => by unfold Covers; infer_instance
  | r :: rs, x, y => by
    unfold Covers
    exact @instDecidableAnd _ _ _ (Covers.decide gaps rs _ _)

/-- The ranges of the block, sorted by offset, tile `[0, memorySize)` exactly:
no gap and no overlap. -/
def Tiles (m : VulkanMemory) : Prop :=
  Covers false (m.ranges.insertionSort VulkanMemory.offsetLE) 0 m.memorySize

/-- The ranges of the block, sorted by offset, lie inside `[0, memorySize)`
without overlap; unused gaps between them are allowed. -/
def Packed (m : VulkanMemory) : Prop :=
  Covers true (m.ranges.insertionSort VulkanMemory.offsetLE) 0 m.memorySize

/-- The intervals `[offset, offset + size)` of two ranges have a common point. -/
def Overlap (r s : VulkanMemoryRange) : Prop :=
  r.memoryOffset < s.memoryOffset + s.memorySize ∧ s.memoryOffset < r.memoryOffset + r.memorySize

instance (r s : VulkanMemoryRange) : Decidable (Overlap r s) := by
  unfold Overlap; infer_instance

/-- The request `acquireRange (_, rangeSize, rangeAlignment)` needs no more
padding than the range it is served from holds, and no padding at all when
`gaps = false`. -/
def PaddingFits (gaps : Bool) (m : VulkanMemory) (rangeSize rangeAlignment : Nat) : Prop :=
  ∀ i newSize range, m.findFreeRange rangeSize rangeAlignment = some (i, newSize) →
    m.ranges[i]? = some range →
    alignPadding range.memoryOffset rangeAlignment ≤ range.memorySize ∧
      (gaps = false → alignPadding range.memoryOffset rangeAlignment = 0)

/-- The states of the block at address `addr` with `memorySize` bytes that
`acquireRange` (non-zero sizes, padding as in `PaddingFits`), `disposeRange`
and `defragmentRanges` reach from the freshly constructed block. -/
inductive Reach (gaps : Bool) (addr memorySize memoryType : Nat) : VulkanMemory → Prop
  | fresh : Reach gaps addr memorySize memoryType (VulkanMemory.create addr memorySize memoryType)
  | acquire (m : VulkanMemory) (dest : VulkanMemoryRange) (rangeSize rangeAlignment : Nat) :
      Reach gaps addr memorySize memoryType m → 0 < rangeSize →
      PaddingFits gaps m rangeSize rangeAlignment →
      Reach gaps addr memorySize memoryType (m.acquireRange dest rangeSize rangeAlignment).2.2
  | dispose (m m' : VulkanMemory) (range : VulkanMemoryRange) (defragmentAfter : Bool) :
      Reach gaps addr memorySize memoryType m →
      m.disposeRange range defragmentAfter = some m' →
      Reach gaps addr memorySize memoryType m'
  | defragment (m : VulkanMemory) :
      Reach gaps addr memorySize memoryType m →
      Reach gaps addr memorySize memoryType m.defragmentRanges

/-- Every state that calls of `acquireRange` (any size and alignment),
`disposeRange` and `defragmentRanges` reach from the freshly constructed block. -/
inductive Reachable (addr memorySize memoryType : Nat) : VulkanMemory → Prop
  | fresh : Reachable addr memorySize memoryType (VulkanMemory.create addr memorySize memoryType)
  | acquire (m : VulkanMemory) (dest : VulkanMemoryRange) (rangeSize rangeAlignment : Nat) :
      Reachable addr memorySize memoryType m →
      Reachable addr memorySize memoryType (m.acquireRange dest rangeSize rangeAlignment).2.2
  | dispose (m m' : VulkanMemory) (range : VulkanMemoryRange) (defragmentAfter : Bool) :
      Reachable addr memorySize memoryType m →
      m.disposeRange range defragmentAfter = some m' →
      Reachable addr memorySize memoryType m'
  | defragment (m : VulkanMemory) :
      Reachable addr memorySize memoryType m →
      Reachable addr memorySize memoryType m.defragmentRanges

/-- Every range of the block names the block as its owner and lies inside it. -/
def RangesInside (m : VulkanMemory) : Prop :=
  ∀ r ∈ m.ranges, r.memory = m.addr ∧ r.memoryOffset + r.memorySize ≤ m.memorySize

instance (m : VulkanMemory) : Decidable (RangesInside m) := by
  unfold RangesInside; infer_instance

namespace VulkanMemory

/-- One pass of the loop body of `mergeAdjacentRanges` on the pair made of
`left` and the first range of the list behind it. -/
def mergePair (left : VulkanMemoryRange) : List VulkanMemoryRange → List VulkanMemoryRange
  | [] => [left]
  | right :: rest =>
    if right.isFree && left.isFree then
      { left with memorySize := wadd left.memorySize (wsub right.getEnd left.getEnd) } ::
        { right with memoryOffset := 0, memorySize := 0 } :: rest
    else left :: right :: rest

/-- The loop of `mergeAdjacentRanges` as a recursion over the list: the pairs
further right are merged first (`mergeAdjacentLoop_eq` shows that this is what
the loop computes). -/
def mergeFromRight : List VulkanMemoryRange → List VulkanMemoryRange
  | [] => []
  | left :: rest => mergePair left (mergeFromRight rest)

end VulkanMemory

/-- The ranges of the block at address `addr` with `memorySize` bytes can be
arranged so that they lie one after the other from `0` to `memorySize` (with
or without gaps), and none of them is empty, unless the block itself is empty
and holds its one initial range. -/
def Arranged (gaps : Bool) (addr memorySize : Nat) (m : VulkanMemory) : Prop :=
  m.addr = addr ∧ m.memorySize = memorySize ∧
    ∃ c : List VulkanMemoryRange, c.Perm m.ranges ∧ Covers gaps c 0 memorySize ∧
      ((∀ r ∈ c, r.memorySize ≠ 0) ∨ (memorySize = 0 ∧ c = [⟨addr, 0, 0, true⟩]))

instance (m : VulkanMemory) : Decidable (Tiles m) := by
  unfold Tiles; infer_instance

instance (m : VulkanMemory) : Decidable (Packed m) := by
  unfold Packed; infer_instance

/-- The range `range` marked free wherever it is stored in the list. -/
def markFree (range : VulkanMemoryRange) (l : List VulkanMemoryRange) : List VulkanMemoryRange :=
  l.map (fun x => if x = range then { range with free := true } else x)

namespace VulkanMemoryPool

/-- The loop of `findMemoryType` from index `i` on; the list holds the
`propertyFlags` of the memory types `i`, `i + 1`, ... of the device (bit masks
as natural numbers). `none`: the loop ends without a `return`. -/
def findMemoryTypeFrom (typeFilter properties : Nat) : List Nat → Nat → Option Nat
  | [], _ => none
  | propertyFlags :: rest, i =>
    if (typeFilter &&& (1 <<< i)) != 0 && (propertyFlags &&& properties) == properties then some i
    else findMemoryTypeFrom typeFilter properties rest (i + 1)

/-- The method `findMemoryType`; `memoryTypes` holds the `propertyFlags` of the
`memoryTypeCount` memory types of the physical device. When the loop finds no
type, `jassertfalse` is raised and `0U` is returned. -/
def findMemoryType (memoryTypes : List Nat) (typeFilter properties : Nat) : Nat :=
  match findMemoryTypeFrom typeFilter properties memoryTypes 0 with
  | some i => i
  | none => 0

/-- The method `acquire (memoryRequirements, memoryProperties)`, with the
members `size`, `alignment` and `memoryTypeBits` of `vk::MemoryRequirements`. -/
def acquireRequirements (p : VulkanMemoryPool) (memoryTypes : List Nat)
    (newAddr size alignment memoryTypeBits memoryProperties : Nat) :
    Option (VulkanMemoryRange × VulkanMemoryPool) :=
  p.acquire newAddr size alignment (findMemoryType memoryTypes memoryTypeBits memoryProperties)

/-- The loop of `dispose` over the blocks: the first block that contains
`range` disposes of it; when no block does, `jassertfalse` is raised and
nothing changes. -/
def disposeFromBlocks (range : VulkanMemoryRange) (performDefragmentation : Bool) :
    List VulkanMemory → List VulkanMemory
  | [] => []
  | block :: rest =>
    if block.contains range then
      match block.disposeRange range performDefragmentation with
      | some block' => block' :: rest
      | none => block :: rest
    else block :: disposeFromBlocks range performDefragmentation rest

/-- The method `dispose`. -/
def dispose (p : VulkanMemoryPool) (range : VulkanMemoryRange) (performDefragmentation : Bool) :
    VulkanMemoryPool :=
  { p with blocks := disposeFromBlocks range performDefragmentation p.blocks }

/-- The loop `for (int i = blocks.size(); --i >= 0;)` of `deallocateEmptyBlocks`
with the `k` indices `k - 1, ..., 0` still to visit. -/
def deallocateLoop : Nat → List VulkanMemory → List VulkanMemory
  | 0, blocks => blocks
  | k + 1, blocks =>
    match blocks[k]? with
    | some block =>
      if block.isFree then deallocateLoop k (blocks.eraseIdx k) else deallocateLoop k blocks
    | none => deallocateLoop k blocks

/-- The method `deallocateEmptyBlocks`. -/
def deallocateEmptyBlocks (p : VulkanMemoryPool) : VulkanMemoryPool :=
  { p with blocks := deallocateLoop p.blocks.length p.blocks }

/-- The method `minimizeStorage`. -/
def minimizeStorage (p : VulkanMemoryPool) : VulkanMemoryPool :=
  deallocateEmptyBlocks p

/-- How often the range value `x` is stored in the blocks of the pool. -/
def storedCount (p : VulkanMemoryPool) (x : VulkanMemoryRange) : Nat :=
  (p.blocks.map (fun b => b.ranges.count x)).sum

end VulkanMemoryPool

/-- Memory type `i` of the device qualifies for a request: it exists, bit `i` of
`typeFilter` is set, and its property flags contain all requested flags. -/
def Qualifies (memoryTypes : List Nat) (typeFilter properties i : Nat) : Prop :=
  ∃ flags, memoryTypes[i]? = some flags ∧ typeFilter.testBit i = true ∧
    flags &&& properties = properties

/-! ## RenderContext -/

/-- The values of `vk::Result` that `drawFrame` tells apart; `other` stands for
every other result code. -/
inductive VkResult where
  | eSuccess
  | eSuboptimalKHR
  | eErrorOutOfDateKHR
  | other (code : Int)
  deriving DecidableEq, Repr

/-- The semaphores that take part in a frame: `*imageAcquiredSemaphores[slot]`,
the completed semaphore of `*frames[slot]`, the completed semaphore of
`*overlays[slot]`, and the completed semaphore of a nested render layer. -/
inductive Semaphore where
  | imageAcquired (slot : Nat)
  | frameCompleted (slot : Nat)
  | overlayCompleted (slot : Nat)
  | layerCompleted (layer : Nat)
  deriving DecidableEq, Repr

/-- The semaphore members of the class `RenderBase` (`none` is `nullptr`). -/
structure RenderBase where
  currentWaitSemaphore : Option Semaphore
  currentSignalSemaphore : Option Semaphore
  deriving DecidableEq, Repr

namespace RenderBase

def setWaitSemaphore (b : RenderBase) (newSemaphore : Option Semaphore) : RenderBase :=
  { b with currentWaitSemaphore := newSemaphore }

def setSignalSemaphore (b : RenderBase) (newSemaphore : Option Semaphore) : RenderBase :=
  { b with currentSignalSemaphore := newSemaphore }

end RenderBase

/-- The enumeration `RenderContext::DrawStatus`. -/
inductive DrawStatus where
  | hasFailed
  | hasFinished
  | needsSwapChainRecreation
  deriving DecidableEq, Repr

/-- The calls that `drawFrame` makes on the fence, the swapchain, the frame and
the overlay of a slot, with the arguments that matter. `frameSubmit` is
`RenderBase::submit ()` with the wait and signal semaphore it puts into the
submit info (no fence); `overlaySubmit` is `OverlayState::submit` with its wait
semaphore, its signal semaphore and the slot of the fence it passes on. -/
inductive Call where
  | fenceWait (slot : Nat)
  | fenceReset (slot : Nat)
  | acquireNextImage (signalSemaphore : Semaphore)
  | frameReset (slot : Nat)
  | frameSetWaitSemaphore (slot : Nat) (newSemaphore : Semaphore)
  | frameBeginRender (slot : Nat)
  | drawComponents (slot : Nat)
  | frameEndRender (slot : Nat)
  | frameSubmit (slot : Nat) (wait signal : Option Semaphore)
  | overlayBeginRender (slot : Nat) (swapchainFrame : Nat)
  | overlayRender (slot : Nat) (attachmentOfFrame : Nat)
  | overlayEndRender (slot : Nat)
  | overlaySubmit (slot : Nat) (wait signal : Semaphore) (fenceOfSlot : Nat)
  | presentImage (imageIndex : Nat) (wait : Semaphore)
  deriving DecidableEq, Repr

/-- What the device answers to the calls of one `drawFrame`, for each call that
is made: whether the swapchain handle is valid, the results of
`VulkanFence::wait` and `reset`, the result of `acquireNextImage` and the image
index it writes, and the results of the two queue submissions and of
`presentImage`. -/
structure DeviceAnswers where
  swapchainHandle : Bool
  fenceWait : Bool
  fenceReset : Bool
  acquireResult : VkResult
  acquiredImageIndex : Nat
  frameSubmitResult : VkResult
  overlaySubmitResult : VkResult
  presentResult : VkResult
  deriving DecidableEq, Repr

/-- The members of the class `RenderContext` that `drawFrame` reads or writes;
`frames slot` holds the semaphore members of `*frames[slot]`. -/
structure RenderContext where
  currentFrameIndex : Nat
  frameCounter : Nat
  frames : Nat → RenderBase

namespace RenderContext

/-- The constant `maxFramesInFlight`. -/
def maxFramesInFlight : Nat := 1

/-- The context after its constructor: index and counter are 0, and every frame
is as the constructor of `RenderBase` leaves it (no wait semaphore, its own
completed semaphore as signal semaphore). -/
def create : RenderContext :=
  { currentFrameIndex := 0, frameCounter := 0,
    frames := fun slot => ⟨none, some (Semaphore.frameCompleted slot)⟩ }

/-- The method `incrementFrameIndex`. -/
def incrementFrameIndex (c : RenderContext) : RenderContext :=
  { c with currentFrameIndex := (c.currentFrameIndex + 1) % maxFramesInFlight }

/-- The frame of the current slot when `frame.submit ()` is reached: its wait
semaphore has been set to the image acquired semaphore, and the draw callback,
if there is one, has run on it. -/
def recordedFrame (c : RenderContext) (drawComponents : Option (RenderBase → RenderBase)) :
    RenderBase :=
  let frame := (c.frames c.currentFrameIndex).setWaitSemaphore
    (some (Semaphore.imageAcquired c.currentFrameIndex))
  match drawComponents with
  | some draw => draw frame
  | none => frame

/-- The calls of the block "Render Components to FrameBuffer" of `drawFrame`. -/
def frameCalls (c : RenderContext) (drawComponents : Option (RenderBase → RenderBase)) :
    List Call :=
  [Call.frameReset c.currentFrameIndex,
    Call.frameSetWaitSemaphore c.currentFrameIndex (Semaphore.imageAcquired c.currentFrameIndex),
    Call.frameBeginRender c.currentFrameIndex] ++
  (if drawComponents.isSome then [Call.drawComponents c.currentFrameIndex] else []) ++
  [Call.frameEndRender c.currentFrameIndex,
    Call.frameSubmit c.currentFrameIndex
      (recordedFrame c drawComponents).currentWaitSemaphore
      (recordedFrame c drawComponents).currentSignalSemaphore]

/-- The calls of the block "Draw Offscreen Framebuffer into Swapchain
Framebuffer" of `drawFrame`. -/
def overlayCalls (renderIndex swapchainImageIndex : Nat) : List Call :=
  [Call.overlayBeginRender renderIndex swapchainImageIndex,
    Call.overlayRender renderIndex renderIndex,
    Call.overlayEndRender renderIndex,
    Call.overlaySubmit renderIndex (Semaphore.frameCompleted renderIndex)
      (Semaphore.overlayCompleted renderIndex) renderIndex]

/-- The method `drawFrame`: the returned status, the context after the call and
the calls made, in order. `drawComponents` is the callback (`none` for
`nullptr`), given by what it does to the semaphore members of the frame; the
calls it makes itself stand behind the one entry `Call.drawComponents`.
`++frameCounter` is an increment of a `uint64_t`. -/
def drawFrame (c : RenderContext) (dev : DeviceAnswers)
    (drawComponents : Option (RenderBase → RenderBase)) :
    DrawStatus × RenderContext × List Call :=
  if !dev.swapchainHandle then (DrawStatus.hasFailed, c, [])
  else
    let renderIndex := c.currentFrameIndex
    if !dev.fenceWait then (DrawStatus.hasFailed, c, [Call.fenceWait renderIndex])
    else if !dev.fenceReset then
      (DrawStatus.hasFailed, c, [Call.fenceWait renderIndex, Call.fenceReset renderIndex])
    else
      let acquired := [Call.fenceWait renderIndex, Call.fenceReset renderIndex,
        Call.acquireNextImage (Semaphore.imageAcquired renderIndex)]
      match dev.acquireResult with
      | VkResult.eSuccess =>
        let swapchainImageIndex := dev.acquiredImageIndex
        let c1 : RenderContext :=
          { c with frames := Function.update c.frames renderIndex (recordedFrame c drawComponents) }
        let rendered := acquired ++ frameCalls c drawComponents
        if dev.frameSubmitResult != VkResult.eSuccess then (DrawStatus.hasFailed, c1, rendered)
        else
          let composited := rendered ++ overlayCalls renderIndex swapchainImageIndex
          if dev.overlaySubmitResult != VkResult.eSuccess then
            (DrawStatus.hasFailed, c1, composited)
          else
            let presented := composited ++
              [Call.presentImage swapchainImageIndex (Semaphore.overlayCompleted renderIndex)]
            match dev.presentResult with
            | VkResult.eSuccess =>
              (DrawStatus.hasFinished,
                { incrementFrameIndex c1 with
                    frameCounter := (c1.frameCounter + 1) % 2 ^ 64 }, presented)
            | VkResult.eSuboptimalKHR => (DrawStatus.needsSwapChainRecreation, c1, presented)
            | VkResult.eErrorOutOfDateKHR => (DrawStatus.needsSwapChainRecreation, c1, presented)
            | VkResult.other _ => (DrawStatus.hasFailed, c1, presented)
      | VkResult.eSuboptimalKHR => (DrawStatus.needsSwapChainRecreation, c, acquired)
      | VkResult.eErrorOutOfDateKHR => (DrawStatus.needsSwapChainRecreation, c, acquired)
      | VkResult.other _ => (DrawStatus.hasFailed, c, acquired)

/-- The states of a `RenderContext` that calls of `drawFrame` reach from the
constructed context, whatever the device answers and the callback does. -/
inductive Reachable : RenderContext → Prop
  | create : Reachable RenderContext.create
  | drawFrame (c : RenderContext) (dev : DeviceAnswers)
      (drawComponents : Option (RenderBase → RenderBase)) :
      Reachable c → Reachable (c.drawFrame dev drawComponents).2.1

end RenderContext

namespace Call

/-- The stage of `drawFrame` that a call belongs to: 1 the fence wait, 2 the
fence reset, 3 the image acquisition, 4 the recording and submission of the
frame, 5 the recording and submission of the overlay, 6 the presentation. -/
def stage : Call → Nat
  | fenceWait _ => 1
  | fenceReset _ => 2
  | acquireNextImage _ => 3
  | frameReset _ => 4
  | frameSetWaitSemaphore _ _ => 4
  | frameBeginRender _ => 4
  | drawComponents _ => 4
  | frameEndRender _ => 4
  | frameSubmit _ _ _ => 4
  | overlayBeginRender _ _ => 5
  | overlayRender _ _ => 5
  | overlayEndRender _ => 5
  | overlaySubmit _ _ _ _ => 5
  | presentImage _ _ => 6

/-- The call is a queue submission. -/
def isSubmit : Call → Bool
  | frameSubmit _ _ _ => true
  | overlaySubmit _ _ _ _ => true
  | _ => false

/-- The call is `presentImage`. -/
def isPresent : Call → Bool
  | presentImage _ _ => true
  | _ => false

end Call

/-! ## VulkanFence -/

namespace VulkanFence

/-- The timeout that `wait` computes:
`static_cast<uint64_t> (std::max<int64_t> (0, duration.inMilliseconds ())) * 1000`,
a product of `uint64_t` values; `durationMs` is `duration.inMilliseconds ()`. -/
def waitTimeout (durationMs : Int) : Nat :=
  ((max 0 durationMs).toNat * 1000) % 2 ^ 64

/-- The method `wait`: the timeout it passes to `waitForFences` and the flag it
returns, for the result `waitResult` of `waitForFences`. -/
def wait (durationMs : Int) (waitResult : VkResult) : Nat × Bool :=
  (waitTimeout durationMs, decide (waitResult = VkResult.eSuccess))

/-- The default argument of `wait`, `juce::RelativeTime::seconds (1.0)`, in
milliseconds. -/
def defaultDurationMs : Int := 1000

end VulkanFence

/-! ## QuadQueue -/

/-- What a call of `QuadQueue::add` or `flush` does to the vertex array and the
command buffer: a write of `vertexData[index]`, or `drawIndexed (numIndices)`. -/
inductive QuadEvent where
  | writeVertex (index : Nat)
  | drawIndexed (numIndices : Nat)
  deriving DecidableEq, Repr

/-- The members `numVertices` and `maxVertices` of the struct `QuadQueue`. -/
structure QuadQueue where
  numVertices : Nat
  maxVertices : Nat
  deriving DecidableEq, Repr

namespace QuadQueue

/-- The enumerator `maxNumQuads`. -/
def maxNumQuads : Nat := 1024

/-- The number of elements of the array `vertexData`. -/
def vertexDataCapacity : Nat := maxNumQuads * 4

/-- The constant `defaultNumIndices` of `CachedMemory`: the number of indices
of the shared quad index buffer. -/
def defaultNumIndices : Nat := 1024 * 6

/-- The constructor: `maxVertices = numQuads * 4 - 4` with
`numQuads = min (maxNumQuads, maxIndices / 6)` and `maxIndices = maxNumQuads * 6`. -/
def create : QuadQueue :=
  let maxIndices := maxNumQuads * 6
  let numQuads := min maxNumQuads (maxIndices / 6)
  { numVertices := 0, maxVertices := numQuads * 4 - 4 }

/-- The method `draw`: one indexed draw of `(numVertices * 3) / 2` indices, after
which the queue is empty. -/
def draw (q : QuadQueue) : QuadQueue × List QuadEvent :=
  ({ q with numVertices := 0 }, [QuadEvent.drawIndexed ((q.numVertices * 3) / 2)])

/-- The method `add (x, y, w, h, colour)`: the four vertices `v[0]` to `v[3]` at
`vertexData + numVertices` are written (the coordinates and the colour only
determine the values written, which are left out), `numVertices` grows by 4, and
the queue is drawn when `numVertices > maxVertices`. -/
def add (q : QuadQueue) : QuadQueue × List QuadEvent :=
  let writes := [QuadEvent.writeVertex q.numVertices, QuadEvent.writeVertex (q.numVertices + 1),
    QuadEvent.writeVertex (q.numVertices + 2), QuadEvent.writeVertex (q.numVertices + 3)]
  let q1 : QuadQueue := { q with numVertices := q.numVertices + 4 }
  if q1.numVertices > q1.maxVertices then ((draw q1).1, writes ++ (draw q1).2)
  else (q1, writes)

/-- The method `flush`. -/
def flush (q : QuadQueue) : QuadQueue × List QuadEvent :=
  if q.numVertices > 0 then draw q else (q, [])

end QuadQueue

/-- A call on a `QuadQueue`. -/
inductive QuadCall where
  | add
  | flush
  deriving DecidableEq, Repr

namespace QuadQueue

/-- One call on the queue. -/
def call (q : QuadQueue) : QuadCall → QuadQueue × List QuadEvent
  | QuadCall.add => q.add
  | QuadCall.flush => q.flush

/-- A sequence of calls on the queue: the queue after them and everything they
did, in order. -/
def run (q : QuadQueue) : List QuadCall → QuadQueue × List QuadEvent
  | [] => (q, [])
  | c :: rest => ((run (q.call c).1 rest).1, (q.call c).2 ++ (run (q.call c).1 rest).2)

/-- The number of vertices written and not yet drawn after `events`, when
`pending` were so before them. -/
def pendingFrom (pending : Nat) : List QuadEvent → Nat
  | [] => pending
  | QuadEvent.writeVertex _ :: rest => pendingFrom (pending + 1) rest
  | QuadEvent.drawIndexed _ :: rest => pendingFrom 0 rest

/-- The number of vertices written since the last draw. -/
def pendingVertices (events : List QuadEvent) : Nat := pendingFrom 0 events

end QuadQueue

/-! ## GradientCache -/

/-- The members of the struct `GradientCache`: the flag `gradientNeedsRefresh`,
the owned arrays `descriptors` and `textures` (an object is named by the number
of objects created before it), and that number. -/
structure GradientCache where
  gradientNeedsRefresh : Bool
  descriptors : List Nat
  textures : List Nat
  created : Nat
  deriving DecidableEq, Repr

namespace GradientCache

/-- The constructor: `gradientNeedsRefresh = true` and empty arrays. -/
def create : GradientCache :=
  { gradientNeedsRefresh := true, descriptors := [], textures := [], created := 0 }

/-- The method `reset`. -/
def reset (g : GradientCache) : GradientCache :=
  { g with descriptors := [], textures := [], gradientNeedsRefresh := true }

/-- The method `triggerRefresh`. -/
def triggerRefresh (g : GradientCache) : GradientCache :=
  { g with gradientNeedsRefresh := true }

/-- The method `getTextureForGradient`: the returned descriptor (`none` for
`nullptr`, which `descriptors.getLast ()` gives on an empty array) and the cache
after the call. -/
def getTextureForGradient (g : GradientCache) : Option Nat × GradientCache :=
  if g.gradientNeedsRefresh then
    (some g.created,
      { gradientNeedsRefresh := false, textures := g.textures ++ [g.created],
        descriptors := g.descriptors ++ [g.created], created := g.created + 1 })
  else (g.descriptors.getLast?, g)

end GradientCache

/-- A call on a `GradientCache`. -/
inductive GradientCall where
  | getTextureForGradient
  | triggerRefresh
  | reset
  deriving DecidableEq, Repr

namespace GradientCache

/-- One call on the cache. -/
def call (g : GradientCache) : GradientCall → GradientCache
  | GradientCall.getTextureForGradient => g.getTextureForGradient.2
  | GradientCall.triggerRefresh => g.triggerRefresh
  | GradientCall.reset => g.reset

/-- The cache after a sequence of calls. -/
def run (g : GradientCache) (calls : List GradientCall) : GradientCache :=
  calls.foldl call g

end GradientCache

/-! ## VulkanCommandSequence -/

/-- A semaphore that a `VulkanCommandSequence` deals with: one passed in from
outside through `setCurrentWaitSemaphore`, or the one at `index` of its own
array `semaphores`. -/
inductive SequenceSemaphore where
  | external (id : Nat)
  | owned (index : Nat)
  deriving DecidableEq, Repr

/-- The submit info and the fence of one `queue.submit` of a
`VulkanCommandSequence`. -/
structure SequenceSubmit where
  commandBuffer : Nat
  waitSemaphore : Option SequenceSemaphore
  signalSemaphore : Option SequenceSemaphore
  fence : Bool
  deriving DecidableEq, Repr

/-- The members of the class `VulkanCommandSequence`: the sizes of the owned
arrays `commandBuffers` and `semaphores`, `currentWaitSemaphore` (`none` for
`nullptr`) and `fenceInUseFlag`. -/
structure VulkanCommandSequence where
  commandBuffers : Nat
  semaphores : Nat
  currentWaitSemaphore : Option SequenceSemaphore
  fenceInUseFlag : Bool
  deriving DecidableEq, Repr

namespace VulkanCommandSequence

/-- The constructor. -/
def create : VulkanCommandSequence :=
  { commandBuffers := 0, semaphores := 0, currentWaitSemaphore := none, fenceInUseFlag := false }

def getCurrentWaitSemaphore (s : VulkanCommandSequence) : Option SequenceSemaphore :=
  s.currentWaitSemaphore

def setCurrentWaitSemaphore (s : VulkanCommandSequence) (newSemaphore : Option SequenceSemaphore) :
    VulkanCommandSequence :=
  { s with currentWaitSemaphore := newSemaphore }

/-- The private method `submit`: the submission it hands to the queue and the
sequence after it. With `useFence` it first waits for the fence of an earlier
submission (`waitForFence`, taken to return) and resets it. -/
def submitPrivate (s : VulkanCommandSequence) (commandBuffer : Nat)
    (waitSemaphore signalSemaphore : Option SequenceSemaphore) (useFence : Bool) :
    SequenceSubmit × VulkanCommandSequence :=
  (⟨commandBuffer, waitSemaphore, signalSemaphore, useFence⟩,
    if useFence then { s with fenceInUseFlag := true } else s)

/-- The public method `submit (commandsFunction, useFence)`: a new command
buffer and a new semaphore are added to the arrays, the recorded buffer is
submitted with `currentWaitSemaphore` and the new semaphore, and the new
semaphore becomes `currentWaitSemaphore`. -/
def submit (s : VulkanCommandSequence) (useFence : Bool) :
    SequenceSubmit × VulkanCommandSequence :=
  let commandBuffer := s.commandBuffers
  let s1 : VulkanCommandSequence := { s with commandBuffers := s.commandBuffers + 1 }
  let signalSemaphore := SequenceSemaphore.owned s1.semaphores
  let s2 : VulkanCommandSequence := { s1 with semaphores := s1.semaphores + 1 }
  let r := s2.submitPrivate commandBuffer s2.currentWaitSemaphore (some signalSemaphore) useFence
  (r.1, { r.2 with currentWaitSemaphore := some signalSemaphore })

/-- Successive calls of `submit`, one for each flag of `useFence`: the
submissions in order and the sequence after them. -/
def submitAll (s : VulkanCommandSequence) : List Bool → List SequenceSubmit × VulkanCommandSequence
  | [] => ([], s)
  | useFence :: rest =>
    ((s.submit useFence).1 :: (submitAll (s.submit useFence).2 rest).1,
      (submitAll (s.submit useFence).2 rest).2)

end VulkanCommandSequence

/-! ## The completion fence of a slot -/

/-- The state of a fence as far as `drawFrame` is concerned: signalled,
unsignalled while a queue submission that will signal it is pending, or
unsignalled without any such submission. -/
inductive FenceState where
  | signalled
  | pendingSubmission
  | withoutSubmission
  deriving DecidableEq, Repr

namespace RenderContext

/-- The fence of `slot` after one call of the trace of a `drawFrame` answered as
in `dev`: a `reset` that succeeds leaves it unsignalled without a submission,
and an overlay submission that carries it and succeeds makes its signal
pending; no other call of `drawFrame` touches it. -/
def fenceAfterCall (dev : DeviceAnswers) (slot : Nat) (fence : FenceState) : Call → FenceState
  | Call.fenceReset s =>
    if s = slot ∧ dev.fenceReset = true then FenceState.withoutSubmission else fence
  | Call.overlaySubmit _ _ _ fenceOfSlot =>
    if fenceOfSlot = slot ∧ dev.overlaySubmitResult = VkResult.eSuccess then
      FenceState.pendingSubmission
    else fence
  | _ => fence

/-- The fence of `slot` after the calls of a `drawFrame`. -/
def fenceAfter (dev : DeviceAnswers) (slot : Nat) (fence : FenceState) (calls : List Call) :
    FenceState :=
  calls.foldl (fenceAfterCall dev slot) fence

end RenderContext

/-! ## RenderLayer -/

/-- The class `juce::Rectangle<int>`: position and size. -/
structure Rectangle where
  x : Int
  y : Int
  w : Int
  h : Int
  deriving DecidableEq, Repr

namespace Rectangle

/-- The method `withPosition`: the same size at another position. -/
def withPosition (r : Rectangle) (newX newY : Int) : Rectangle :=
  { r with x := newX, y := newY }

end Rectangle

/-- The members of a `RenderLayer` that `createRenderLayer` reads or writes: the
semaphore members of its base `RenderBase` and the bounds of its base
`RenderFrame`. -/
structure RenderLayer where
  base : RenderBase
  bounds : Rectangle
  deriving DecidableEq, Repr

namespace RenderLayer

/-- The conversion `static_cast<uint32_t>` of an `int`. -/
def toUInt32 (v : Int) : Nat := (v % 2 ^ 32).toNat

/-- The conversion `static_cast<int>` of a `uint32_t`. -/
def toInt32 (n : Nat) : Int := if n < 2 ^ 31 then (n : Int) else (n : Int) - 2 ^ 32

/-- The constructor `RenderLayer (state, width, height, format)` of the layer
numbered `index`: no wait semaphore, its own completed semaphore
`Semaphore.layerCompleted index` as signal semaphore (set by the constructor of
`RenderBase`), and bounds of the given size at the origin. -/
def create (index width height : Nat) : RenderLayer :=
  { base := ⟨none, some (Semaphore.layerCompleted index)⟩,
    bounds := ⟨0, 0, toInt32 width, toInt32 height⟩ }

/-- The method `createRenderLayer` called on the layer numbered `self`. The
layers are numbered in a list: number 0 is the layer that the first call is made
on, and the layers added to `cache->layers`, which the new layer shares, follow
in the order of their creation. The completed semaphore of layer `index` is
`Semaphore.layerCompleted index`. The result is the list after the call; the
returned layer is its last entry. -/
def createRenderLayer (layers : List RenderLayer) (self : Nat) (frameArea : Rectangle) :
    List RenderLayer :=
  match layers[self]? with
  | none => layers
  | some parent =>
    let width := toUInt32 frameArea.w
    let height := toUInt32 frameArea.h
    let index := layers.length
    let layer := create index width height
    let newBounds := layer.bounds.withPosition frameArea.x frameArea.y
    let layer : RenderLayer := { layer with bounds := newBounds }
    let layer : RenderLayer :=
      { layer with base := layer.base.setWaitSemaphore parent.base.currentWaitSemaphore }
    let parent : RenderLayer :=
      { parent with base := parent.base.setWaitSemaphore (some (Semaphore.layerCompleted index)) }
    layers.set self parent ++ [layer]

/-- Successive calls of `createRenderLayer`, each on the layer and with the
area given. -/
def createRenderLayers (layers : List RenderLayer) (calls : List (Nat × Rectangle)) :
    List RenderLayer :=
  calls.foldl (fun l c => createRenderLayer l c.1 c.2) layers

/-- The layers met when following the wait semaphores from layer `i`, and the
semaphore at which the walk ends: the first wait semaphore that is not the
completed semaphore of a layer of the list. At most `fuel` layers are visited;
`none` when that is not enough. -/
def followWaits (layers : List RenderLayer) : Nat → Nat → Option (List Nat × Option Semaphore)
  | 0, _ => none
  | fuel + 1, i =>
    match layers[i]? with
    | none => none
    | some layer =>
      match layer.base.currentWaitSemaphore with
      | some (Semaphore.layerCompleted j) =>
        if j < layers.length then
          (followWaits layers fuel j).map (fun r => (i :: r.1, r.2))
        else some ([i], some (Semaphore.layerCompleted j))
      | w => some ([i], w)

/-- The layers of `order` are linked by their wait semaphores: each waits on the
completed semaphore of the next, and the last waits on `w`. -/
def Linked (layers : List RenderLayer) (w : Option Semaphore) : List Nat → Prop
  | [] => False
  | [a] => ∃ l, layers[a]? = some l ∧ l.base.currentWaitSemaphore = w
  | a :: b :: rest =>
    (∃ l, layers[a]? = some l ∧
      l.base.currentWaitSemaphore = some (Semaphore.layerCompleted b)) ∧
    Linked layers w (b :: rest)

end RenderLayer

/-! ## VulkanDescriptorSetPool -/

/-- The struct `VulkanDescriptorSetPool::Block`: the owned array `sets` and the
array `free` of pointers to sets. A set of the block is named by its index in
`sets`; a pointer is `none` for `nullptr`. -/
structure DescriptorBlock where
  sets : List Nat
  free : List (Option Nat)
  deriving DecidableEq, Repr

namespace DescriptorBlock

/-- The constructor: `numSets = createInfo.maxSets` sets are created and all of
them are added to `free`. -/
def create (numSets : Nat) : DescriptorBlock :=
  { sets := List.range numSets, free := (List.range numSets).map some }

def isEmpty (b : DescriptorBlock) : Bool := b.free.isEmpty

/-- The method `acquire`: `free.removeAndReturn (free.size () - 1)`, which
returns a null pointer when the array is empty. -/
def acquire (b : DescriptorBlock) : Option Nat × DescriptorBlock :=
  match b.free.getLast? with
  | some set => (set, { b with free := b.free.dropLast })
  | none => (none, b)

/-- The method `dispose`. -/
def dispose (b : DescriptorBlock) (descriptorSet : Option Nat) : DescriptorBlock :=
  { b with free := b.free ++ [descriptorSet] }

end DescriptorBlock

/-- The class `VulkanDescriptorSetPool`: `maxSets` of its create info and the
owned array `blocks`; a block is named by its index in `blocks`. -/
structure VulkanDescriptorSetPool where
  maxSets : Nat
  blocks : List DescriptorBlock
  deriving DecidableEq, Repr

/-- The members `block` and `descriptorSet` of the class `VulkanDescriptor`. -/
structure VulkanDescriptor where
  block : Nat
  descriptorSet : Option Nat
  deriving DecidableEq, Repr

namespace VulkanDescriptorSetPool

/-- The constructor: one initial block. -/
def create (maxSets : Nat) : VulkanDescriptorSetPool :=
  { maxSets := maxSets, blocks := [DescriptorBlock.create maxSets] }

/-- The loop of `acquire` over the blocks from index `i` on: the first block
that is not empty hands out a set. -/
def acquireFromBlocks : List DescriptorBlock → Nat →
    Option (VulkanDescriptor × List DescriptorBlock)
  | [], _ => none
  | block :: rest, i =>
    if !block.isEmpty then some (⟨i, block.acquire.1⟩, block.acquire.2 :: rest)
    else (acquireFromBlocks rest (i + 1)).map (fun r => (r.1, block :: r.2))

/-- The method `acquire`: the pair of block and set, as the members of the
descriptor that takes it, and the pool after the call. -/
def acquire (p : VulkanDescriptorSetPool) : VulkanDescriptor × VulkanDescriptorSetPool :=
  match acquireFromBlocks p.blocks 0 with
  | some (d, blocks) => (d, { p with blocks := blocks })
  | none =>
    let newBlock := DescriptorBlock.create p.maxSets
    (⟨p.blocks.length, newBlock.acquire.1⟩, { p with blocks := p.blocks ++ [newBlock.acquire.2] })

end VulkanDescriptorSetPool

/-- A pool together with the `VulkanDescriptor` objects that are alive. -/
structure DescriptorSystem where
  pool : VulkanDescriptorSetPool
  live : List VulkanDescriptor
  deriving DecidableEq, Repr

/-- The construction of a `VulkanDescriptor` on the pool, or the destruction of
the live descriptor at `position`. -/
inductive DescriptorCall where
  | construct
  | destruct (position : Nat)
  deriving DecidableEq, Repr

namespace DescriptorSystem

/-- A new pool without descriptors. -/
def create (maxSets : Nat) : DescriptorSystem :=
  { pool := VulkanDescriptorSetPool.create maxSets, live := [] }

/-- The constructor of `VulkanDescriptor`: the descriptor takes what
`pool.acquire ()` returns. -/
def construct (s : DescriptorSystem) : DescriptorSystem :=
  { pool := s.pool.acquire.2, live := s.live ++ [s.pool.acquire.1] }

/-- The destructor of the live descriptor at `position`:
`block->dispose (descriptorSet)`. -/
def destruct (s : DescriptorSystem) (position : Nat) : DescriptorSystem :=
  match s.live[position]? with
  | none => s
  | some d =>
    match s.pool.blocks[d.block]? with
    | none => { s with live := s.live.eraseIdx position }
    | some block =>
      { pool := { s.pool with blocks := s.pool.blocks.set d.block (block.dispose d.descriptorSet) },
        live := s.live.eraseIdx position }

/-- One call. -/
def call (s : DescriptorSystem) : DescriptorCall → DescriptorSystem
  | DescriptorCall.construct => s.construct
  | DescriptorCall.destruct position => s.destruct position

/-- A sequence of calls. -/
def run (s : DescriptorSystem) (calls : List DescriptorCall) : DescriptorSystem :=
  calls.foldl call s

/-- The sets of block `i` that live descriptors hold. -/
def leased (s : DescriptorSystem) (i : Nat) : List (Option Nat) :=
  (s.live.filter (fun d => d.block == i)).map (fun d => d.descriptorSet)

end DescriptorSystem

/-! ## Vocabulary of the defragmentation statements -/

namespace VulkanMemory

/-- The maximal runs of consecutive free ranges of a list, in list order; a
range in use is a run of its own. -/
def freeRuns : List VulkanMemoryRange → List (List VulkanMemoryRange)
  | [] => []
  | r :: rest =>
    match freeRuns rest with
    | (x :: run) :: runs =>
      if x.free && r.free then (r :: x :: run) :: runs else [r] :: (x :: run) :: runs
    | runs => [r] :: runs

/-- The end `offset + size` of the last range of the run `r :: run`. -/
def lastEnd : VulkanMemoryRange → List VulkanMemoryRange → Nat
  | r, [] => r.memoryOffset + r.memorySize
  | _, x :: run => lastEnd x run

/-- The single range in place of a run: it starts at the offset of the first
range of the run and ends at the end of the last, with the owner and the flag of
the first. -/
def spanOfRun : List VulkanMemoryRange → Option VulkanMemoryRange
  | [] => none
  | r :: run => some { r with memorySize := lastEnd r run - r.memoryOffset }

/-- The list in which every maximal run of consecutive free ranges is replaced by
one range. -/
def mergedRuns (ranges : List VulkanMemoryRange) : List VulkanMemoryRange :=
  (freeRuns ranges).filterMap spanOfRun

end VulkanMemory

namespace VulkanMemory

/-- No range of the list is empty, and no end `offset + size` exceeds the range
of `vk::DeviceSize`. -/
def NoWrap (ranges : List VulkanMemoryRange) : Prop :=
  ∀ r ∈ ranges, r.memorySize ≠ 0 ∧ r.memoryOffset + r.memorySize < deviceSizeLimit

/-- Two neighbours in a list of ranges are not both free. -/
def NotBothFree (p q : VulkanMemoryRange) : Prop := ¬ (p.free = true ∧ q.free = true)

/-- A list of ranges that `defragmentRanges` leaves as it is: not all free,
sorted by offset, without empty ranges and without two consecutive free ranges,
a free first range at offset 0 and a free last range not ending before the end
of the block. -/
def Settled (memorySize : Nat) (ranges : List VulkanMemoryRange) : Prop :=
  (¬ ∀ r ∈ ranges, r.isFree = true) ∧ ranges.Pairwise offsetLE ∧
    (∀ r ∈ ranges, r.memorySize ≠ 0) ∧
    ranges.Chain' NotBothFree ∧
    (∀ r, ranges.head? = some r → r.free = true → r.memoryOffset = 0) ∧
    (∀ r, ranges.getLast? = some r → r.free = true → ¬ r.getEnd < memorySize)

end VulkanMemory

namespace QuadQueue

/-- The events are in order: every write is below the capacity of `vertexData`,
and every draw issues six indices for each four vertices written since the draw
before it, at most `defaultNumIndices`; `pending` vertices were written before
the events. -/
def Checked : Nat → List QuadEvent → Prop
  | _, [] => True
  | pending, QuadEvent.writeVertex index :: rest =>
    index < vertexDataCapacity ∧ Checked (pending + 1) rest
  | pending, QuadEvent.drawIndexed numIndices :: rest =>
    (numIndices = 6 * (pending / 4) ∧ 0 < numIndices ∧ numIndices ≤ defaultNumIndices) ∧
      Checked 0 rest

end QuadQueue

namespace QuadQueue

/-- What holds of the queue between calls. -/
def Inv (q : QuadQueue) : Prop :=
  q.maxVertices = 4092 ∧ q.numVertices % 4 = 0 ∧ q.numVertices ≤ q.maxVertices

end QuadQueue

namespace GradientCache

/-- What holds of the cache between calls: a cache that needs no refresh holds a
descriptor, and every stored descriptor and texture was created earlier. -/
def Inv (g : GradientCache) : Prop :=
  (g.gradientNeedsRefresh = false → g.descriptors ≠ []) ∧
    (∀ d ∈ g.descriptors, d < g.created) ∧ ∀ t ∈ g.textures, t < g.created

end GradientCache

namespace RenderLayer

/-- The layers form one chain from layer 0 to `w` that holds every layer once. -/
def OneChain (s : List RenderLayer) (w : Option Semaphore) : Prop :=
  ∃ order : List Nat, Linked s w order ∧ order.head? = some 0 ∧
    order.Perm (List.range s.length)

end RenderLayer

namespace DescriptorSystem

/-- What holds between calls: every live descriptor names a block of the pool,
and in every block the free pointers and the sets that live descriptors hold
are, together, the sets of the block, each once. -/
def Inv (m : Nat) (s : DescriptorSystem) : Prop :=
  s.pool.maxSets = m ∧ (∀ d ∈ s.live, d.block < s.pool.blocks.length) ∧
    ∀ (i : Nat) (b : DescriptorBlock), s.pool.blocks[i]? = some b →
      b.sets = List.range m ∧ (b.free ++ s.leased i).Perm ((List.range m).map some)

end DescriptorSystem

end parawave

/-! # Theorems -/

namespace parawave

open VulkanMemory

/-! ## Arithmetic of `vk::DeviceSize` -/

theorem deviceSizeLimit_eq : deviceSizeLimit = 18446744073709551616 := by
  unfold deviceSizeLimit; norm_num

theorem wadd_of_lt {x y : Nat} (h : x + y < deviceSizeLimit) : wadd x y = x + y := by
  unfold wadd; exact Nat.mod_eq_of_lt h

theorem wsub_of_le {x y : Nat} (hy : y ≤ x) (hx : x < deviceSizeLimit) : wsub x y = x - y := by
  unfold wsub
  have h1 : x + (deviceSizeLimit - y) = (x - y) + deviceSizeLimit := by omega
  rw [h1, Nat.add_mod_right]
  exact Nat.mod_eq_of_lt (by omega)

theorem alignPadding_lt {o a : Nat} (ha : a ≠ 0) : alignPadding o a < a := by
  unfold alignPadding
  rw [if_neg ha]
  exact Nat.mod_lt _ (Nat.pos_of_ne_zero ha)

theorem alignPadding_zero_right (o : Nat) : alignPadding o 0 = 0 := by
  simp [alignPadding]

theorem alignPadding_of_dvd {o a : Nat} (h : o % a = 0) : alignPadding o a = 0 := by
  unfold alignPadding
  split
  · rfl
  · rw [h]; simp

theorem alignPadding_of_not_dvd {o a : Nat} (h : o % a ≠ 0) : alignPadding o a = a - o % a := by
  by_cases ha : a = 0
  · subst ha; simp [alignPadding]
  · unfold alignPadding
    rw [if_neg ha]
    apply Nat.mod_eq_of_lt
    have := Nat.mod_lt o (Nat.pos_of_ne_zero ha)
    omega

/-- Moving an offset up by its padding gives a multiple of the alignment. -/
theorem add_alignPadding_mod (o a : Nat) (ha : a ≠ 0) : (o + alignPadding o a) % a = 0 := by
  by_cases h : o % a = 0
  · rw [alignPadding_of_dvd h]; simpa using h
  · rw [alignPadding_of_not_dvd h]
    have hlt := Nat.mod_lt o (Nat.pos_of_ne_zero ha)
    have hdm := Nat.div_add_mod o a
    have : o + (a - o % a) = a * (o / a + 1) := by
      rw [Nat.mul_add, Nat.mul_one]; omega
    rw [this]
    exact Nat.mul_mod_right _ _

/-- The reduced size of `findFreeRange` is the size minus the padding, as long
as the padding is not larger than the size. -/
theorem reducedSize_of_le {r : VulkanMemoryRange} {a : Nat}
    (hp : alignPadding r.memoryOffset a ≤ r.memorySize) (hs : r.memorySize < deviceSizeLimit) :
    reducedSize r a = r.memorySize - alignPadding r.memoryOffset a := by
  unfold reducedSize VulkanMemoryRange.getOffset VulkanMemoryRange.getSize
  by_cases ha : a = 0
  · subst ha; simp [alignPadding]
  · by_cases h : r.memoryOffset % a = 0
    · simp [ha, h, alignPadding_of_dvd h]
    · rw [alignPadding_of_not_dvd h] at hp ⊢
      simp only [bne_iff_ne, ne_eq, ha, not_false_eq_true, h, if_true]
      exact wsub_of_le hp hs

/-- The reduced size of `findFreeRange` wraps around when the padding is larger
than the size. -/
theorem reducedSize_of_gt {r : VulkanMemoryRange} {a : Nat}
    (hp : r.memorySize < alignPadding r.memoryOffset a) (ha : a ≤ deviceSizeLimit) :
    reducedSize r a = r.memorySize + deviceSizeLimit - alignPadding r.memoryOffset a := by
  unfold reducedSize VulkanMemoryRange.getOffset VulkanMemoryRange.getSize
  by_cases ha0 : a = 0
  · subst ha0; simp [alignPadding] at hp
  · by_cases h : r.memoryOffset % a = 0
    · rw [alignPadding_of_dvd h] at hp; omega
    · have hlt := alignPadding_lt (o := r.memoryOffset) ha0
      rw [alignPadding_of_not_dvd h] at hp hlt ⊢
      simp only [bne_iff_ne, ne_eq, ha0, not_false_eq_true, h, if_true]
      unfold wsub
      rw [Nat.mod_eq_of_lt (by omega)]
      omega

theorem alignedOffset_eq (o a : Nat) (ho : o < deviceSizeLimit) :
    alignedOffset o a = wadd o (alignPadding o a) := by
  unfold alignedOffset
  by_cases ha : a = 0
  · subst ha
    simp [alignPadding, wadd, Nat.mod_eq_of_lt ho]
  · by_cases h : o % a = 0
    · simp [ha, h, alignPadding_of_dvd h, wadd, Nat.mod_eq_of_lt ho]
    · rw [alignPadding_of_not_dvd h]
      simp [ha, h]

/-! ## `operator==` -/

theorem VulkanMemoryRange.opEq_iff (r s : VulkanMemoryRange) : r.opEq s = true ↔ r = s := by
  cases r; cases s
  simp [VulkanMemoryRange.opEq, VulkanMemoryRange.getSize, VulkanMemoryRange.getOffset,
    VulkanMemoryRange.isFree]
  tauto

/-! ## `findFreeRange` and `acquireRange` -/

theorem findFreeRangeFrom_some {n a : Nat} : ∀ (l : List VulkanMemoryRange) (k i ns : Nat),
    findFreeRangeFrom n a l k = some (i, ns) →
    ∃ j r, i = k + j ∧ l[j]? = some r ∧ r.free = true ∧ ns = reducedSize r a ∧ n ≤ ns ∧
      ∀ j' r', j' < j → l[j']? = some r' → ¬ (r'.free = true ∧ n ≤ reducedSize r' a)
  | [], k, i, ns, h => by simp [findFreeRangeFrom] at h
  | x :: rest, k, i, ns, h => by
    unfold findFreeRangeFrom at h
    by_cases hx : (x.isFree && decide (reducedSize x a ≥ n)) = true
    · rw [if_pos hx] at h
      simp only [Option.some.injEq, Prod.mk.injEq] at h
      simp only [Bool.and_eq_true, decide_eq_true_eq, VulkanMemoryRange.isFree] at hx
      refine ⟨0, x, by omega, by simp, hx.1, h.2.symm, by rw [← h.2]; exact hx.2, ?_⟩
      intro j' r' hj
      omega
    · rw [if_neg hx] at h
      obtain ⟨j, r, hi, hj, hf, hns, hle, hfirst⟩ := findFreeRangeFrom_some rest (k + 1) i ns h
      refine ⟨j + 1, r, by omega, by simpa using hj, hf, hns, hle, ?_⟩
      intro j' r' hj' hget
      cases j' with
      | zero =>
        simp only [List.getElem?_cons_zero, Option.some.injEq] at hget
        subst hget
        simpa [VulkanMemoryRange.isFree] using hx
      | succ j'' =>
        simp only [List.getElem?_cons_succ] at hget
        exact hfirst j'' r' (by omega) hget

theorem findFreeRangeFrom_none {n a : Nat} : ∀ (l : List VulkanMemoryRange) (k : Nat),
    findFreeRangeFrom n a l k = none ↔ ∀ r ∈ l, ¬ (r.free = true ∧ n ≤ reducedSize r a)
  | [], k => by simp [findFreeRangeFrom]
  | x :: rest, k => by
    unfold findFreeRangeFrom
    by_cases hx : (x.isFree && decide (reducedSize x a ≥ n)) = true
    · rw [if_pos hx]
      simp only [Bool.and_eq_true, decide_eq_true_eq, VulkanMemoryRange.isFree] at hx
      simp only [List.mem_cons, forall_eq_or_imp, false_iff, reduceCtorEq]
      tauto
    · rw [if_neg hx, findFreeRangeFrom_none rest (k + 1)]
      simp only [Bool.and_eq_true, decide_eq_true_eq, VulkanMemoryRange.isFree] at hx
      simp only [List.mem_cons, forall_eq_or_imp]
      tauto

/-- A failed `acquireRange` changes neither the block nor the out parameter. -/
theorem acquireRange_false {m : VulkanMemory} {dest : VulkanMemoryRange} {n a : Nat}
    (h : (m.acquireRange dest n a).1 = false) : m.acquireRange dest n a = (false, dest, m) := by
  by_cases hn : n > m.memorySize
  · simp [acquireRange, hn]
  · cases hfind : m.findFreeRange n a with
    | none => simp [acquireRange, hn, hfind]
    | some p =>
      obtain ⟨i, ns⟩ := p
      by_cases hns : ns = 0
      · simp [acquireRange, hn, hfind, hns]
      · cases hr : m.ranges[i]? with
        | none => simp [acquireRange, hn, hfind, hns, hr]
        | some r =>
          by_cases hfit : ns = n
          · subst hfit
            simp [acquireRange, hn, hfind, hns, hr] at h
          · simp [acquireRange, hn, hfind, hns, hr, hfit] at h

/-- What a successful `acquireRange` does. -/
theorem acquireRange_true {m : VulkanMemory} {dest : VulkanMemoryRange} {n a : Nat}
    (h : (m.acquireRange dest n a).1 = true) :
    ∃ i ns r, n ≤ m.memorySize ∧ m.findFreeRange n a = some (i, ns) ∧ ns ≠ 0 ∧
      m.ranges[i]? = some r ∧
      m.acquireRange dest n a =
        (true, ⟨r.memory, n, alignedOffset r.memoryOffset a, false⟩,
          { m with ranges :=
              m.ranges.set i ⟨r.memory, n, alignedOffset r.memoryOffset a, false⟩ ++
                (if ns = n then []
                 else [⟨m.addr, wsub ns n, wadd (alignedOffset r.memoryOffset a) n, true⟩]) }) := by
  by_cases hn : n > m.memorySize
  · simp [acquireRange, hn] at h
  · cases hfind : m.findFreeRange n a with
    | none => simp [acquireRange, hn, hfind] at h
    | some p =>
      obtain ⟨i, ns⟩ := p
      by_cases hns : ns = 0
      · simp [acquireRange, hn, hfind, hns] at h
      · cases hr : m.ranges[i]? with
        | none => simp [acquireRange, hn, hfind, hns, hr] at h
        | some r =>
          refine ⟨i, ns, r, by omega, rfl, hns, hr, ?_⟩
          by_cases hfit : ns = n
          · subst hfit
            simp [acquireRange, hn, hfind, hns, hr]
          · simp [acquireRange, hn, hfind, hns, hr, hfit]

/-- The index that `findFreeRange` returns is an index of the list. -/
theorem findFreeRange_get {m : VulkanMemory} {n a i ns : Nat}
    (h : m.findFreeRange n a = some (i, ns)) :
    ∃ r, m.ranges[i]? = some r ∧ r.free = true ∧ ns = reducedSize r a ∧ n ≤ ns ∧
      ∀ j' r', j' < i → m.ranges[j']? = some r' → ¬ (r'.free = true ∧ n ≤ reducedSize r' a) := by
  obtain ⟨j, r, hi, hj, hf, hns, hle, hfirst⟩ := findFreeRangeFrom_some m.ranges 0 i ns h
  have : i = j := by omega
  subst this
  exact ⟨r, hj, hf, hns, hle, hfirst⟩

/-- When `acquireRange` succeeds: the request fits the block and `findFreeRange`
finds a range whose reduced size is not zero. -/
theorem acquireRange_of_find {m : VulkanMemory} (dest : VulkanMemoryRange) {n a i ns : Nat}
    (hn : n ≤ m.memorySize) (hfind : m.findFreeRange n a = some (i, ns)) (hns : ns ≠ 0) :
    (m.acquireRange dest n a).1 = true := by
  obtain ⟨r, hr, -⟩ := findFreeRange_get hfind
  have hn' : ¬ n > m.memorySize := by omega
  by_cases hfit : ns = n
  · subst hfit
    simp [acquireRange, hn', hfind, hns, hr]
  · simp [acquireRange, hn', hfind, hns, hr, hfit]

/-! ## Ranges that lie one after the other -/

theorem follows_refl (g : Bool) (x : Nat) : follows g x x := by
  unfold follows; split <;> simp

theorem follows_le {g : Bool} {x y : Nat} (h : follows g x y) : x ≤ y := by
  unfold follows at h; split at h <;> omega

theorem follows_trans {g : Bool} {x y z : Nat} (h1 : follows g x y) (h2 : follows g y z) :
    follows g x z := by
  unfold follows at *; split at h1 <;> simp_all; omega

theorem follows_of_eq {g : Bool} {x y : Nat} (h : x = y) : follows g x y := by
  subst h; exact follows_refl g x

theorem follows_of_le {x y : Nat} (h : x ≤ y) : follows true x y := by
  simpa [follows] using h

theorem follows_add {g : Bool} {x y : Nat} (k : Nat) (h : follows g x y) :
    follows g (x + k) (y + k) := by
  unfold follows at *; split at h <;> simp_all

theorem Covers_mono_left {g : Bool} : ∀ {l : List VulkanMemoryRange} {x z y : Nat},
    follows g x z → Covers g l z y → Covers g l x y
  | [], _, _, _, h1, h2 => follows_trans h1 h2
  | _ :: _, _, _, _, h1, h2 => ⟨follows_trans h1 h2.1, h2.2⟩

theorem Covers_mono_right {g : Bool} : ∀ {l : List VulkanMemoryRange} {x y z : Nat},
    Covers g l x y → follows g y z → Covers g l x z
  | [], _, _, _, h1, h2 => follows_trans h1 h2
  | _ :: _, _, _, _, h1, h2 => ⟨h1.1, Covers_mono_right h1.2 h2⟩

theorem Covers_le {g : Bool} : ∀ {l : List VulkanMemoryRange} {x y : Nat},
    Covers g l x y → x ≤ y
  | [], _, _, h => follows_le h
  | r :: rs, x, y, h => by
    have h1 := follows_le h.1
    have h2 := Covers_le h.2
    omega

theorem Covers_append {g : Bool} : ∀ {l1 l2 : List VulkanMemoryRange} {x y : Nat},
    Covers g (l1 ++ l2) x y ↔ ∃ z, Covers g l1 x z ∧ Covers g l2 z y
  | [], l2, x, y => by
    constructor
    · intro h; exact ⟨x, follows_refl g x, h⟩
    · rintro ⟨z, h1, h2⟩; exact Covers_mono_left h1 h2
  | r :: rs, l2, x, y => by
    have ih := @Covers_append g rs l2 (r.memoryOffset + r.memorySize) y
    show follows g x r.memoryOffset ∧ Covers g (rs ++ l2) (r.memoryOffset + r.memorySize) y ↔
      ∃ z, (follows g x r.memoryOffset ∧ Covers g rs (r.memoryOffset + r.memorySize) z) ∧
        Covers g l2 z y
    rw [ih]
    constructor
    · rintro ⟨h1, z, h2, h3⟩; exact ⟨z, ⟨h1, h2⟩, h3⟩
    · rintro ⟨z, ⟨h1, h2⟩, h3⟩; exact ⟨h1, z, h2, h3⟩

/-- Every range of a cover lies between its two ends. -/
theorem Covers_mem {g : Bool} : ∀ {l : List VulkanMemoryRange} {x y : Nat},
    Covers g l x y → ∀ r ∈ l, x ≤ r.memoryOffset ∧ r.memoryOffset + r.memorySize ≤ y
  | [], _, _, _, r, hr => by simp at hr
  | q :: rs, x, y, h, r, hr => by
    have h1 := follows_le h.1
    have h2 := Covers_le h.2
    rcases List.mem_cons.1 hr with rfl | hr
    · omega
    · have := Covers_mem h.2 r hr
      omega

/-- In a cover the ranges before a range end before it starts and the ranges
behind it start after it ends. -/
theorem Covers_split {g : Bool} {pre post : List VulkanMemoryRange} {r : VulkanMemoryRange}
    {x y : Nat} (h : Covers g (pre ++ r :: post) x y) :
    (∀ q ∈ pre, q.memoryOffset + q.memorySize ≤ r.memoryOffset) ∧
      (∀ q ∈ post, r.memoryOffset + r.memorySize ≤ q.memoryOffset) := by
  obtain ⟨z, h1, h2⟩ := Covers_append.1 h
  have hz := follows_le h2.1
  constructor
  · intro q hq
    have := (Covers_mem h1 q hq).2
    omega
  · intro q hq
    exact (Covers_mem h2.2 q hq).1

/-- The ranges of a cover come in the order of their ends and starts. -/
theorem Covers_pairwise {g : Bool} : ∀ {l : List VulkanMemoryRange} {x y : Nat},
    Covers g l x y → l.Pairwise (fun p q => p.memoryOffset + p.memorySize ≤ q.memoryOffset)
  | [], _, _, _ => List.Pairwise.nil
  | r :: rs, x, y, h => by
    refine List.Pairwise.cons ?_ (Covers_pairwise h.2)
    intro q hq
    exact (Covers_mem h.2 q hq).1

/-- A cover only looks at offsets and sizes. -/
theorem Covers_map {g : Bool} (f : VulkanMemoryRange → VulkanMemoryRange)
    (hf : ∀ r, (f r).memoryOffset = r.memoryOffset ∧ (f r).memorySize = r.memorySize) :
    ∀ {l : List VulkanMemoryRange} {x y : Nat}, Covers g l x y → Covers g (l.map f) x y
  | [], _, _, h => h
  | r :: rs, x, y, h => by
    simp only [List.map_cons, Covers, (hf r).1, (hf r).2]
    exact ⟨h.1, Covers_map f hf h.2⟩

/-- The order of `sortRanges` made strict: `first` starts before `second`. -/
theorem offsetLE_iff (p q : VulkanMemoryRange) : offsetLE p q ↔ p.memoryOffset ≤ q.memoryOffset :=
  Iff.rfl

instance offsetLE_total : IsTotal VulkanMemoryRange offsetLE :=
  ⟨fun p q => Nat.le_total p.memoryOffset q.memoryOffset⟩

instance offsetLE_trans : IsTrans VulkanMemoryRange offsetLE :=
  ⟨fun _ _ _ h1 h2 => Nat.le_trans h1 h2⟩

instance offsetLT_antisymm :
    IsAntisymm VulkanMemoryRange (fun p q => p.memoryOffset < q.memoryOffset) :=
  ⟨fun _ _ h1 h2 => absurd h1 (Nat.lt_asymm h2)⟩

/-- Sorting a list whose offsets are pairwise different has one possible
result: any arrangement of the list with increasing offsets. -/
theorem insertionSort_eq_of_perm {c l : List VulkanMemoryRange} (hp : c.Perm l)
    (hc : c.Pairwise (fun p q => p.memoryOffset < q.memoryOffset)) :
    l.insertionSort offsetLE = c := by
  have hs : (l.insertionSort offsetLE).Pairwise offsetLE := List.sorted_insertionSort offsetLE l
  have hperm : (l.insertionSort offsetLE).Perm c := (List.perm_insertionSort offsetLE l).trans hp.symm
  have hne : c.Pairwise (fun p q => p.memoryOffset ≠ q.memoryOffset) :=
    hc.imp (fun h => Nat.ne_of_lt h)
  have hne' : (l.insertionSort offsetLE).Pairwise (fun p q => p.memoryOffset ≠ q.memoryOffset) :=
    hperm.symm.pairwise hne (fun h => Ne.symm h)
  have hlt : (l.insertionSort offsetLE).Pairwise (fun p q => p.memoryOffset < q.memoryOffset) :=
    (hs.and hne').imp (fun h => Nat.lt_of_le_of_ne h.1 h.2)
  exact List.eq_of_perm_of_sorted hperm hlt hc

/-! ## Defragmentation of an entirely free block, and the round trip -/

theorem isFree_iff (m : VulkanMemory) : m.isFree = true ↔ ∀ r ∈ m.ranges, r.isFree = true := by
  simp [VulkanMemory.isFree, List.all_eq_true]

theorem defragmentRanges_of_all_free {m : VulkanMemory} (h : ∀ r ∈ m.ranges, r.isFree = true) :
    m.defragmentRanges = { m with ranges := [⟨m.addr, m.memorySize, 0, true⟩] } := by
  have hall : m.ranges.all (fun range => range.isFree) = true := by
    simpa [List.all_eq_true] using h
  simp [defragmentRanges, mergeAllRanges, hall]

theorem findRange_cons_self (r : VulkanMemoryRange) (l : List VulkanMemoryRange) :
    findRange r (r :: l) = some 0 := by
  simp [findRange, (VulkanMemoryRange.opEq_iff r r).2 rfl]

theorem reducedSize_offset_zero (addr s a : Nat) (f : Bool) :
    reducedSize ⟨addr, s, 0, f⟩ a = s := by
  simp [reducedSize, VulkanMemoryRange.getOffset, VulkanMemoryRange.getSize]

theorem alignedOffset_zero (a : Nat) : alignedOffset 0 a = 0 := by
  simp [alignedOffset]

/-- The first request on a freshly constructed block. -/
theorem acquireRange_create (addr S ty n a : Nat) (dest : VulkanMemoryRange)
    (hS : S ≠ 0) (hnS : n ≤ S) :
    (create addr S ty).acquireRange dest n a =
      (true, ⟨addr, n, 0, false⟩,
        { create addr S ty with ranges :=
            ⟨addr, n, 0, false⟩ :: (if S = n then [] else [⟨addr, wsub S n, wadd 0 n, true⟩]) }) := by
  have hfind : (create addr S ty).findFreeRange n a = some (0, S) := by
    simp [findFreeRange, create, findFreeRangeFrom, reducedSize_offset_zero,
      VulkanMemoryRange.isFree, hnS]
  have htrue := acquireRange_of_find (m := create addr S ty) dest hnS hfind hS
  obtain ⟨i, ns, r, -, hfind', -, hr, heq⟩ := acquireRange_true htrue
  rw [hfind] at hfind'
  simp only [Option.some.injEq, Prod.mk.injEq] at hfind'
  obtain ⟨rfl, rfl⟩ := hfind'
  simp only [create, List.getElem?_cons_zero, Option.some.injEq] at hr
  subst hr
  rw [heq]
  simp [create, alignedOffset_zero]

/-- C7 (round-trip dispose): on a freshly constructed block of size `S`, for
every request with `0 < n ≤ S` and every alignment, `acquireRange` succeeds and
disposing of the returned range with defragmentation gives back the freshly
constructed block: exactly one range, free, at offset `0` and of size `S`. -/
theorem acquire_dispose_round_trip (addr S ty n a : Nat) (dest : VulkanMemoryRange)
    (hn : 0 < n) (hnS : n ≤ S) :
    ((create addr S ty).acquireRange dest n a).1 = true ∧
      ((create addr S ty).acquireRange dest n a).2.2.disposeRange
          ((create addr S ty).acquireRange dest n a).2.1 true = some (create addr S ty) ∧
      (create addr S ty).ranges = [⟨addr, S, 0, true⟩] := by
  rw [acquireRange_create addr S ty n a dest (by omega) hnS]
  refine ⟨rfl, ?_, rfl⟩
  simp only [disposeRange, findRange_cons_self, List.getElem?_cons_zero, List.set_cons_zero,
    if_true]
  rw [defragmentRanges_of_all_free]
  · rfl
  · intro r hr
    simp only [List.mem_cons] at hr
    rcases hr with rfl | hr
    · rfl
    · split at hr
      · simp at hr
      · simp only [List.mem_singleton] at hr
        subst hr; rfl

theorem acquire_dispose_round_trip_witness :
    0 < 24 ∧ 24 ≤ 64 ∧
      ((create 1 64 0).acquireRange VulkanMemoryRange.empty 24 16).2.2.disposeRange
          ((create 1 64 0).acquireRange VulkanMemoryRange.empty 24 16).2.1 true =
        some (create 1 64 0) :=
  ⟨by decide, by decide,
    (acquire_dispose_round_trip 1 64 0 24 16 VulkanMemoryRange.empty (by decide) (by decide)).2.1⟩

/-- C8 (full-free fast path): `isFree` holds exactly when every range is free,
and on a block all of whose ranges are free (any number, offsets, sizes and
order) `defragmentRanges` leaves exactly one range: free, owned by the block,
at offset `0` and of size `memorySize`. -/
theorem full_free_fast_path (m : VulkanMemory) :
    (m.isFree = true ↔ ∀ r ∈ m.ranges, r.isFree = true) ∧
      ((∀ r ∈ m.ranges, r.isFree = true) →
        m.defragmentRanges.ranges = [⟨m.addr, m.memorySize, 0, true⟩] ∧
          m.defragmentRanges.memorySize = m.memorySize) := by
  refine ⟨isFree_iff m, fun h => ?_⟩
  rw [defragmentRanges_of_all_free h]
  exact ⟨rfl, rfl⟩

theorem full_free_fast_path_witness :
    (∀ r ∈ (VulkanMemory.mk 7 100 0 [⟨7, 10, 40, true⟩, ⟨7, 3, 0, true⟩, ⟨7, 50, 50, true⟩]).ranges,
        r.isFree = true) ∧
      (VulkanMemory.mk 7 100 0
          [⟨7, 10, 40, true⟩, ⟨7, 3, 0, true⟩, ⟨7, 50, 50, true⟩]).defragmentRanges.ranges =
        [⟨7, 100, 0, true⟩] :=
  ⟨by decide, ((full_free_fast_path _).2 (by decide)).1⟩

/-! ## The effect of `acquireRange` on the list of ranges -/

/-- The outcome of a successful `acquireRange` in terms of the range it is
served from, when the padding is not larger than that range. -/
theorem acquireRange_true_fits {m : VulkanMemory} {dest : VulkanMemoryRange} {n a : Nat}
    (h : (m.acquireRange dest n a).1 = true) :
    ∃ i r, m.ranges[i]? = some r ∧ r.free = true ∧ n ≤ m.memorySize ∧
      m.findFreeRange n a = some (i, reducedSize r a) ∧ n ≤ reducedSize r a ∧
      reducedSize r a ≠ 0 ∧
      (alignPadding r.memoryOffset a ≤ r.memorySize → r.memorySize < deviceSizeLimit →
        r.memoryOffset < deviceSizeLimit →
        alignPadding r.memoryOffset a + n ≤ r.memorySize ∧
        m.acquireRange dest n a =
          (true, ⟨r.memory, n, wadd r.memoryOffset (alignPadding r.memoryOffset a), false⟩,
            { m with ranges :=
                (m.ranges.set i
                    ⟨r.memory, n, wadd r.memoryOffset (alignPadding r.memoryOffset a), false⟩ ++
                  (if r.memorySize - alignPadding r.memoryOffset a - n ≠ 0 then
                    [⟨m.addr, r.memorySize - alignPadding r.memoryOffset a - n,
                      wadd (wadd r.memoryOffset (alignPadding r.memoryOffset a)) n, true⟩]
                   else [])) })) := by
  obtain ⟨i, ns, r, hn, hfind, hns, hr, heq⟩ := acquireRange_true h
  obtain ⟨r', hr', hfree, hnsr, hle, -⟩ := findFreeRange_get hfind
  rw [hr] at hr'
  simp only [Option.some.injEq] at hr'
  subst hr'
  subst hnsr
  refine ⟨i, r, hr, hfree, hn, hfind, hle, hns, ?_⟩
  intro hp hs ho
  have hred := reducedSize_of_le hp hs
  refine ⟨by omega, ?_⟩
  rw [heq, alignedOffset_eq _ _ ho, hred]
  have hw : wsub (r.memorySize - alignPadding r.memoryOffset a) n =
      r.memorySize - alignPadding r.memoryOffset a - n := wsub_of_le (by omega) (by omega)
  by_cases hfit : r.memorySize - alignPadding r.memoryOffset a = n
  · have h0 : r.memorySize - alignPadding r.memoryOffset a - n = 0 := by omega
    simp [hfit]
  · have h0 : r.memorySize - alignPadding r.memoryOffset a - n ≠ 0 := by omega
    simp [hfit, h0, hw]

/-- C6 (effect of `acquireRange` on the range list). A failed call, and so every
call with `rangeSize > memorySize`, changes nothing. A successful call is
served from the range that `findFreeRange` finds: the free range `r` at index
`i`, the first free range whose reduced size is at least `rangeSize`. When the
alignment padding `p` of this range is at most its size, entry `i` becomes the
used range at offset `r.offset + p` (in `vk::DeviceSize` arithmetic) of size
`rangeSize`, the free rest `(r.offset + p + rangeSize, r.size - p - rangeSize)`
is appended exactly when it is not empty, and no other entry changes. When `r`
does not reach beyond `2 ^ 64` the offsets are the plain sums. -/
theorem acquireRange_effect (m : VulkanMemory) (dest : VulkanMemoryRange) (n a : Nat) :
    ((m.acquireRange dest n a).1 = false → m.acquireRange dest n a = (false, dest, m)) ∧
    (n > m.memorySize → (m.acquireRange dest n a).1 = false) ∧
    ((m.acquireRange dest n a).1 = true →
      ∃ i r, m.findFreeRange n a = some (i, reducedSize r a) ∧ m.ranges[i]? = some r ∧
        r.free = true ∧ n ≤ reducedSize r a ∧
        (∀ (j : Nat) (r' : VulkanMemoryRange), j < i → m.ranges[j]? = some r' →
          ¬ (r'.free = true ∧ n ≤ reducedSize r' a)) ∧
        (alignPadding r.memoryOffset a ≤ r.memorySize → r.memorySize < deviceSizeLimit →
          r.memoryOffset < deviceSizeLimit →
          reducedSize r a = r.memorySize - alignPadding r.memoryOffset a ∧
          alignPadding r.memoryOffset a + n ≤ r.memorySize ∧
          (m.acquireRange dest n a).2.1 =
            ⟨r.memory, n, wadd r.memoryOffset (alignPadding r.memoryOffset a), false⟩ ∧
          (m.acquireRange dest n a).2.2 =
            { m with ranges :=
                (m.ranges.set i
                    ⟨r.memory, n, wadd r.memoryOffset (alignPadding r.memoryOffset a), false⟩ ++
                  (if r.memorySize - alignPadding r.memoryOffset a - n ≠ 0 then
                    [⟨m.addr, r.memorySize - alignPadding r.memoryOffset a - n,
                      wadd (wadd r.memoryOffset (alignPadding r.memoryOffset a)) n, true⟩]
                   else [])) } ∧
          (r.memoryOffset + r.memorySize < deviceSizeLimit →
            wadd r.memoryOffset (alignPadding r.memoryOffset a) =
              r.memoryOffset + alignPadding r.memoryOffset a ∧
            wadd (wadd r.memoryOffset (alignPadding r.memoryOffset a)) n =
              r.memoryOffset + alignPadding r.memoryOffset a + n))) := by
  refine ⟨acquireRange_false, ?_, ?_⟩
  · intro hn
    simp [acquireRange, hn]
  · intro h
    obtain ⟨i, r, hr, hfree, -, hfind, hle', -, hfits⟩ := acquireRange_true_fits h
    obtain ⟨r', hr', -, -, -, hfirst⟩ := findFreeRange_get hfind
    refine ⟨i, r, hfind, hr, hfree, hle', hfirst, ?_⟩
    intro hp hs ho
    obtain ⟨hle, heq⟩ := hfits hp hs ho
    refine ⟨reducedSize_of_le hp hs, hle, by rw [heq], by rw [heq], ?_⟩
    intro hend
    have h1 : wadd r.memoryOffset (alignPadding r.memoryOffset a) =
        r.memoryOffset + alignPadding r.memoryOffset a := wadd_of_lt (by omega)
    rw [h1]
    exact ⟨rfl, wadd_of_lt (by omega)⟩

theorem acquireRange_effect_witness :
    ((VulkanMemory.mk 1 100 0 [⟨1, 16, 0, false⟩, ⟨1, 32, 16, true⟩, ⟨1, 49, 48, false⟩,
        ⟨1, 3, 97, true⟩]).acquireRange VulkanMemoryRange.empty 8 16).1 = true ∧
      (VulkanMemory.mk 1 100 0 [⟨1, 16, 0, false⟩, ⟨1, 32, 16, true⟩, ⟨1, 49, 48, false⟩,
        ⟨1, 3, 97, true⟩]).acquireRange VulkanMemoryRange.empty 8 16 =
        (true, ⟨1, 8, 16, false⟩,
          ⟨1, 100, 0, [⟨1, 16, 0, false⟩, ⟨1, 8, 16, false⟩, ⟨1, 49, 48, false⟩, ⟨1, 3, 97, true⟩,
            ⟨1, 24, 24, true⟩]⟩) ∧
      ∃ (i : Nat) (r : VulkanMemoryRange),
        (VulkanMemory.mk 1 100 0 [⟨1, 16, 0, false⟩, ⟨1, 32, 16, true⟩, ⟨1, 49, 48, false⟩,
          ⟨1, 3, 97, true⟩]).findFreeRange 8 16 = some (i, reducedSize r 16) ∧
        (VulkanMemory.mk 1 100 0 [⟨1, 16, 0, false⟩, ⟨1, 32, 16, true⟩, ⟨1, 49, 48, false⟩,
          ⟨1, 3, 97, true⟩]).ranges[i]? = some r ∧
        r.free = true :=
  ⟨by decide, by decide,
    ((acquireRange_effect (VulkanMemory.mk 1 100 0 [⟨1, 16, 0, false⟩, ⟨1, 32, 16, true⟩,
        ⟨1, 49, 48, false⟩, ⟨1, 3, 97, true⟩])
      VulkanMemoryRange.empty 8 16).2.2 (by decide)).imp
      (fun _ => Exists.imp (fun _ h => ⟨h.1, h.2.1, h.2.2.1⟩))⟩

/-! ## Requests whose padding is larger than the free range -/

/-- C5 (first fit), evaluated on the block of 100 bytes reached by
`acquireRange (_, 97, 0)`: its ranges lie inside the block, the only free range
`[97, 100)` needs 15 bytes of padding for alignment 16, so no free range has
`padding + 1 ≤ size`; yet `acquireRange (_, 1, 16)` returns true. -/
theorem first_fit_accepts_short_range :
    ((create 1 100 0).acquireRange VulkanMemoryRange.empty 97 0).2.2 =
        ⟨1, 100, 0, [⟨1, 97, 0, false⟩, ⟨1, 3, 97, true⟩]⟩ ∧
      (∀ r ∈ [(⟨1, 97, 0, false⟩ : VulkanMemoryRange), ⟨1, 3, 97, true⟩],
        r.memoryOffset + r.memorySize ≤ 100) ∧
      ((VulkanMemory.mk 1 100 0 [⟨1, 97, 0, false⟩, ⟨1, 3, 97, true⟩]).acquireRange
        VulkanMemoryRange.empty 1 16).1 = true ∧
      ¬ ∃ r ∈ [(⟨1, 97, 0, false⟩ : VulkanMemoryRange), ⟨1, 3, 97, true⟩],
        r.free = true ∧ alignPadding r.memoryOffset 16 + 1 ≤ r.memorySize := by
  refine ⟨by decide, by decide, by decide, by decide⟩

/-- C3 (leased range inside the block), evaluated on a fresh block of 100
bytes: after `acquireRange (_, 97, 0)` the call `acquireRange (_, 1, 16)`
returns true with the range at offset 112 of size 1, which ends at 113, behind
the end of the block. -/
theorem leased_range_outside_block :
    (((create 1 100 0).acquireRange VulkanMemoryRange.empty 97 0).2.2.acquireRange
        VulkanMemoryRange.empty 1 16).1 = true ∧
      (((create 1 100 0).acquireRange VulkanMemoryRange.empty 97 0).2.2.acquireRange
        VulkanMemoryRange.empty 1 16).2.1 = ⟨1, 1, 112, false⟩ ∧
      ¬ (VulkanMemoryRange.mk 1 1 112 false).getEnd ≤ (create 1 100 0).memorySize := by
  refine ⟨by decide, by decide, by decide⟩

/-- C2 (no double allocation), evaluated on a fresh block of 64 bytes: after
the requests `(1, 0)`, `(1, 0)`, `(62, 0)` and the disposal of the range
`[1, 2)`, the request `(8, 16)` returns true with the range `[16, 24)`, while
the range `[2, 64)` is still in use. -/
theorem double_allocation :
    ((((create 1 64 0).acquireRange VulkanMemoryRange.empty 1 0).2.2.acquireRange
        VulkanMemoryRange.empty 1 0).2.2.acquireRange VulkanMemoryRange.empty 62 0).2.2 =
        ⟨1, 64, 0, [⟨1, 1, 0, false⟩, ⟨1, 1, 1, false⟩, ⟨1, 62, 2, false⟩]⟩ ∧
      (VulkanMemory.mk 1 64 0
          [⟨1, 1, 0, false⟩, ⟨1, 1, 1, false⟩, ⟨1, 62, 2, false⟩]).disposeRange ⟨1, 1, 1, false⟩
          false =
        some ⟨1, 64, 0, [⟨1, 1, 0, false⟩, ⟨1, 1, 1, true⟩, ⟨1, 62, 2, false⟩]⟩ ∧
      (VulkanMemory.mk 1 64 0
          [⟨1, 1, 0, false⟩, ⟨1, 1, 1, true⟩, ⟨1, 62, 2, false⟩]).acquireRange
          VulkanMemoryRange.empty 8 16 =
        (true, ⟨1, 8, 16, false⟩,
          ⟨1, 64, 0, [⟨1, 1, 0, false⟩, ⟨1, 8, 16, false⟩, ⟨1, 62, 2, false⟩,
            ⟨1, 18446744073709551594, 24, true⟩]⟩) ∧
      Overlap ⟨1, 8, 16, false⟩ ⟨1, 62, 2, false⟩ := by
  refine ⟨by decide, by decide, by decide, by decide⟩

/-! ## The pool -/

theorem acquireRange_fields (m : VulkanMemory) (dest : VulkanMemoryRange) (n a : Nat) :
    (m.acquireRange dest n a).2.2.addr = m.addr ∧
      (m.acquireRange dest n a).2.2.memorySize = m.memorySize ∧
      (m.acquireRange dest n a).2.2.memoryTypeIndex = m.memoryTypeIndex := by
  cases h : (m.acquireRange dest n a).1 with
  | false => rw [acquireRange_false h]; exact ⟨rfl, rfl, rfl⟩
  | true =>
    obtain ⟨i, ns, r, -, -, -, -, heq⟩ := acquireRange_true h
    rw [heq]; exact ⟨rfl, rfl, rfl⟩

/-- Whether `acquireRange` succeeds does not depend on the out parameter. -/
theorem acquireRange_flag (m : VulkanMemory) (dest dest' : VulkanMemoryRange) (n a : Nat) :
    (m.acquireRange dest n a).1 = (m.acquireRange dest' n a).1 := by
  cases h : (m.acquireRange dest n a).1 with
  | false =>
    cases h' : (m.acquireRange dest' n a).1 with
    | false => rfl
    | true =>
      obtain ⟨i, ns, r, hn, hfind, hns, -, -⟩ := acquireRange_true h'
      rw [acquireRange_of_find dest hn hfind hns] at h
      exact absurd h (by simp)
  | true =>
    obtain ⟨i, ns, r, hn, hfind, hns, -, -⟩ := acquireRange_true h
    exact (acquireRange_of_find dest' hn hfind hns).symm

/-- The block and the returned range of a successful `acquireRange` do not
depend on the out parameter. -/
theorem acquireRange_dest (m : VulkanMemory) (dest dest' : VulkanMemoryRange) (n a : Nat)
    (h : (m.acquireRange dest n a).1 = true) :
    m.acquireRange dest n a = m.acquireRange dest' n a := by
  have h' : (m.acquireRange dest' n a).1 = true := by rw [← acquireRange_flag m dest dest']; exact h
  obtain ⟨i, ns, r, -, hfind, -, hr, heq⟩ := acquireRange_true h
  obtain ⟨i', ns', r', -, hfind', -, hr', heq'⟩ := acquireRange_true h'
  rw [hfind] at hfind'
  simp only [Option.some.injEq, Prod.mk.injEq] at hfind'
  obtain ⟨rfl, rfl⟩ := hfind'
  rw [hr] at hr'
  simp only [Option.some.injEq] at hr'
  subst hr'
  rw [heq, heq']

/-- The loop of `acquire` when no block of the requested type takes the
request: nothing changes. -/
theorem acquireFromBlocks_none {n a t : Nat} : ∀ (blocks : List VulkanMemory)
    (range : VulkanMemoryRange),
    (∀ b ∈ blocks, b.memoryTypeIndex = t → (b.acquireRange range n a).1 = false) →
    VulkanMemoryPool.acquireFromBlocks n a t range blocks = (false, range, blocks)
  | [], range, _ => rfl
  | b :: rest, range, h => by
    have hrest := acquireFromBlocks_none rest range
      (fun b' hb' => h b' (List.mem_cons_of_mem _ hb'))
    unfold VulkanMemoryPool.acquireFromBlocks
    by_cases ht : (t == b.getMemoryTypeIndex) = true
    · have hb := h b (List.mem_cons_self _ _)
        (by have := beq_iff_eq.1 ht; exact this.symm)
      rw [if_pos ht, acquireRange_false hb]
      simp [hrest]
    · rw [if_neg ht]
      simp only [hrest]

/-- The loop of `acquire` when some block of the requested type takes the
request: the first such block serves it and no other block changes. -/
theorem acquireFromBlocks_some {n a t : Nat} : ∀ (pre : List VulkanMemory) (b : VulkanMemory)
    (post : List VulkanMemory) (range : VulkanMemoryRange),
    (∀ b' ∈ pre, b'.memoryTypeIndex = t → (b'.acquireRange range n a).1 = false) →
    b.memoryTypeIndex = t → (b.acquireRange range n a).1 = true →
    VulkanMemoryPool.acquireFromBlocks n a t range (pre ++ b :: post) =
      (true, (b.acquireRange range n a).2.1, pre ++ (b.acquireRange range n a).2.2 :: post)
  | [], b, post, range, _, ht, hb => by
    simp [VulkanMemoryPool.acquireFromBlocks, VulkanMemory.getMemoryTypeIndex, ht, hb]
  | c :: pre, b, post, range, h, ht, hb => by
    have hrest := acquireFromBlocks_some pre b post range
      (fun b' hb' => h b' (List.mem_cons_of_mem _ hb')) ht hb
    simp only [List.cons_append]
    unfold VulkanMemoryPool.acquireFromBlocks
    by_cases htc : (t == c.getMemoryTypeIndex) = true
    · have hc := h c (List.mem_cons_self _ _)
        (by have := beq_iff_eq.1 htc; exact this.symm)
      rw [if_pos htc, acquireRange_false hc]
      simp [hrest, acquireRange_false hc]
    · rw [if_neg htc]
      simp only [hrest]

/-- The blocks split at the first block of type `t` that takes the request. -/
theorem exists_first_taker {n a t : Nat} (range : VulkanMemoryRange) :
    ∀ (blocks : List VulkanMemory),
    (∀ b ∈ blocks, b.memoryTypeIndex = t → (b.acquireRange range n a).1 = false) ∨
    ∃ pre b post, blocks = pre ++ b :: post ∧
      (∀ b' ∈ pre, b'.memoryTypeIndex = t → (b'.acquireRange range n a).1 = false) ∧
      b.memoryTypeIndex = t ∧ (b.acquireRange range n a).1 = true
  | [] => Or.inl (by simp)
  | c :: rest => by
    by_cases hc : c.memoryTypeIndex = t ∧ (c.acquireRange range n a).1 = true
    · exact Or.inr ⟨[], c, rest, rfl, by simp, hc.1, hc.2⟩
    · have hc' : c.memoryTypeIndex = t → (c.acquireRange range n a).1 = false := by
        intro ht
        cases hv : (c.acquireRange range n a).1 with
        | false => rfl
        | true => exact absurd ⟨ht, hv⟩ hc
      rcases exists_first_taker range rest with h | ⟨pre, b, post, hsplit, hpre, ht, hb⟩
      · left
        intro b hb
        rcases List.mem_cons.1 hb with rfl | hb
        · exact hc'
        · exact h b hb
      · right
        refine ⟨c :: pre, b, post, by rw [hsplit]; rfl, ?_, ht, hb⟩
        intro b' hb'
        rcases List.mem_cons.1 hb' with rfl | hb'
        · exact hc'
        · exact hpre b' hb'

theorem log2Loop_eq : ∀ (fuel n : Nat), n < 2 ^ fuel → VulkanMemoryPool.log2Loop fuel n = Nat.log2 n
  | 0, n, h => by
    have : n = 0 := by simpa using h
    subst this
    simp [VulkanMemoryPool.log2Loop, Nat.log2_zero]
  | fuel + 1, n, h => by
    unfold VulkanMemoryPool.log2Loop
    rw [Nat.log2]
    by_cases h2 : n ≥ 2
    · rw [if_pos h2, if_pos h2, log2Loop_eq fuel (n / 2)]
      rw [Nat.pow_succ] at h
      omega
    · rw [if_neg h2, if_neg h2]

/-- On 64 bit values `log2Floor` is the integer binary logarithm. -/
theorem log2Floor_eq {n : Nat} (h : n < 2 ^ 64) : VulkanMemoryPool.log2Floor n = Nat.log2 n :=
  log2Loop_eq 64 n h

theorem nextPowerOfTwo_of_lt {n : Nat} (h0 : 0 < n) (h : n < 2 ^ 63) :
    VulkanMemoryPool.nextPowerOfTwo n = some (2 ^ (Nat.log2 n + 1)) ∧ n < 2 ^ (Nat.log2 n + 1) := by
  have hlog : Nat.log2 n < 63 := (Nat.log2_lt (by omega)).2 h
  refine ⟨?_, Nat.lt_log2_self⟩
  unfold VulkanMemoryPool.nextPowerOfTwo
  rw [if_neg (by omega), log2Floor_eq (by omega)]
  simp only
  rw [if_pos (by omega)]

/-- The block that `allocateBlock` creates for a request that is below `2 ^ 63`
or not above the minimum block size. -/
theorem allocateBlock_some (p : VulkanMemoryPool) (newAddr n t : Nat)
    (h : n < 2 ^ 63 ∨ n ≤ p.minBlockSize) :
    ∃ S, p.allocateBlock newAddr n t = some (create newAddr S t) ∧ max p.minBlockSize n ≤ S := by
  unfold VulkanMemoryPool.allocateBlock
  by_cases hgt : n > p.minBlockSize
  · rw [if_pos hgt]
    have hn : n < 2 ^ 63 := by omega
    obtain ⟨hp, hlt⟩ := nextPowerOfTwo_of_lt (by omega) hn
    rw [hp]
    exact ⟨_, rfl, by omega⟩
  · rw [if_neg hgt]
    exact ⟨_, rfl, by omega⟩

/-! ## Alignment of the returned range -/

/-- The range that a successful `acquireRange` returns, on a block whose ranges
lie inside it, as long as `memorySize + rangeAlignment` does not pass `2 ^ 64`. -/
theorem acquireRange_aligned {m : VulkanMemory} {dest : VulkanMemoryRange} {n a : Nat}
    (hin : RangesInside m) (hS : m.memorySize + a ≤ deviceSizeLimit)
    (h : (m.acquireRange dest n a).1 = true) :
    (a ≠ 0 → (m.acquireRange dest n a).2.1.memoryOffset % a = 0) ∧
      (m.acquireRange dest n a).2.1.memorySize = n ∧
      (m.acquireRange dest n a).2.1.free = false ∧
      (m.acquireRange dest n a).2.1.memory = m.addr := by
  obtain ⟨i, ns, r, -, -, -, hr, heq⟩ := acquireRange_true h
  have hmem : r ∈ m.ranges := List.getElem?_mem hr
  obtain ⟨hown, hend⟩ := hin r hmem
  rw [heq]
  refine ⟨?_, rfl, rfl, hown⟩
  intro ha
  have hpad := alignPadding_lt (o := r.memoryOffset) ha
  show alignedOffset r.memoryOffset a % a = 0
  rw [alignedOffset_eq _ _ (by omega), wadd_of_lt (by omega)]
  exact add_alignPadding_mod _ _ ha

theorem mergeAdjacentStep_zero (l : List VulkanMemoryRange) : mergeAdjacentStep l 0 = l := by
  simp [mergeAdjacentStep]

theorem mergeAdjacentStep_one (x : VulkanMemoryRange) (t : List VulkanMemoryRange) :
    mergeAdjacentStep (x :: t) 1 = mergePair x t := by
  cases t with
  | nil => simp [mergeAdjacentStep, mergePair]
  | cons y rest =>
    simp only [mergeAdjacentStep, mergePair]
    by_cases hy : y.isFree = true <;> by_cases hx : x.isFree = true <;> simp [hx, hy]

theorem mergeAdjacentStep_succ (x : VulkanMemoryRange) (t : List VulkanMemoryRange) (k : Nat) :
    mergeAdjacentStep (x :: t) (k + 2) = x :: mergeAdjacentStep t (k + 1) := by
  have h1 : ¬ k + 2 < 1 := by omega
  have h2 : ¬ k + 1 < 1 := by omega
  have e1 : k + 2 - 1 = k + 1 := by omega
  have e2 : k + 1 - 1 = k := by omega
  unfold mergeAdjacentStep
  rw [if_neg h1, if_neg h2, e1, e2]
  simp only [List.getElem?_cons_succ]
  cases hr : t[k + 1]? with
  | none => rfl
  | some right =>
    cases hl : t[k]? with
    | none => rfl
    | some left =>
      by_cases hy : right.isFree = true <;> by_cases hx : left.isFree = true <;>
        simp [hx, hy, List.set_cons_succ]

theorem mergeAdjacentLoop_cons (x : VulkanMemoryRange) :
    ∀ (k : Nat) (t : List VulkanMemoryRange),
      mergeAdjacentLoop (k + 2) (x :: t) = mergePair x (mergeAdjacentLoop (k + 1) t)
  | 0, t => by
    simp [mergeAdjacentLoop, mergeAdjacentStep_zero, mergeAdjacentStep_one]
  | k + 1, t => by
    rw [mergeAdjacentLoop, mergeAdjacentStep_succ, mergeAdjacentLoop_cons x k]
    rfl

/-- The loop of `mergeAdjacentRanges` computes `mergeFromRight`. -/
theorem mergeAdjacentLoop_eq : ∀ (l : List VulkanMemoryRange),
    mergeAdjacentLoop l.length l = mergeFromRight l
  | [] => rfl
  | [x] => by simp [mergeAdjacentLoop, mergeAdjacentStep_zero, mergeFromRight, mergePair]
  | x :: y :: t => by
    have ih := mergeAdjacentLoop_eq (y :: t)
    simp only [List.length_cons] at ih ⊢
    rw [mergeAdjacentLoop_cons, ih]
    rfl

/-! ## Merging keeps a cover -/

theorem Covers_filter_cons {g : Bool} {h : VulkanMemoryRange} {t : List VulkanMemoryRange}
    {x y : Nat} (h1 : follows g x h.memoryOffset)
    (h2 : Covers g (t.filter (fun r => !r.isEmpty)) (h.memoryOffset + h.memorySize) y) :
    Covers g ((h :: t).filter (fun r => !r.isEmpty)) x y := by
  by_cases he : h.memorySize = 0
  · have : (!h.isEmpty) = false := by simp [VulkanMemoryRange.isEmpty, VulkanMemoryRange.getSize, he]
    rw [List.filter_cons_of_neg (p := fun r => !r.isEmpty) (a := h) (by simp [this])]
    rw [he] at h2
    exact Covers_mono_left h1 h2
  · have : (!h.isEmpty) = true := by simp [VulkanMemoryRange.isEmpty, VulkanMemoryRange.getSize, he]
    rw [List.filter_cons_of_pos (p := fun r => !r.isEmpty) (a := h) this]
    exact ⟨h1, h2⟩

theorem getEnd_of_lt {r : VulkanMemoryRange} (h : r.memoryOffset + r.memorySize < deviceSizeLimit) :
    r.getEnd = r.memoryOffset + r.memorySize := wadd_of_lt h

/-- The first range after `mergeFromRight` on a cover: it keeps its offset, owner
and flag, does not shrink, and the non-empty ranges behind it cover the rest. -/
theorem mergeFromRight_cons {g : Bool} : ∀ (t : List VulkanMemoryRange) (h : VulkanMemoryRange)
    (x y : Nat), Covers g (h :: t) x y → y < deviceSizeLimit →
    ∃ h' t', mergeFromRight (h :: t) = h' :: t' ∧ h'.memoryOffset = h.memoryOffset ∧
      h'.free = h.free ∧ h'.memory = h.memory ∧ h.memorySize ≤ h'.memorySize ∧
      Covers g (t'.filter (fun r => !r.isEmpty)) (h'.memoryOffset + h'.memorySize) y
  | [], h, x, y, hc, _ => ⟨h, [], rfl, rfl, rfl, rfl, le_refl _, hc.2⟩
  | k :: t2, h, x, y, hc, hy => by
    obtain ⟨k', t'', hm, hoff, hfree, hmem, hsize, hcov⟩ :=
      mergeFromRight_cons t2 k (h.memoryOffset + h.memorySize) y hc.2 hy
    have hstep : mergeFromRight (h :: k :: t2) = mergePair h (k' :: t'') := by
      rw [mergeFromRight, hm]
    have hke : k'.memoryOffset + k'.memorySize ≤ y := Covers_le hcov
    have hhk : h.memoryOffset + h.memorySize ≤ k'.memoryOffset := by
      rw [hoff]; exact follows_le hc.2.1
    have hfol : follows g (h.memoryOffset + h.memorySize) k'.memoryOffset := by
      rw [hoff]; exact hc.2.1
    by_cases hb : (k'.isFree && h.isFree) = true
    · refine ⟨{ h with memorySize := wadd h.memorySize (wsub k'.getEnd h.getEnd) },
        { k' with memoryOffset := 0, memorySize := 0 } :: t'', ?_, rfl, rfl, rfl, ?_, ?_⟩
      · rw [hstep, mergePair, if_pos hb]
      · show h.memorySize ≤ wadd h.memorySize (wsub k'.getEnd h.getEnd)
        rw [getEnd_of_lt (by omega), getEnd_of_lt (by omega), wsub_of_le (by omega) (by omega),
          wadd_of_lt (by omega)]
        omega
      · have hsz : wadd h.memorySize (wsub k'.getEnd h.getEnd) =
            k'.memoryOffset + k'.memorySize - h.memoryOffset := by
          rw [getEnd_of_lt (by omega), getEnd_of_lt (by omega), wsub_of_le (by omega) (by omega),
            wadd_of_lt (by omega)]
          omega
        rw [List.filter_cons_of_neg (p := fun (r : VulkanMemoryRange) => !r.isEmpty)
          (by simp [VulkanMemoryRange.isEmpty, VulkanMemoryRange.getSize])]
        show Covers g _ (h.memoryOffset + wadd h.memorySize (wsub k'.getEnd h.getEnd)) y
        rw [hsz]
        have : h.memoryOffset + (k'.memoryOffset + k'.memorySize - h.memoryOffset) =
            k'.memoryOffset + k'.memorySize := by omega
        rw [this]
        exact hcov
    · refine ⟨h, k' :: t'', ?_, rfl, rfl, rfl, le_refl _, Covers_filter_cons hfol hcov⟩
      rw [hstep, mergePair, if_neg hb]

/-- After `mergeFromRight` and the removal of the empty ranges a cover is still
a cover of the same stretch. -/
theorem mergeFromRight_covers {g : Bool} (c : List VulkanMemoryRange) (x y : Nat)
    (hc : Covers g c x y) (hy : y < deviceSizeLimit) :
    Covers g ((mergeFromRight c).filter (fun r => !r.isEmpty)) x y := by
  cases c with
  | nil => exact hc
  | cons h t =>
    obtain ⟨h', t', hm, hoff, -, -, -, hcov⟩ := mergeFromRight_cons t h x y hc hy
    rw [hm]
    exact Covers_filter_cons (by rw [hoff]; exact hc.1) hcov

/-! ## The two ends after the merge -/

theorem moveFirstToStart_nil : moveFirstToStart [] = [] := rfl

theorem moveFirstToStart_cons (h : VulkanMemoryRange) (t : List VulkanMemoryRange) :
    moveFirstToStart (h :: t) = (if h.isFree then { h with memoryOffset := 0 } else h) :: t := by
  unfold moveFirstToStart
  by_cases hf : h.isFree = true <;> simp [hf]

theorem growLastToEnd_nil (S : Nat) : growLastToEnd S [] = [] := rfl

theorem growLastToEnd_concat (S : Nat) (init : List VulkanMemoryRange) (z : VulkanMemoryRange) :
    growLastToEnd S (init ++ [z]) =
      init ++ [if z.isFree && decide (z.getEnd < S) then
        { z with memorySize := wsub S z.getOffset } else z] := by
  unfold growLastToEnd
  have hlen : (init ++ [z]).length - 1 = init.length := by simp
  rw [hlen]
  have hget : (init ++ [z])[init.length]? = some z := by simp
  rw [hget]
  by_cases hc : (z.isFree && decide (z.getEnd < S)) = true
  · simp [hc]
  · simp [hc]

theorem moveFirstToStart_covers {g : Bool} {l : List VulkanMemoryRange} {y : Nat}
    (h : Covers g l 0 y) : Covers g (moveFirstToStart l) 0 y := by
  cases l with
  | nil => exact h
  | cons r t =>
    rw [moveFirstToStart_cons]
    by_cases hf : r.isFree = true
    · rw [if_pos hf]
      refine ⟨follows_refl g 0, ?_⟩
      have := follows_add r.memorySize h.1
      exact Covers_mono_left this h.2
    · rw [if_neg hf]; exact h

theorem growLastToEnd_covers {g : Bool} {l : List VulkanMemoryRange} {x S : Nat}
    (h : Covers g l x S) (hS : S < deviceSizeLimit) : Covers g (growLastToEnd S l) x S := by
  rcases List.eq_nil_or_concat l with rfl | ⟨init, z, rfl⟩
  · exact h
  · rw [List.concat_eq_append] at h ⊢
    rw [growLastToEnd_concat]
    obtain ⟨w, h1, h2⟩ := Covers_append.1 h
    refine Covers_append.2 ⟨w, h1, ?_⟩
    by_cases hc : (z.isFree && decide (z.getEnd < S)) = true
    · rw [if_pos hc]
      have hz : z.memoryOffset + z.memorySize ≤ S := follows_le h2.2
      refine ⟨h2.1, ?_⟩
      show follows g (z.memoryOffset + wsub S z.getOffset) S
      rw [VulkanMemoryRange.getOffset, wsub_of_le (by omega) hS]
      exact follows_of_eq (by omega)
    · rw [if_neg hc]; exact h2

theorem moveFirstToStart_sizes {l : List VulkanMemoryRange}
    (h : ∀ r ∈ l, r.memorySize ≠ 0) : ∀ r ∈ moveFirstToStart l, r.memorySize ≠ 0 := by
  cases l with
  | nil => exact h
  | cons q t =>
    rw [moveFirstToStart_cons]
    intro r hr
    rcases List.mem_cons.1 hr with rfl | hr
    · have := h q (List.mem_cons_self _ _)
      split <;> exact this
    · exact h r (List.mem_cons_of_mem _ hr)

theorem growLastToEnd_sizes {l : List VulkanMemoryRange} {S : Nat}
    (h : ∀ r ∈ l, r.memorySize ≠ 0 ∧ r.memoryOffset + r.memorySize < deviceSizeLimit)
    (hS : S < deviceSizeLimit) :
    ∀ r ∈ growLastToEnd S l, r.memorySize ≠ 0 := by
  rcases List.eq_nil_or_concat l with rfl | ⟨init, z, rfl⟩
  · intro r hr; simp [growLastToEnd_nil] at hr
  · rw [List.concat_eq_append] at h ⊢
    rw [growLastToEnd_concat]
    intro r hr
    rcases List.mem_append.1 hr with hr | hr
    · exact (h r (List.mem_append_left _ hr)).1
    · simp only [List.mem_singleton] at hr
      have hz := h z (List.mem_append_right _ (List.mem_singleton_self _))
      by_cases hc : (z.isFree && decide (z.getEnd < S)) = true
      · rw [if_pos hc] at hr
        subst hr
        simp only [Bool.and_eq_true, decide_eq_true_eq] at hc
        have he := hc.2
        rw [getEnd_of_lt hz.2] at he
        show wsub S z.getOffset ≠ 0
        rw [VulkanMemoryRange.getOffset, wsub_of_le (by omega) hS]
        omega
      · rw [if_neg hc] at hr
        subst hr
        exact hz.1

/-- The list of ranges after `defragmentRanges` when some range is in use. -/
theorem defragmentRanges_ranges {m : VulkanMemory}
    (h : ¬ ∀ r ∈ m.ranges, r.isFree = true) :
    m.defragmentRanges.ranges =
        growLastToEnd m.memorySize (moveFirstToStart
          ((mergeFromRight (m.ranges.insertionSort offsetLE)).filter (fun r => !r.isEmpty))) ∧
      m.defragmentRanges.addr = m.addr ∧ m.defragmentRanges.memorySize = m.memorySize ∧
      m.defragmentRanges.memoryTypeIndex = m.memoryTypeIndex := by
  have hall : m.ranges.all (fun range => range.isFree) = false := by
    rw [Bool.eq_false_iff]
    intro hc
    exact h (by simpa [List.all_eq_true] using hc)
  unfold defragmentRanges
  simp only [mergeAllRanges, hall, removeEmptyRanges, mergeAdjacentRanges, sortRanges]
  rw [mergeAdjacentLoop_eq]
  by_cases hd : ((mergeFromRight (m.ranges.insertionSort offsetLE)).filter
      (fun r => !r.isEmpty)).length > 0
  · simp [hd]
  · have hnil : (mergeFromRight (m.ranges.insertionSort offsetLE)).filter
        (fun r => !r.isEmpty) = [] := by
      apply List.eq_nil_of_length_eq_zero
      omega
    simp [hnil, moveFirstToStart_nil, growLastToEnd_nil]

/-! ## Replacing one entry of a list -/

theorem set_decomp {α : Type} : ∀ {l : List α} {i : Nat} {r : α}, l[i]? = some r →
    ∃ l1 l2, l = l1 ++ r :: l2 ∧ l1.length = i ∧ ∀ r', l.set i r' = l1 ++ r' :: l2
  | [], i, r, h => by simp at h
  | x :: t, 0, r, h => by
    simp only [List.getElem?_cons_zero, Option.some.injEq] at h
    subst h
    exact ⟨[], t, rfl, rfl, fun _ => rfl⟩
  | x :: t, i + 1, r, h => by
    simp only [List.getElem?_cons_succ] at h
    obtain ⟨l1, l2, h1, h2, h3⟩ := set_decomp h
    refine ⟨x :: l1, l2, by rw [h1]; rfl, by simp [h2], ?_⟩
    intro r'
    rw [List.set_cons_succ, h3]
    rfl

/-- An arrangement of a list follows the replacement of one entry and the
addition of entries at the end. -/
theorem perm_set_append {c l : List VulkanMemoryRange} {i : Nat} {r : VulkanMemoryRange}
    (hp : c.Perm l) (hr : l[i]? = some r) :
    ∃ c1 c2, c = c1 ++ r :: c2 ∧
      ∀ r' ex, (c1 ++ (r' :: ex) ++ c2).Perm (l.set i r' ++ ex) := by
  obtain ⟨l1, l2, hl, -, hset⟩ := set_decomp hr
  have hmem : r ∈ c := hp.symm.subset (by rw [hl]; simp)
  obtain ⟨c1, c2, hc⟩ := List.append_of_mem hmem
  refine ⟨c1, c2, hc, ?_⟩
  intro r' ex
  rw [hset r']
  rw [List.perm_iff_count]
  intro a
  have hcount := List.perm_iff_count.1 hp a
  rw [hc, hl] at hcount
  simp only [List.count_append, List.count_cons] at hcount ⊢
  omega

theorem Covers_strict {g : Bool} {c : List VulkanMemoryRange} {x y : Nat} (h : Covers g c x y)
    (hpos : ∀ r ∈ c, r.memorySize ≠ 0) :
    c.Pairwise (fun p q => p.memoryOffset < q.memoryOffset) := by
  refine (Covers_pairwise h).imp_of_mem ?_
  intro p q hp _ hpq
  have := hpos p hp
  omega

/-! ## The invariant of the reachable states -/

theorem Arranged.sorted {g : Bool} {addr S : Nat} {m : VulkanMemory} (h : Arranged g addr S m) :
    Covers g (m.ranges.insertionSort offsetLE) 0 S ∧
      ((∀ r ∈ m.ranges, r.memorySize ≠ 0) ∨ (S = 0 ∧ m.ranges = [⟨addr, 0, 0, true⟩])) := by
  obtain ⟨-, -, c, hp, hc, hpos | ⟨hS, hc1⟩⟩ := h
  · rw [insertionSort_eq_of_perm hp (Covers_strict hc hpos)]
    exact ⟨hc, Or.inl (fun r hr => hpos r (hp.symm.subset hr))⟩
  · subst hc1
    have : m.ranges = [⟨addr, 0, 0, true⟩] := (List.singleton_perm.1 hp).symm
    rw [this]
    exact ⟨hc, Or.inr ⟨hS, rfl⟩⟩

theorem Arranged.create (g : Bool) (addr S ty : Nat) : Arranged g addr S (create addr S ty) := by
  refine ⟨rfl, rfl, [⟨addr, S, 0, true⟩], List.Perm.refl _, ⟨follows_refl g 0, ?_⟩, ?_⟩
  · exact follows_of_eq (by simp)
  · by_cases hS : S = 0
    · right; subst hS; exact ⟨rfl, rfl⟩
    · left; intro r hr
      simp only [List.mem_singleton] at hr
      subst hr; exact hS

theorem Arranged.defragment {g : Bool} {addr S : Nat} {m : VulkanMemory}
    (h : Arranged g addr S m) (hS : S < deviceSizeLimit) : Arranged g addr S m.defragmentRanges := by
  by_cases hall : ∀ r ∈ m.ranges, r.isFree = true
  · rw [defragmentRanges_of_all_free hall]
    obtain ⟨ha, hs, -⟩ := h
    refine ⟨ha, hs, [⟨m.addr, m.memorySize, 0, true⟩], List.Perm.refl _, ?_, ?_⟩
    · rw [hs]
      exact ⟨follows_refl g 0, follows_of_eq (by simp)⟩
    · rw [ha, hs]
      by_cases h0 : S = 0
      · right; subst h0; exact ⟨rfl, rfl⟩
      · left; intro r hr
        simp only [List.mem_singleton] at hr
        subst hr; exact h0
  · obtain ⟨hr, ha', hs', hty⟩ := defragmentRanges_ranges hall
    have hsorted := h.sorted
    obtain ⟨ha, hs, -⟩ := h
    obtain ⟨hcov, hpos | ⟨-, hone⟩⟩ := hsorted
    · have h1 := mergeFromRight_covers _ 0 S hcov hS
      have h2 := moveFirstToStart_covers h1
      have h3 := growLastToEnd_covers h2 hS
      refine ⟨by rw [ha', ha], by rw [hs', hs], m.defragmentRanges.ranges, List.Perm.refl _, ?_,
        Or.inl ?_⟩
      · rw [hr, hs]; exact h3
      · rw [hr, hs]
        apply growLastToEnd_sizes _ hS
        intro r hrm
        refine ⟨?_, ?_⟩
        · refine moveFirstToStart_sizes ?_ r hrm
          intro q hq
          have := (List.mem_filter.1 hq).2
          simpa [VulkanMemoryRange.isEmpty, VulkanMemoryRange.getSize] using this
        · have := (Covers_mem h2 r hrm).2
          omega
    · exfalso
      apply hall
      rw [hone]
      intro r hrm
      simp only [List.mem_singleton] at hrm
      subst hrm; rfl

theorem findRange_get {range : VulkanMemoryRange} : ∀ {l : List VulkanMemoryRange} {i : Nat},
    findRange range l = some i → l[i]? = some range ∧ ∀ j, j < i → l[j]? ≠ some range
  | [], i, h => by simp [findRange] at h
  | x :: t, i, h => by
    unfold findRange at h
    by_cases hx : x.opEq range = true
    · rw [if_pos hx] at h
      simp only [Option.some.injEq] at h
      subst h
      rw [(VulkanMemoryRange.opEq_iff _ _).1 hx]
      exact ⟨by simp, fun j hj => absurd hj (Nat.not_lt_zero j)⟩
    · rw [if_neg hx] at h
      cases hf : findRange range t with
      | none => rw [hf] at h; simp at h
      | some k =>
        rw [hf] at h
        simp only [Option.map_some', Option.some.injEq] at h
        subst h
        obtain ⟨h1, h2⟩ := findRange_get hf
        refine ⟨by simpa using h1, ?_⟩
        intro j hj
        cases j with
        | zero =>
          simp only [List.getElem?_cons_zero, ne_eq, Option.some.injEq]
          intro he
          exact hx ((VulkanMemoryRange.opEq_iff _ _).2 he)
        | succ j' =>
          simp only [List.getElem?_cons_succ]
          exact h2 j' (by omega)

/-- The result of `disposeRange`: the first stored range equal to `range` is
marked free, and the block is defragmented if asked for. -/
theorem disposeRange_some {m m' : VulkanMemory} {range : VulkanMemoryRange} {d : Bool}
    (h : m.disposeRange range d = some m') :
    ∃ i, m.ranges[i]? = some range ∧ (∀ j, j < i → m.ranges[j]? ≠ some range) ∧
      m' = (if d then
        defragmentRanges { m with ranges := m.ranges.set i { range with free := true } }
        else { m with ranges := m.ranges.set i { range with free := true } }) := by
  unfold disposeRange at h
  cases hf : findRange range m.ranges with
  | none => rw [hf] at h; simp at h
  | some i =>
    obtain ⟨hget, hfirst⟩ := findRange_get hf
    rw [hf] at h
    simp only [hget] at h
    refine ⟨i, hget, hfirst, ?_⟩
    cases d with
    | true => simpa using h.symm
    | false => simpa using h.symm

theorem Arranged.setFree {g : Bool} {addr S : Nat} {m : VulkanMemory} {i : Nat}
    {range : VulkanMemoryRange} (h : Arranged g addr S m) (hget : m.ranges[i]? = some range) :
    Arranged g addr S { m with ranges := m.ranges.set i { range with free := true } } := by
  obtain ⟨ha, hs, c, hp, hc, hpos⟩ := h
  obtain ⟨c1, c2, hc12, hperm⟩ := perm_set_append hp hget
  refine ⟨ha, hs, c1 ++ { range with free := true } :: c2, ?_, ?_, ?_⟩
  · have := hperm { range with free := true } []
    simpa using this
  · rw [hc12] at hc
    obtain ⟨z, h1, h2⟩ := Covers_append.1 hc
    exact Covers_append.2 ⟨z, h1, h2⟩
  · rcases hpos with hpos | ⟨h0, hone⟩
    · left
      intro r hr
      rw [hc12] at hpos
      rcases List.mem_append.1 hr with hr | hr
      · exact hpos r (List.mem_append_left _ hr)
      · rcases List.mem_cons.1 hr with rfl | hr
        · exact hpos range (List.mem_append_right _ (List.mem_cons_self _ _))
        · exact hpos r (List.mem_append_right _ (List.mem_cons_of_mem _ hr))
    · right
      refine ⟨h0, ?_⟩
      rw [hc12] at hone
      cases c1 with
      | nil =>
        simp only [List.nil_append, List.cons.injEq] at hone
        obtain ⟨rfl, rfl⟩ := hone
        rfl
      | cons x t =>
        simp only [List.cons_append, List.cons.injEq] at hone
        have := hone.2
        simp at this

theorem Arranged.dispose {g : Bool} {addr S : Nat} {m m' : VulkanMemory}
    {range : VulkanMemoryRange} {d : Bool} (h : Arranged g addr S m) (hS : S < deviceSizeLimit)
    (hd : m.disposeRange range d = some m') : Arranged g addr S m' := by
  obtain ⟨i, hget, -, hm'⟩ := disposeRange_some hd
  have h1 := h.setFree hget
  cases d with
  | true =>
    simp only [if_true] at hm'
    rw [hm']
    exact h1.defragment hS
  | false =>
    simp only [Bool.false_eq_true, if_false] at hm'
    rw [hm']
    exact h1

theorem follows_add_padding {g : Bool} {z o p : Nat} (h : follows g z o)
    (hp : g = false → p = 0) : follows g z (o + p) := by
  cases g with
  | false => rw [hp rfl]; exact h
  | true => exact follows_of_le (by have := follows_le h; omega)

theorem Arranged.acquire {g : Bool} {addr S : Nat} {m : VulkanMemory} (dest : VulkanMemoryRange)
    {n a : Nat} (h : Arranged g addr S m) (hS : S < deviceSizeLimit) (hn : 0 < n)
    (hpad : PaddingFits g m n a) : Arranged g addr S (m.acquireRange dest n a).2.2 := by
  cases hflag : (m.acquireRange dest n a).1 with
  | false => rw [acquireRange_false hflag]; exact h
  | true =>
    obtain ⟨i, r, hr, -, hnS, hfind, -, -, hfits⟩ := acquireRange_true_fits hflag
    obtain ⟨hp, hp0⟩ := hpad i _ r hfind hr
    obtain ⟨ha, hs, c, hperm, hc, hpos⟩ := h
    obtain ⟨c1, c2, hc12, hnew⟩ := perm_set_append hperm hr
    have hrc : r ∈ c := by rw [hc12]; simp
    have hrS := (Covers_mem hc r hrc).2
    obtain ⟨hfit, heq⟩ := hfits hp (by omega) (by omega)
    rw [heq]
    have hw1 : wadd r.memoryOffset (alignPadding r.memoryOffset a) =
        r.memoryOffset + alignPadding r.memoryOffset a := wadd_of_lt (by omega)
    have hw2 : wadd (r.memoryOffset + alignPadding r.memoryOffset a) n =
        r.memoryOffset + alignPadding r.memoryOffset a + n := wadd_of_lt (by omega)
    rw [hw1, hw2]
    rw [hc12] at hc
    obtain ⟨z, hz1, hz2, hz3⟩ := Covers_append.1 hc
    have hpos' : ∀ q ∈ c, q.memorySize ≠ 0 := by
      rcases hpos with hpos | ⟨h0, -⟩
      · exact hpos
      · omega
    have hfol := follows_add_padding hz2 hp0
    by_cases hrest : r.memorySize - alignPadding r.memoryOffset a - n ≠ 0
    · rw [if_pos hrest]
      refine ⟨ha, hs, _, hnew _ _, ?_, Or.inl ?_⟩
      · refine Covers_append.2 ⟨r.memoryOffset + r.memorySize,
          Covers_append.2 ⟨z, hz1, hfol, follows_refl g _, ?_⟩, hz3⟩
        exact follows_of_eq (by
          show r.memoryOffset + alignPadding r.memoryOffset a + n +
            (r.memorySize - alignPadding r.memoryOffset a - n) = r.memoryOffset + r.memorySize
          omega)
      · intro q hq
        rw [hc12] at hpos'
        simp only [List.mem_append, List.mem_cons, List.mem_singleton, List.not_mem_nil,
          or_false] at hq
        rcases hq with (hq | hq | hq) | hq
        · exact hpos' q (List.mem_append_left _ hq)
        · subst hq; show n ≠ 0; omega
        · subst hq; exact hrest
        · exact hpos' q (List.mem_append_right _ (List.mem_cons_of_mem _ hq))
    · rw [if_neg hrest]
      refine ⟨ha, hs, _, hnew _ _, ?_, Or.inl ?_⟩
      · refine Covers_append.2 ⟨r.memoryOffset + r.memorySize,
          Covers_append.2 ⟨z, hz1, hfol, ?_⟩, hz3⟩
        exact follows_of_eq (by
          show r.memoryOffset + alignPadding r.memoryOffset a + n =
            r.memoryOffset + r.memorySize
          omega)
      · intro q hq
        rw [hc12] at hpos'
        simp only [List.mem_append, List.mem_cons, List.not_mem_nil, or_false] at hq
        rcases hq with (hq | hq) | hq
        · exact hpos' q (List.mem_append_left _ hq)
        · subst hq; show n ≠ 0; omega
        · exact hpos' q (List.mem_append_right _ (List.mem_cons_of_mem _ hq))

/-- Every state reached with padding that fits is arranged. -/
theorem Reach.arranged {g : Bool} {addr S ty : Nat} (hS : S < deviceSizeLimit)
    {m : VulkanMemory} (h : Reach g addr S ty m) : Arranged g addr S m := by
  induction h with
  | fresh => exact Arranged.create g addr S ty
  | acquire m dest n a _ hn hpad ih => exact ih.acquire dest hS hn hpad
  | dispose m m' range d _ hd ih => exact ih.dispose hS hd
  | defragment m _ ih => exact ih.defragment hS

/-! ## The tiling invariant -/

/-- C1 (tiling invariant), amended. Take the states that `acquireRange` with
non-zero sizes, `disposeRange` (with or without defragmentation) and
`defragmentRanges` reach from a freshly constructed block. If every request is
served without alignment padding, the ranges sorted by offset tile
`[0, memorySize)` exactly: the first starts at 0, every next one starts where
the one before ends, the last ends at `memorySize`. If requests are served with
padding that fits into the free range they are served from, the ranges sorted
by offset still lie inside `[0, memorySize)` without overlap, but gaps of
unused bytes (the skipped padding) may lie between them. -/
theorem tiling_invariant (addr S ty : Nat) (hS : S < deviceSizeLimit) (m : VulkanMemory) :
    (Reach false addr S ty m → Tiles m) ∧ (Reach true addr S ty m → Packed m) := by
  constructor
  · intro h
    have ha := Reach.arranged hS h
    unfold Tiles
    rw [ha.2.1]
    exact ha.sorted.1
  · intro h
    have ha := Reach.arranged hS h
    unfold Packed
    rw [ha.2.1]
    exact ha.sorted.1

theorem tiling_invariant_witness :
    (64 < deviceSizeLimit ∧
        Reach false 1 64 0
          ((((create 1 64 0).acquireRange VulkanMemoryRange.empty 8 0).2.2.acquireRange
            VulkanMemoryRange.empty 16 0).2.2)) ∧
      Tiles ((((create 1 64 0).acquireRange VulkanMemoryRange.empty 8 0).2.2.acquireRange
        VulkanMemoryRange.empty 16 0).2.2) :=
  have hr : Reach false 1 64 0
      ((((create 1 64 0).acquireRange VulkanMemoryRange.empty 8 0).2.2.acquireRange
        VulkanMemoryRange.empty 16 0).2.2) :=
    Reach.acquire _ _ _ _
      (Reach.acquire _ _ _ _ Reach.fresh (by decide)
        (fun _ _ r _ _ => by
          rw [alignPadding_zero_right]; exact ⟨Nat.zero_le _, fun _ => rfl⟩))
      (by decide)
      (fun _ _ r _ _ => by
        rw [alignPadding_zero_right]; exact ⟨Nat.zero_le _, fun _ => rfl⟩)
  ⟨⟨by decide, hr⟩, (tiling_invariant 1 64 0 (by decide) _).1 hr⟩

/-- C1 as stated fails: on a fresh block of 64 bytes the requests `(1, 0)` and
`(8, 16)` leave the ranges `[0, 1)`, `[16, 24)` and `[24, 64)`; the 15 bytes of
padding `[1, 16)` belong to no range. -/
theorem tiling_counterexample :
    Reachable 1 64 0
        ((((create 1 64 0).acquireRange VulkanMemoryRange.empty 1 0).2.2.acquireRange
          VulkanMemoryRange.empty 8 16).2.2) ∧
      ((((create 1 64 0).acquireRange VulkanMemoryRange.empty 1 0).2.2.acquireRange
          VulkanMemoryRange.empty 8 16).2.2).ranges =
        [⟨1, 1, 0, false⟩, ⟨1, 8, 16, false⟩, ⟨1, 40, 24, true⟩] ∧
      ¬ Tiles ((((create 1 64 0).acquireRange VulkanMemoryRange.empty 1 0).2.2.acquireRange
          VulkanMemoryRange.empty 8 16).2.2) :=
  ⟨Reachable.acquire _ _ _ _ (Reachable.acquire _ _ _ _ Reachable.fresh), by decide, by decide⟩

/-! ## Disposal of a range that is stored once -/

theorem markFree_of_not_mem {X : VulkanMemoryRange} : ∀ {l : List VulkanMemoryRange},
    X ∉ l → markFree X l = l
  | [], _ => rfl
  | x :: t, h => by
    have hx : x ≠ X := fun e => h (by rw [e]; exact List.mem_cons_self _ _)
    have ht : X ∉ t := fun e => h (List.mem_cons_of_mem _ e)
    have := markFree_of_not_mem ht
    unfold markFree at this ⊢
    rw [List.map_cons, if_neg hx, this]

theorem markFree_append (X : VulkanMemoryRange) (l1 l2 : List VulkanMemoryRange) :
    markFree X (l1 ++ l2) = markFree X l1 ++ markFree X l2 := by
  simp [markFree]

theorem markFree_cons_self (X : VulkanMemoryRange) (l : List VulkanMemoryRange) :
    markFree X (X :: l) = { X with free := true } :: markFree X l := by
  simp [markFree]

theorem markFree_cons_ne {X x : VulkanMemoryRange} (l : List VulkanMemoryRange) (h : x ≠ X) :
    markFree X (x :: l) = x :: markFree X l := by
  simp [markFree, h]

theorem findRange_of_mem {X : VulkanMemoryRange} : ∀ {l : List VulkanMemoryRange},
    X ∈ l → ∃ i, findRange X l = some i
  | [], h => by simp at h
  | x :: t, h => by
    unfold findRange
    by_cases hx : x.opEq X = true
    · exact ⟨0, by rw [if_pos hx]⟩
    · rw [if_neg hx]
      have hne : x ≠ X := fun e => hx ((VulkanMemoryRange.opEq_iff _ _).2 e)
      have ht : X ∈ t := by
        rcases List.mem_cons.1 h with e | e
        · exact absurd e.symm hne
        · exact e
      obtain ⟨i, hi⟩ := findRange_of_mem ht
      exact ⟨i + 1, by rw [hi]; rfl⟩

theorem set_first_eq_markFree {X : VulkanMemoryRange} : ∀ {l : List VulkanMemoryRange} {i : Nat},
    findRange X l = some i → l.count X = 1 → l.set i { X with free := true } = markFree X l
  | [], i, h, _ => by simp [findRange] at h
  | x :: t, i, h, hc => by
    unfold findRange at h
    by_cases hx : x.opEq X = true
    · rw [if_pos hx] at h
      simp only [Option.some.injEq] at h
      subst h
      have hxe : x = X := (VulkanMemoryRange.opEq_iff _ _).1 hx
      subst hxe
      have ht : x ∉ t := by
        rw [List.count_cons_self] at hc
        exact List.count_eq_zero.1 (by omega)
      rw [markFree_cons_self, markFree_of_not_mem ht]
      rfl
    · rw [if_neg hx] at h
      have hne : x ≠ X := fun e => hx ((VulkanMemoryRange.opEq_iff _ _).2 e)
      cases hf : findRange X t with
      | none => rw [hf] at h; simp at h
      | some k =>
        rw [hf] at h
        simp only [Option.map_some', Option.some.injEq] at h
        subst h
        rw [List.count_cons_of_ne hne.symm] at hc
        rw [List.set_cons_succ, set_first_eq_markFree hf hc, markFree_cons_ne _ hne]

/-- Disposing, without defragmentation, of a range that is stored exactly once
marks it free. -/
theorem disposeRange_of_count {m : VulkanMemory} {X : VulkanMemoryRange}
    (hc : m.ranges.count X = 1) :
    m.disposeRange X false = some { m with ranges := markFree X m.ranges } := by
  have hmem : X ∈ m.ranges := List.count_pos_iff.1 (by omega)
  obtain ⟨i, hi⟩ := findRange_of_mem hmem
  obtain ⟨hget, -⟩ := findRange_get hi
  unfold disposeRange
  rw [hi]
  simp only [hget]
  rw [set_first_eq_markFree hi hc]
  simp

/-- Sorting by offset and marking a range free can be done in either order. -/
theorem insertionSort_markFree (X : VulkanMemoryRange) (l : List VulkanMemoryRange) :
    (markFree X l).insertionSort offsetLE = markFree X (l.insertionSort offsetLE) := by
  unfold markFree
  symm
  apply List.map_insertionSort
  intro a _ b _
  have key : ∀ q : VulkanMemoryRange,
      (if q = X then ({ X with free := true } : VulkanMemoryRange) else q).memoryOffset =
        q.memoryOffset := by
    intro q
    by_cases hq : q = X
    · rw [if_pos hq, hq]
    · rw [if_neg hq]
  simp only [offsetLE, VulkanMemoryRange.getOffset, key]

/-! ## Merging next to ranges in use -/

theorem mergePair_of_used_left {left : VulkanMemoryRange} (l : List VulkanMemoryRange)
    (h : left.free = false) : mergePair left l = left :: l := by
  cases l with
  | nil => rfl
  | cons right rest => simp [mergePair, VulkanMemoryRange.isFree, h]

theorem mergePair_of_used_right (left : VulkanMemoryRange) {right : VulkanMemoryRange}
    (rest : List VulkanMemoryRange) (h : right.free = false) :
    mergePair left (right :: rest) = left :: right :: rest := by
  simp [mergePair, VulkanMemoryRange.isFree, h]

theorem mergePair_append (x : VulkanMemoryRange) {l1 : List VulkanMemoryRange}
    (l2 : List VulkanMemoryRange) (h : l1 ≠ []) :
    mergePair x (l1 ++ l2) = mergePair x l1 ++ l2 := by
  cases l1 with
  | nil => exact absurd rfl h
  | cons y t =>
    simp only [List.cons_append, mergePair]
    split <;> rfl

theorem mergePair_ne_nil (x : VulkanMemoryRange) (l : List VulkanMemoryRange) :
    mergePair x l ≠ [] := by
  cases l with
  | nil => simp [mergePair]
  | cons y t =>
    simp only [mergePair]
    split <;> simp

theorem mergeFromRight_ne_nil {l : List VulkanMemoryRange} (h : l ≠ []) :
    mergeFromRight l ≠ [] := by
  cases l with
  | nil => exact absurd rfl h
  | cons x t => exact mergePair_ne_nil _ _

/-- A range in use separates the merge to its left from the merge to its right. -/
theorem mergeFromRight_barrier {P : VulkanMemoryRange} (hP : P.free = false)
    (L : List VulkanMemoryRange) : ∀ (pre0 : List VulkanMemoryRange),
    mergeFromRight (pre0 ++ P :: L) = mergeFromRight (pre0 ++ [P]) ++ mergeFromRight L
  | [] => by
    show mergePair P (mergeFromRight L) = mergePair P (mergeFromRight []) ++ mergeFromRight L
    rw [mergePair_of_used_left _ hP, mergePair_of_used_left _ hP]
    rfl
  | x :: t => by
    show mergePair x (mergeFromRight (t ++ P :: L)) =
      mergePair x (mergeFromRight (t ++ [P])) ++ mergeFromRight L
    rw [mergeFromRight_barrier hP L t, mergePair_append _ _ (mergeFromRight_ne_nil (by simp))]

theorem moveFirstToStart_append {D : List VulkanMemoryRange} (R : List VulkanMemoryRange)
    (h : D ≠ []) : moveFirstToStart (D ++ R) = moveFirstToStart D ++ R := by
  cases D with
  | nil => exact absurd rfl h
  | cons x t => rw [List.cons_append, moveFirstToStart_cons, moveFirstToStart_cons]; rfl

theorem growLastToEnd_append (S : Nat) (X : List VulkanMemoryRange) {D : List VulkanMemoryRange}
    (h : D ≠ []) : growLastToEnd S (X ++ D) = X ++ growLastToEnd S D := by
  rcases List.eq_nil_or_concat D with rfl | ⟨init, z, rfl⟩
  · exact absurd rfl h
  · rw [List.concat_eq_append, ← List.append_assoc, growLastToEnd_concat, growLastToEnd_concat,
      List.append_assoc]

theorem growLastToEnd_used (S : Nat) (X : List VulkanMemoryRange) {C : VulkanMemoryRange}
    (h : C.free = false) : growLastToEnd S (X ++ [C]) = X ++ [C] := by
  rw [growLastToEnd_concat]
  simp [VulkanMemoryRange.isFree, h]

/-! ## Disposal of two neighbours -/

theorem follows_false_iff {x y : Nat} : follows false x y ↔ x = y := by
  simp [follows]

/-- The merge of two neighbouring free ranges `A`, `B` in front of a range `C`
in use. -/
theorem mergeFromRight_pair {A B C : VulkanMemoryRange} (post : List VulkanMemoryRange)
    (hC : C.free = false) (hAB : A.memoryOffset + A.memorySize = B.memoryOffset)
    (hB : B.memoryOffset + B.memorySize < deviceSizeLimit) :
    mergeFromRight ({ A with free := true } :: { B with free := true } :: C :: post) =
      ⟨A.memory, A.memorySize + B.memorySize, A.memoryOffset, true⟩ ::
        ⟨B.memory, 0, 0, true⟩ :: C :: mergeFromRight post := by
  show mergePair _ (mergePair _ (mergePair C (mergeFromRight post))) = _
  rw [mergePair_of_used_left _ hC, mergePair_of_used_right _ _ hC]
  have h1 : wadd B.memoryOffset B.memorySize = B.memoryOffset + B.memorySize := wadd_of_lt hB
  have h2 : wadd A.memoryOffset A.memorySize = A.memoryOffset + A.memorySize :=
    wadd_of_lt (by omega)
  have h3 : wsub (B.memoryOffset + B.memorySize) (A.memoryOffset + A.memorySize) = B.memorySize := by
    rw [wsub_of_le (by omega) hB]; omega
  have h4 : wadd A.memorySize B.memorySize = A.memorySize + B.memorySize :=
    wadd_of_lt (by omega)
  simp [mergePair, VulkanMemoryRange.isFree, VulkanMemoryRange.getEnd,
    VulkanMemoryRange.getOffset, VulkanMemoryRange.getSize, h1, h2, h3, h4]

/-- The size that `allocateBlock` gives a new block: the minimum block size for
requests up to it, and `2 ^ (log2 n + 1)` for larger requests below `2 ^ 63`. -/
theorem allocateBlock_size (p : VulkanMemoryPool) (newAddr n t : Nat)
    (h : n < 2 ^ 63 ∨ n ≤ p.minBlockSize) :
    p.allocateBlock newAddr n t =
      some (create newAddr (if n > p.minBlockSize then 2 ^ (Nat.log2 n + 1) else p.minBlockSize)
        t) := by
  unfold VulkanMemoryPool.allocateBlock
  by_cases hgt : n > p.minBlockSize
  · rw [if_pos hgt, if_pos hgt]
    have hn : n < 2 ^ 63 := by omega
    rw [(nextPowerOfTwo_of_lt (by omega) hn).1]
    rfl
  · rw [if_neg hgt, if_neg hgt]

/-- C11 (new block size), amended. Whenever `acquire` has to grow (no existing
block of the requested type takes the request) and the request is below
`2 ^ 63` or not above the minimum block size, exactly one block is appended and
its size is `minBlockSize` when `requiredSize ≤ minBlockSize`, and otherwise
`2 ^ (log2 requiredSize + 1)`, which is the smallest power of two strictly
greater than `requiredSize` (twice `requiredSize` when that is a power of
two). -/
theorem new_block_size (p : VulkanMemoryPool) (newAddr n a t : Nat)
    (hbound : n < 2 ^ 63 ∨ n ≤ p.minBlockSize)
    (hnone : ∀ b ∈ p.blocks, b.memoryTypeIndex = t →
      (b.acquireRange VulkanMemoryRange.empty n a).1 = false) :
    (∃ r newBlock, p.acquire newAddr n a t =
        some (r, { p with blocks := p.blocks ++ [newBlock] }) ∧
      newBlock.memorySize =
        (if n > p.minBlockSize then 2 ^ (Nat.log2 n + 1) else p.minBlockSize)) ∧
    (n ≠ 0 → n < 2 ^ (Nat.log2 n + 1) ∧ (∀ k, n < 2 ^ k → Nat.log2 n + 1 ≤ k)) ∧
    (∀ k, n = 2 ^ k → 2 ^ (Nat.log2 n + 1) = 2 * n) := by
  refine ⟨?_, ?_, ?_⟩
  · refine ⟨((create newAddr (if n > p.minBlockSize then 2 ^ (Nat.log2 n + 1)
        else p.minBlockSize) t).acquireRange VulkanMemoryRange.empty n a).2.1,
      ((create newAddr (if n > p.minBlockSize then 2 ^ (Nat.log2 n + 1)
        else p.minBlockSize) t).acquireRange VulkanMemoryRange.empty n a).2.2, ?_, ?_⟩
    · unfold VulkanMemoryPool.acquire
      simp only [acquireFromBlocks_none p.blocks _ hnone, allocateBlock_size p newAddr n t hbound]
      simp
    · exact (acquireRange_fields _ _ n a).2.1
  · intro hn
    refine ⟨Nat.lt_log2_self, ?_⟩
    intro k hk
    have := (Nat.log2_lt hn).2 hk
    omega
  · intro k hk
    subst hk
    rw [Nat.log2_two_pow, Nat.pow_succ]
    omega

theorem new_block_size_witness :
    ((2048 < 2 ^ 63 ∨ 2048 ≤ 1024) ∧
      ∀ b ∈ (VulkanMemoryPool.mk 1024
          [⟨1, 1024, 0, [⟨1, 100, 0, false⟩, ⟨1, 924, 100, true⟩]⟩]).blocks,
        b.memoryTypeIndex = 0 → (b.acquireRange VulkanMemoryRange.empty 2048 16).1 = false) ∧
      ∃ r newBlock,
        (VulkanMemoryPool.mk 1024
            [⟨1, 1024, 0, [⟨1, 100, 0, false⟩, ⟨1, 924, 100, true⟩]⟩]).acquire 2 2048 16 0 =
          some (r, ⟨1024, [⟨1, 1024, 0, [⟨1, 100, 0, false⟩, ⟨1, 924, 100, true⟩]⟩] ++
            [newBlock]⟩) ∧
        newBlock.memorySize = (if 2048 > 1024 then 2 ^ (Nat.log2 2048 + 1) else 1024) :=
  ⟨⟨Or.inl (by decide), by decide⟩,
    (new_block_size
      (VulkanMemoryPool.mk 1024 [⟨1, 1024, 0, [⟨1, 100, 0, false⟩, ⟨1, 924, 100, true⟩]⟩])
      2 2048 16 0 (Or.inl (by decide)) (by decide)).1⟩

/-- C11 as stated fails on its own example: in a pool with minimum block size
1024 that holds one block with a 100-byte range in use, the request of 2048
bytes creates a block of 4096 bytes, not of `max (1024, 2048) = 2048`; and with
minimum block size 1000 a request of 600 bytes in an empty pool creates a
block of 1000 bytes, not of `max (1000, 1024)`. -/
theorem new_block_size_counterexample :
    (VulkanMemoryPool.mk 1024
        [⟨1, 1024, 0, [⟨1, 100, 0, false⟩, ⟨1, 924, 100, true⟩]⟩]).acquire 2 2048 16 0 =
      some (⟨2, 2048, 0, false⟩,
        ⟨1024, [⟨1, 1024, 0, [⟨1, 100, 0, false⟩, ⟨1, 924, 100, true⟩]⟩,
          ⟨2, 4096, 0, [⟨2, 2048, 0, false⟩, ⟨2, 2048, 2048, true⟩]⟩]⟩) ∧
      (4096 : Nat) ≠ max 1024 2048 ∧
      ((VulkanMemoryPool.mk 1000 []).acquire 1 600 16 0).map (fun r => r.2.blocks.map (·.memorySize))
        = some [1000] ∧
      (1000 : Nat) ≠ max 1000 1024 := by
  refine ⟨by decide, by decide, by decide, by decide⟩

/-! ## The request on a new block -/

theorem getElem?_replace {α : Type} {b b' x : α} (hx : x ≠ b) : ∀ (pre post : List α) (i : Nat),
    (pre ++ b :: post)[i]? = some x → (pre ++ b' :: post)[i]? = some x
  | [], post, 0, h => by
    simp only [List.nil_append, List.getElem?_cons_zero, Option.some.injEq] at h
    exact absurd h.symm hx
  | [], post, i + 1, h => by
    simpa using h
  | c :: pre, post, 0, h => by
    simpa using h
  | c :: pre, post, i + 1, h => by
    simp only [List.cons_append, List.getElem?_cons_succ] at h ⊢
    exact getElem?_replace hx pre post i h

/-- The two ways `acquire` ends: the first block of the requested type that
takes the request serves it, or, when there is none, a new block is appended. -/
theorem acquire_cases (p : VulkanMemoryPool) (newAddr n a t : Nat) :
    (∃ pre b post, p.blocks = pre ++ b :: post ∧
      (∀ b' ∈ pre, b'.memoryTypeIndex = t →
        (b'.acquireRange VulkanMemoryRange.empty n a).1 = false) ∧
      b.memoryTypeIndex = t ∧ (b.acquireRange VulkanMemoryRange.empty n a).1 = true ∧
      p.acquire newAddr n a t =
        some ((b.acquireRange VulkanMemoryRange.empty n a).2.1,
          { p with blocks := pre ++ (b.acquireRange VulkanMemoryRange.empty n a).2.2 :: post })) ∨
    ((∀ b ∈ p.blocks, b.memoryTypeIndex = t →
        (b.acquireRange VulkanMemoryRange.empty n a).1 = false) ∧
      p.acquire newAddr n a t =
        (p.allocateBlock newAddr n t).map (fun newBlock =>
          ((newBlock.acquireRange VulkanMemoryRange.empty n a).2.1,
            { p with blocks :=
                p.blocks ++ [(newBlock.acquireRange VulkanMemoryRange.empty n a).2.2] }))) := by
  rcases exists_first_taker (n := n) (a := a) (t := t) VulkanMemoryRange.empty p.blocks with
    hnone | ⟨pre, b, post, hsplit, hpre, ht, hb⟩
  · right
    refine ⟨hnone, ?_⟩
    unfold VulkanMemoryPool.acquire
    simp only [acquireFromBlocks_none p.blocks _ hnone]
    cases p.allocateBlock newAddr n t <;> simp
  · left
    refine ⟨pre, b, post, hsplit, hpre, ht, hb, ?_⟩
    unfold VulkanMemoryPool.acquire
    rw [hsplit]
    simp only [acquireFromBlocks_some pre b post _ hpre ht hb]
    simp

theorem and_one_shiftLeft_ne_zero (x i : Nat) : ((x &&& (1 <<< i)) != 0) = x.testBit i := by
  rw [Nat.one_shiftLeft]
  cases hb : x.testBit i with
  | true =>
    have h : (x &&& 2 ^ i).testBit i = true := by
      rw [Nat.testBit_and, hb, Nat.testBit_two_pow_self]; rfl
    have hne : x &&& 2 ^ i ≠ 0 := by
      intro h0
      rw [h0, Nat.zero_testBit] at h
      exact absurd h (by simp)
    simpa using hne
  | false =>
    have h0 : x &&& 2 ^ i = 0 := by
      apply Nat.eq_of_testBit_eq
      intro j
      rw [Nat.testBit_and, Nat.zero_testBit, Nat.testBit_two_pow]
      by_cases hij : i = j
      · subst hij; simp [hb]
      · simp [hij]
    simp [h0]

theorem findMemoryTypeFrom_some {typeFilter properties : Nat} :
    ∀ (l : List Nat) (i j : Nat),
    VulkanMemoryPool.findMemoryTypeFrom typeFilter properties l i = some j →
    ∃ k flags, j = i + k ∧ l[k]? = some flags ∧ typeFilter.testBit j = true ∧
      flags &&& properties = properties ∧
      ∀ k' f, k' < k → l[k']? = some f →
        ¬ (typeFilter.testBit (i + k') = true ∧ f &&& properties = properties)
  | [], i, j, h => by simp [VulkanMemoryPool.findMemoryTypeFrom] at h
  | x :: rest, i, j, h => by
    unfold VulkanMemoryPool.findMemoryTypeFrom at h
    rw [and_one_shiftLeft_ne_zero] at h
    by_cases hx : (typeFilter.testBit i && (x &&& properties) == properties) = true
    · rw [if_pos hx] at h
      simp only [Option.some.injEq] at h
      subst h
      simp only [Bool.and_eq_true, beq_iff_eq] at hx
      exact ⟨0, x, rfl, by simp, hx.1, hx.2, fun k' f hk => absurd hk (Nat.not_lt_zero _)⟩
    · rw [if_neg hx] at h
      obtain ⟨k, flags, hj, hget, hbit, hfl, hfirst⟩ := findMemoryTypeFrom_some rest (i + 1) j h
      refine ⟨k + 1, flags, by omega, by simpa using hget, hbit, hfl, ?_⟩
      intro k' f hk' hf
      cases k' with
      | zero =>
        simp only [List.getElem?_cons_zero, Option.some.injEq] at hf
        subst hf
        simpa using hx
      | succ k'' =>
        simp only [List.getElem?_cons_succ] at hf
        have := hfirst k'' f (by omega) hf
        have e : i + 1 + k'' = i + (k'' + 1) := by omega
        rw [e] at this
        exact this

theorem findMemoryTypeFrom_none {typeFilter properties : Nat} :
    ∀ (l : List Nat) (i : Nat),
    VulkanMemoryPool.findMemoryTypeFrom typeFilter properties l i = none →
    ∀ k f, l[k]? = some f →
      ¬ (typeFilter.testBit (i + k) = true ∧ f &&& properties = properties)
  | [], i, _, k, f, hf => by simp at hf
  | x :: rest, i, h, k, f, hf => by
    unfold VulkanMemoryPool.findMemoryTypeFrom at h
    rw [and_one_shiftLeft_ne_zero] at h
    by_cases hx : (typeFilter.testBit i && (x &&& properties) == properties) = true
    · rw [if_pos hx] at h
      exact absurd h (by simp)
    · rw [if_neg hx] at h
      cases k with
      | zero =>
        simp only [List.getElem?_cons_zero, Option.some.injEq] at hf
        subst hf
        simpa using hx
      | succ k' =>
        simp only [List.getElem?_cons_succ] at hf
        have := findMemoryTypeFrom_none rest (i + 1) h k' f hf
        have e : i + 1 + k' = i + (k' + 1) := by omega
        rw [e] at this
        exact this

/-- What `findMemoryType` computes. For every memory-type table of at most 32
types, every type filter and every set of requested flags: if some memory type
qualifies, it returns the least index that qualifies; if none qualifies it
returns index 0 (after raising `jassertfalse`), and
`acquire (requirements, properties)` is then the plain `acquire` for memory
type 0. -/
theorem findMemoryType_resolves (memoryTypes : List Nat) (typeFilter properties : Nat)
    (_hcount : memoryTypes.length ≤ 32) :
    ((∃ i, Qualifies memoryTypes typeFilter properties i) →
      Qualifies memoryTypes typeFilter properties
          (VulkanMemoryPool.findMemoryType memoryTypes typeFilter properties) ∧
        ∀ j, Qualifies memoryTypes typeFilter properties j →
          VulkanMemoryPool.findMemoryType memoryTypes typeFilter properties ≤ j) ∧
    ((¬ ∃ i, Qualifies memoryTypes typeFilter properties i) →
      VulkanMemoryPool.findMemoryType memoryTypes typeFilter properties = 0 ∧
        ∀ (p : VulkanMemoryPool) (newAddr size alignment : Nat),
          p.acquireRequirements memoryTypes newAddr size alignment typeFilter properties =
            p.acquire newAddr size alignment 0) := by
  cases hfind : VulkanMemoryPool.findMemoryTypeFrom typeFilter properties memoryTypes 0 with
  | some j =>
    have hj : VulkanMemoryPool.findMemoryType memoryTypes typeFilter properties = j := by
      simp [VulkanMemoryPool.findMemoryType, hfind]
    obtain ⟨k, flags, hjk, hget, hbit, hfl, hfirst⟩ := findMemoryTypeFrom_some _ _ _ hfind
    have hkj : k = j := by omega
    subst hkj
    have hq : Qualifies memoryTypes typeFilter properties k := ⟨flags, hget, hbit, hfl⟩
    refine ⟨fun _ => ?_, fun hno => absurd ⟨k, hq⟩ hno⟩
    rw [hj]
    refine ⟨hq, ?_⟩
    intro j' ⟨f, hf, hb, hc⟩
    by_contra hlt
    have := hfirst j' f (by omega) hf
    rw [Nat.zero_add] at this
    exact this ⟨hb, hc⟩
  | none =>
    have h0 : VulkanMemoryPool.findMemoryType memoryTypes typeFilter properties = 0 := by
      simp [VulkanMemoryPool.findMemoryType, hfind]
    have hno := findMemoryTypeFrom_none _ _ hfind
    refine ⟨?_, fun _ => ⟨h0, ?_⟩⟩
    · rintro ⟨i, f, hf, hb, hc⟩
      have := hno i f hf
      rw [Nat.zero_add] at this
      exact absurd ⟨hb, hc⟩ this
    · intro p newAddr size alignment
      unfold VulkanMemoryPool.acquireRequirements
      rw [h0]

theorem findMemoryType_resolves_witness :
    ([1, 3, 7].length ≤ 32 ∧ ∃ i, Qualifies [1, 3, 7] 6 2 i) ∧
      Qualifies [1, 3, 7] 6 2 (VulkanMemoryPool.findMemoryType [1, 3, 7] 6 2) ∧
      ∀ j, Qualifies [1, 3, 7] 6 2 j → VulkanMemoryPool.findMemoryType [1, 3, 7] 6 2 ≤ j :=
  have hq : ∃ i, Qualifies [1, 3, 7] 6 2 i := ⟨1, 3, by decide, by decide, by decide⟩
  ⟨⟨by decide, hq⟩, (findMemoryType_resolves [1, 3, 7] 6 2 (by decide)).1 hq⟩

/-- C14 (memory-type resolution) does not hold of the code. For the table with
the single memory type of flags `1`, the type filter `1` and the requested flags
`2`, no type qualifies; `findMemoryType` reports the failure, raises
`jassertfalse` and then returns index 0, whose flags lack the requested ones,
and `acquire (requirements, properties)` allocates a block of memory type 0 and
hands out a range of it. -/
theorem findMemoryType_yields_unqualified_type :
    (¬ ∃ i, Qualifies [1] 1 2 i) ∧
      VulkanMemoryPool.findMemoryType [1] 1 2 = 0 ∧
      ¬ ((1 : Nat) &&& 2 = 2) ∧
      (VulkanMemoryPool.mk 1024 []).acquireRequirements [1] 5 100 16 1 2 =
        some (⟨5, 100, 0, false⟩,
          ⟨1024, [⟨5, 1024, 0, [⟨5, 100, 0, false⟩, ⟨5, 924, 100, true⟩]⟩]⟩) := by
  refine ⟨?_, by decide, by decide, by decide⟩
  rintro ⟨i, f, hf, -, hc⟩
  cases i with
  | zero =>
    simp only [List.getElem?_cons_zero, Option.some.injEq] at hf
    subst hf
    exact absurd hc (by decide)
  | succ k => simp at hf

/-! ## Disposal through the pool -/

theorem contains_iff (b : VulkanMemory) (r : VulkanMemoryRange) :
    b.contains r = true ↔ r ∈ b.ranges := by
  unfold VulkanMemory.contains
  rw [List.any_eq_true]
  constructor
  · rintro ⟨x, hx, he⟩
    rw [(VulkanMemoryRange.opEq_iff _ _).1 he]
    exact hx
  · intro h
    exact ⟨r, h, (VulkanMemoryRange.opEq_iff _ _).2 rfl⟩

theorem findRange_append {r : VulkanMemoryRange} : ∀ (l1 l2 : List VulkanMemoryRange),
    r ∉ l1 → findRange r (l1 ++ r :: l2) = some l1.length
  | [], l2, _ => findRange_cons_self r l2
  | x :: t, l2, h => by
    have hx : x ≠ r := fun e => h (by rw [e]; exact List.mem_cons_self _ _)
    have ht : r ∉ t := fun e => h (List.mem_cons_of_mem _ e)
    have hop : ¬ x.opEq r = true := fun e => hx ((VulkanMemoryRange.opEq_iff _ _).1 e)
    rw [List.cons_append, findRange, if_neg hop, findRange_append t l2 ht]
    rfl

/-- Disposing, without defragmentation, of a range marks its first stored copy
free. -/
theorem disposeRange_first {b : VulkanMemory} {r : VulkanMemoryRange}
    {l1 l2 : List VulkanMemoryRange} (hb : b.ranges = l1 ++ r :: l2) (h1 : r ∉ l1) :
    b.disposeRange r false = some { b with ranges := l1 ++ { r with free := true } :: l2 } := by
  have hget : (l1 ++ r :: l2)[l1.length]? = some r := by
    rw [List.getElem?_append_right (Nat.le_refl _)]; simp
  unfold disposeRange
  rw [hb, findRange_append l1 l2 h1]
  simp only [hget]
  simp

theorem disposeFromBlocks_none {r : VulkanMemoryRange} {d : Bool} :
    ∀ (blocks : List VulkanMemory), (∀ b ∈ blocks, r ∉ b.ranges) →
    VulkanMemoryPool.disposeFromBlocks r d blocks = blocks
  | [], _ => rfl
  | b :: rest, h => by
    have hb : ¬ b.contains r = true := fun e =>
      h b (List.mem_cons_self _ _) ((contains_iff b r).1 e)
    rw [VulkanMemoryPool.disposeFromBlocks, if_neg hb,
      disposeFromBlocks_none rest (fun b' hb' => h b' (List.mem_cons_of_mem _ hb'))]

theorem disposeFromBlocks_first {r : VulkanMemoryRange} {d : Bool} {b b' : VulkanMemory}
    (hin : r ∈ b.ranges) (hd : b.disposeRange r d = some b') (post : List VulkanMemory) :
    ∀ (pre : List VulkanMemory), (∀ c ∈ pre, r ∉ c.ranges) →
    VulkanMemoryPool.disposeFromBlocks r d (pre ++ b :: post) = pre ++ b' :: post
  | [], _ => by
    rw [List.nil_append, VulkanMemoryPool.disposeFromBlocks, if_pos ((contains_iff b r).2 hin), hd]
    rfl
  | c :: pre, h => by
    have hc : ¬ c.contains r = true := fun e =>
      h c (List.mem_cons_self _ _) ((contains_iff c r).1 e)
    rw [List.cons_append, VulkanMemoryPool.disposeFromBlocks, if_neg hc,
      disposeFromBlocks_first hin hd post pre (fun c' hc' => h c' (List.mem_cons_of_mem _ hc'))]
    rfl

theorem exists_first_mem {α : Type} (P : α → Prop) [DecidablePred P] : ∀ (l : List α),
    (∃ x ∈ l, P x) → ∃ pre x post, l = pre ++ x :: post ∧ P x ∧ ∀ y ∈ pre, ¬ P y
  | [], h => by simp at h
  | a :: t, h => by
    by_cases ha : P a
    · exact ⟨[], a, t, rfl, ha, by simp⟩
    · have ht : ∃ x ∈ t, P x := by
        obtain ⟨x, hx, hpx⟩ := h
        rcases List.mem_cons.1 hx with rfl | hx
        · exact absurd hpx ha
        · exact ⟨x, hx, hpx⟩
      obtain ⟨pre, x, post, hl, hpx, hpre⟩ := exists_first_mem P t ht
      refine ⟨a :: pre, x, post, by rw [hl]; rfl, hpx, ?_⟩
      intro y hy
      rcases List.mem_cons.1 hy with rfl | hy
      · exact ha
      · exact hpre y hy

theorem exists_first_range {r : VulkanMemoryRange} {l : List VulkanMemoryRange} (h : r ∈ l) :
    ∃ l1 l2, l = l1 ++ r :: l2 ∧ r ∉ l1 := by
  obtain ⟨pre, x, post, hl, hx, hpre⟩ := exists_first_mem (fun y => y = r) l ⟨r, h, rfl⟩
  subst hx
  exact ⟨pre, post, hl, fun hm => hpre x hm rfl⟩

/-- C15 (effect of `dispose`). `dispose (r, false)` changes nothing when no block
stores a range equal to `r`; otherwise, in the first block that stores one, the
first stored range equal to `r` becomes free and nothing else changes. When
every range value in use is stored at most once in the pool, disposing of the
same range twice leaves the pool as disposing of it once. -/
theorem dispose_effect (p : VulkanMemoryPool) (r : VulkanMemoryRange) :
    ((∀ b ∈ p.blocks, r ∉ b.ranges) → p.dispose r false = p) ∧
    (∀ pre b post l1 l2, p.blocks = pre ++ b :: post → (∀ c ∈ pre, r ∉ c.ranges) →
      b.ranges = l1 ++ r :: l2 → r ∉ l1 →
      p.dispose r false =
        { p with blocks :=
            pre ++ { b with ranges := l1 ++ { r with free := true } :: l2 } :: post }) ∧
    ((∀ x : VulkanMemoryRange, x.free = false → p.storedCount x ≤ 1) →
      (p.dispose r false).dispose r false = p.dispose r false) := by
  have hnone : ∀ q : VulkanMemoryPool, (∀ b ∈ q.blocks, r ∉ b.ranges) → q.dispose r false = q := by
    intro q h
    unfold VulkanMemoryPool.dispose
    rw [disposeFromBlocks_none q.blocks h]
  have hfirst : ∀ pre b post l1 l2, p.blocks = pre ++ b :: post → (∀ c ∈ pre, r ∉ c.ranges) →
      b.ranges = l1 ++ r :: l2 → r ∉ l1 →
      p.dispose r false =
        { p with blocks :=
            pre ++ { b with ranges := l1 ++ { r with free := true } :: l2 } :: post } := by
    intro pre b post l1 l2 hsplit hpre hb h1
    unfold VulkanMemoryPool.dispose
    rw [hsplit, disposeFromBlocks_first (by rw [hb]; simp) (disposeRange_first hb h1) post pre hpre]
  refine ⟨hnone p, hfirst, ?_⟩
  intro hdistinct
  by_cases hstored : ∃ b ∈ p.blocks, r ∈ b.ranges
  · obtain ⟨pre, b, post, hsplit, hb, hpre⟩ := exists_first_mem (fun b => r ∈ b.ranges) _ hstored
    obtain ⟨l1, l2, hl, h1⟩ := exists_first_range hb
    by_cases hfree : r.free = true
    · have hr : ({ r with free := true } : VulkanMemoryRange) = r := by
        cases r; simp_all
      have hb' : ({ b with ranges := l1 ++ r :: l2 } : VulkanMemory) = b := by
        cases b; simp_all
      have hp : p.dispose r false = p := by
        rw [hfirst pre b post l1 l2 hsplit hpre hl h1, hr, hb', ← hsplit]
      rw [hp, hp]
    · rw [hfirst pre b post l1 l2 hsplit hpre hl h1]
      have hfalse : r.free = false := by simpa using hfree
      have hcount := hdistinct r hfalse
      unfold VulkanMemoryPool.storedCount at hcount
      rw [hsplit] at hcount
      simp only [List.map_append, List.map_cons, List.sum_append, List.sum_cons] at hcount
      rw [hl] at hcount
      simp only [List.count_append, List.count_cons_self] at hcount
      apply hnone
      intro c hc
      simp only [List.mem_append, List.mem_cons] at hc
      rcases hc with hc | rfl | hc
      · exact hpre c hc
      · show r ∉ l1 ++ { r with free := true } :: l2
        intro hm
        simp only [List.mem_append, List.mem_cons] at hm
        rcases hm with hm | hm | hm
        · exact h1 hm
        · have : r.free = true := by rw [hm]
          exact hfree this
        · have := List.count_pos_iff.2 hm
          omega
      · intro hm
        have h2 := List.count_pos_iff.2 hm
        have h3 : c.ranges.count r ≤ (post.map (fun b => b.ranges.count r)).sum :=
          List.single_le_sum (by simp) _ (List.mem_map_of_mem _ hc)
        omega
  · have hno : ∀ b ∈ p.blocks, r ∉ b.ranges := fun b hb hm => hstored ⟨b, hb, hm⟩
    rw [hnone p hno, hnone p hno]

theorem dispose_effect_witness :
    ((∀ c ∈ [(⟨1, 64, 0, [⟨1, 64, 0, true⟩]⟩ : VulkanMemory)],
          (⟨2, 16, 8, false⟩ : VulkanMemoryRange) ∉ c.ranges) ∧
        (⟨2, 16, 8, false⟩ : VulkanMemoryRange) ∉ [(⟨2, 8, 0, false⟩ : VulkanMemoryRange)] ∧
        ∀ x : VulkanMemoryRange, x.free = false →
          (VulkanMemoryPool.mk 64 [⟨1, 64, 0, [⟨1, 64, 0, true⟩]⟩,
            ⟨2, 64, 0, [⟨2, 8, 0, false⟩, ⟨2, 16, 8, false⟩, ⟨2, 40, 24, true⟩]⟩]).storedCount x
            ≤ 1) ∧
      (VulkanMemoryPool.mk 64 [⟨1, 64, 0, [⟨1, 64, 0, true⟩]⟩,
          ⟨2, 64, 0, [⟨2, 8, 0, false⟩, ⟨2, 16, 8, false⟩, ⟨2, 40, 24, true⟩]⟩]).dispose
          ⟨2, 16, 8, false⟩ false =
        ⟨64, [⟨1, 64, 0, [⟨1, 64, 0, true⟩]⟩,
          ⟨2, 64, 0, [⟨2, 8, 0, false⟩, ⟨2, 16, 8, true⟩, ⟨2, 40, 24, true⟩]⟩]⟩ ∧
      ((VulkanMemoryPool.mk 64 [⟨1, 64, 0, [⟨1, 64, 0, true⟩]⟩,
          ⟨2, 64, 0, [⟨2, 8, 0, false⟩, ⟨2, 16, 8, false⟩, ⟨2, 40, 24, true⟩]⟩]).dispose
          ⟨2, 16, 8, false⟩ false).dispose ⟨2, 16, 8, false⟩ false =
        (VulkanMemoryPool.mk 64 [⟨1, 64, 0, [⟨1, 64, 0, true⟩]⟩,
          ⟨2, 64, 0, [⟨2, 8, 0, false⟩, ⟨2, 16, 8, false⟩, ⟨2, 40, 24, true⟩]⟩]).dispose
          ⟨2, 16, 8, false⟩ false :=
  have hd : ∀ x : VulkanMemoryRange, x.free = false →
      (VulkanMemoryPool.mk 64 [⟨1, 64, 0, [⟨1, 64, 0, true⟩]⟩,
        ⟨2, 64, 0, [⟨2, 8, 0, false⟩, ⟨2, 16, 8, false⟩, ⟨2, 40, 24, true⟩]⟩]).storedCount x
        ≤ 1 := by
    intro x hx
    have h1 : (⟨1, 64, 0, true⟩ : VulkanMemoryRange) ≠ x := fun e => by rw [← e] at hx; simp at hx
    have h2 : (⟨2, 40, 24, true⟩ : VulkanMemoryRange) ≠ x := fun e => by
      rw [← e] at hx; simp at hx
    simp only [VulkanMemoryPool.storedCount, List.map_cons, List.map_nil, List.sum_cons,
      List.sum_nil, List.count_cons, List.count_nil, beq_iff_eq, h1, h2, if_false]
    by_cases h3 : (⟨2, 8, 0, false⟩ : VulkanMemoryRange) = x
    · have h4 : (⟨2, 16, 8, false⟩ : VulkanMemoryRange) ≠ x := fun e => by
        rw [← h3] at e; simp at e
      simp [h3, h4]
    · by_cases h4 : (⟨2, 16, 8, false⟩ : VulkanMemoryRange) = x <;> simp [h3, h4]
  ⟨⟨by decide, by decide, hd⟩,
    (dispose_effect _ ⟨2, 16, 8, false⟩).2.1 [⟨1, 64, 0, [⟨1, 64, 0, true⟩]⟩]
      ⟨2, 64, 0, [⟨2, 8, 0, false⟩, ⟨2, 16, 8, false⟩, ⟨2, 40, 24, true⟩]⟩ []
      [⟨2, 8, 0, false⟩] [⟨2, 40, 24, true⟩] rfl (by decide) rfl (by decide),
    (dispose_effect _ ⟨2, 16, 8, false⟩).2.2 hd⟩

/-! ## Compaction of the pool -/

/-- The loop of `deallocateEmptyBlocks`: once the blocks behind index `k` hold
no entirely free block, the remaining passes remove the entirely free blocks
before it. -/
theorem deallocateLoop_eq : ∀ (k : Nat) (pre suf : List VulkanMemory), pre.length = k →
    (∀ b ∈ suf, b.isFree = false) →
    VulkanMemoryPool.deallocateLoop k (pre ++ suf) = pre.filter (fun b => !b.isFree) ++ suf
  | 0, pre, suf, hk, _ => by
    have : pre = [] := List.eq_nil_of_length_eq_zero hk
    subst this
    rfl
  | k + 1, pre, suf, hk, hsuf => by
    rcases List.eq_nil_or_concat pre with rfl | ⟨init, x, rfl⟩
    · simp at hk
    · rw [List.concat_eq_append] at hk ⊢
      have hlen : init.length = k := by simpa using hk
      have hget : (init ++ [x] ++ suf)[k]? = some x := by
        rw [List.append_assoc, List.getElem?_append_right (by omega)]
        simp [hlen]
      unfold VulkanMemoryPool.deallocateLoop
      rw [hget]
      by_cases hx : x.isFree = true
      · have herase : (init ++ [x] ++ suf).eraseIdx k = init ++ suf := by
          rw [List.append_assoc, List.eraseIdx_append_of_length_le (by omega)]
          simp [hlen]
        simp only [hx, if_true]
        rw [herase, deallocateLoop_eq k init suf hlen hsuf]
        simp [List.filter_append, hx]
      · simp only [hx, Bool.false_eq_true, if_false]
        have hx' : x.isFree = false := by simpa using hx
        rw [List.append_assoc, deallocateLoop_eq k init ([x] ++ suf) hlen (by
          intro b hb
          rcases List.mem_append.1 hb with hb | hb
          · simp only [List.mem_singleton] at hb
            rw [hb]; exact hx'
          · exact hsuf b hb)]
        simp [List.filter_append, hx']

theorem minimizeStorage_blocks (p : VulkanMemoryPool) :
    p.minimizeStorage.blocks = p.blocks.filter (fun b => !b.isFree) := by
  have := deallocateLoop_eq p.blocks.length p.blocks [] rfl (by simp)
  simpa [VulkanMemoryPool.minimizeStorage, VulkanMemoryPool.deallocateEmptyBlocks] using this

theorem foldl_wadd (l : List VulkanMemory) : ∀ (acc : Nat), acc < deviceSizeLimit →
    l.foldl (fun totalSize block => wadd totalSize block.size) acc =
      (acc + (l.map (fun b => b.memorySize)).sum) % deviceSizeLimit := by
  induction l with
  | nil =>
    intro acc h
    simp [Nat.mod_eq_of_lt h]
  | cons b t ih =>
    intro acc _
    have hlt : wadd acc b.size < deviceSizeLimit :=
      Nat.mod_lt _ (by rw [deviceSizeLimit_eq]; omega)
    rw [List.foldl_cons, ih _ hlt]
    simp only [wadd, VulkanMemory.size, List.map_cons, List.sum_cons]
    rw [Nat.mod_add_mod, Nat.add_assoc]

/-- The method `size` is the sum of the block sizes modulo `2 ^ 64`. -/
theorem size_eq (p : VulkanMemoryPool) :
    p.size = (p.blocks.map (fun b => b.memorySize)).sum % deviceSizeLimit := by
  have := foldl_wadd p.blocks 0 (by rw [deviceSizeLimit_eq]; omega)
  simpa [VulkanMemoryPool.size] using this

theorem sum_filter_split (l : List VulkanMemory) :
    (l.map (fun b => b.memorySize)).sum =
      ((l.filter (fun b => !b.isFree)).map (fun b => b.memorySize)).sum +
        ((l.filter (fun b => b.isFree)).map (fun b => b.memorySize)).sum := by
  induction l with
  | nil => rfl
  | cons b t ih =>
    by_cases hb : b.isFree = true
    · simp [List.filter_cons, hb, ih]; omega
    · simp [List.filter_cons, hb, ih]; omega

theorem defragmentRanges_addr (m : VulkanMemory) : m.defragmentRanges.addr = m.addr := by
  by_cases hall : ∀ r ∈ m.ranges, r.isFree = true
  · rw [defragmentRanges_of_all_free hall]
  · exact (defragmentRanges_ranges hall).2.1

theorem disposeRange_addr {m m' : VulkanMemory} {r : VulkanMemoryRange} {d : Bool}
    (h : m.disposeRange r d = some m') : m'.addr = m.addr := by
  obtain ⟨i, -, -, hm⟩ := disposeRange_some h
  rw [hm]
  cases d with
  | true => simp only [if_true]; rw [defragmentRanges_addr]
  | false => rfl

theorem disposeFromBlocks_addr (r : VulkanMemoryRange) (d : Bool) : ∀ (blocks : List VulkanMemory),
    (VulkanMemoryPool.disposeFromBlocks r d blocks).map (fun b => b.addr) =
      blocks.map (fun b => b.addr)
  | [] => rfl
  | b :: rest => by
    unfold VulkanMemoryPool.disposeFromBlocks
    by_cases hc : b.contains r = true
    · rw [if_pos hc]
      cases hd : b.disposeRange r d with
      | none => rfl
      | some b' =>
        simp only [List.map_cons, disposeRange_addr hd]
    · rw [if_neg hc, List.map_cons, disposeFromBlocks_addr r d rest, List.map_cons]

/-- C16 (blocks are removed only by compaction). After `minimizeStorage` the
block list is the list of the blocks that held a range in use, in their order
and unchanged; `size ()` before is `size ()` after plus the sizes of the removed
blocks (in `vk::DeviceSize` arithmetic, and exactly when the pool holds less
than `2 ^ 64` bytes). `dispose`, with or without defragmentation, keeps every
block, and `acquire` keeps every block and only appends. -/
theorem minimizeStorage_effect (p : VulkanMemoryPool) :
    p.minimizeStorage.blocks = p.blocks.filter (fun b => !b.isFree) ∧
    p.minimizeStorage.minBlockSize = p.minBlockSize ∧
    (∀ b, b ∈ p.minimizeStorage.blocks ↔ b ∈ p.blocks ∧ ∃ r ∈ b.ranges, r.free = false) ∧
    p.size = (p.minimizeStorage.size +
      ((p.blocks.filter (fun b => b.isFree)).map (fun b => b.memorySize)).sum) % deviceSizeLimit ∧
    ((p.blocks.map (fun b => b.memorySize)).sum < deviceSizeLimit →
      p.minimizeStorage.size + ((p.blocks.filter (fun b => b.isFree)).map
        (fun b => b.memorySize)).sum = p.size) ∧
    (∀ r d, (p.dispose r d).blocks.map (fun b => b.addr) = p.blocks.map (fun b => b.addr)) ∧
    (∀ newAddr n a t r p', p.acquire newAddr n a t = some (r, p') →
      ∃ extra, p'.blocks.map (fun b => b.addr) = p.blocks.map (fun b => b.addr) ++ extra) := by
  have hblocks := minimizeStorage_blocks p
  refine ⟨hblocks, rfl, ?_, ?_, ?_, ?_, ?_⟩
  · intro b
    rw [hblocks, List.mem_filter]
    have : (!b.isFree) = true ↔ ∃ r ∈ b.ranges, r.free = false := by
      simp [VulkanMemory.isFree, VulkanMemoryRange.isFree]
    rw [this]
  · rw [size_eq, size_eq, hblocks, Nat.mod_add_mod, ← sum_filter_split]
  · intro hlt
    rw [size_eq, size_eq, hblocks]
    have hs := sum_filter_split p.blocks
    rw [Nat.mod_eq_of_lt (by omega), Nat.mod_eq_of_lt hlt]
    omega
  · intro r d
    exact disposeFromBlocks_addr r d p.blocks
  · intro newAddr n a t r p' hacq
    rcases acquire_cases p newAddr n a t with
      ⟨pre, c, post, hsplit, -, -, -, heq⟩ | ⟨-, heq⟩
    · rw [heq] at hacq
      simp only [Option.some.injEq, Prod.mk.injEq] at hacq
      refine ⟨[], ?_⟩
      rw [← hacq.2, hsplit]
      simp [(acquireRange_fields c _ n a).1]
    · rw [heq] at hacq
      cases halloc : p.allocateBlock newAddr n t with
      | none => rw [halloc] at hacq; simp at hacq
      | some nb =>
        rw [halloc] at hacq
        simp only [Option.map_some', Option.some.injEq, Prod.mk.injEq] at hacq
        refine ⟨[(nb.acquireRange VulkanMemoryRange.empty n a).2.2.addr], ?_⟩
        rw [← hacq.2]
        simp

theorem minimizeStorage_effect_witness :
    ((10 : Nat) + 20 + 30 < deviceSizeLimit) ∧
      (VulkanMemoryPool.mk 0 [⟨1, 10, 0, [⟨1, 10, 0, true⟩]⟩,
          ⟨2, 20, 0, [⟨2, 8, 0, false⟩, ⟨2, 12, 8, true⟩]⟩,
          ⟨3, 30, 0, [⟨3, 30, 0, true⟩]⟩]).minimizeStorage.blocks =
        [⟨2, 20, 0, [⟨2, 8, 0, false⟩, ⟨2, 12, 8, true⟩]⟩] ∧
      (VulkanMemoryPool.mk 0 [⟨1, 10, 0, [⟨1, 10, 0, true⟩]⟩,
          ⟨2, 20, 0, [⟨2, 8, 0, false⟩, ⟨2, 12, 8, true⟩]⟩,
          ⟨3, 30, 0, [⟨3, 30, 0, true⟩]⟩]).minimizeStorage.size + (10 + 30) = 60 :=
  ⟨by decide,
    (minimizeStorage_effect (VulkanMemoryPool.mk 0 [⟨1, 10, 0, [⟨1, 10, 0, true⟩]⟩,
      ⟨2, 20, 0, [⟨2, 8, 0, false⟩, ⟨2, 12, 8, true⟩]⟩, ⟨3, 30, 0, [⟨3, 30, 0, true⟩]⟩])).1,
    (minimizeStorage_effect (VulkanMemoryPool.mk 0 [⟨1, 10, 0, [⟨1, 10, 0, true⟩]⟩,
      ⟨2, 20, 0, [⟨2, 8, 0, false⟩, ⟨2, 12, 8, true⟩]⟩,
      ⟨3, 30, 0, [⟨3, 30, 0, true⟩]⟩])).2.2.2.2.1 (by decide)⟩

/-! ## The paths through `drawFrame` -/

namespace RenderContext

theorem drawFrame_no_handle {c : RenderContext} {dev : DeviceAnswers}
    (cb : Option (RenderBase → RenderBase)) (h : dev.swapchainHandle = false) :
    c.drawFrame dev cb = (DrawStatus.hasFailed, c, []) := by
  simp [drawFrame, h]

theorem drawFrame_wait_failed {c : RenderContext} {dev : DeviceAnswers}
    (cb : Option (RenderBase → RenderBase)) (h0 : dev.swapchainHandle = true)
    (h1 : dev.fenceWait = false) :
    c.drawFrame dev cb = (DrawStatus.hasFailed, c, [Call.fenceWait c.currentFrameIndex]) := by
  simp [drawFrame, h0, h1]

theorem drawFrame_reset_failed {c : RenderContext} {dev : DeviceAnswers}
    (cb : Option (RenderBase → RenderBase)) (h0 : dev.swapchainHandle = true)
    (h1 : dev.fenceWait = true) (h2 : dev.fenceReset = false) :
    c.drawFrame dev cb =
      (DrawStatus.hasFailed, c,
        [Call.fenceWait c.currentFrameIndex, Call.fenceReset c.currentFrameIndex]) := by
  simp [drawFrame, h0, h1, h2]

/-- The status that `drawFrame` returns for a result of `acquireNextImage` or
`presentImage` other than `eSuccess`. -/
theorem drawFrame_acquire_failed {c : RenderContext} {dev : DeviceAnswers}
    (cb : Option (RenderBase → RenderBase)) (h0 : dev.swapchainHandle = true)
    (h1 : dev.fenceWait = true) (h2 : dev.fenceReset = true)
    (h3 : dev.acquireResult ≠ VkResult.eSuccess) :
    c.drawFrame dev cb =
      (if dev.acquireResult = VkResult.eSuboptimalKHR ∨
          dev.acquireResult = VkResult.eErrorOutOfDateKHR then
          DrawStatus.needsSwapChainRecreation else DrawStatus.hasFailed, c,
        [Call.fenceWait c.currentFrameIndex, Call.fenceReset c.currentFrameIndex,
          Call.acquireNextImage (Semaphore.imageAcquired c.currentFrameIndex)]) := by
  cases ha : dev.acquireResult with
  | eSuccess => exact absurd ha h3
  | eSuboptimalKHR => simp [drawFrame, h0, h1, h2, ha]
  | eErrorOutOfDateKHR => simp [drawFrame, h0, h1, h2, ha]
  | other code => simp [drawFrame, h0, h1, h2, ha]

theorem drawFrame_frame_failed {c : RenderContext} {dev : DeviceAnswers}
    (cb : Option (RenderBase → RenderBase)) (h0 : dev.swapchainHandle = true)
    (h1 : dev.fenceWait = true) (h2 : dev.fenceReset = true)
    (h3 : dev.acquireResult = VkResult.eSuccess)
    (h4 : dev.frameSubmitResult ≠ VkResult.eSuccess) :
    c.drawFrame dev cb =
      (DrawStatus.hasFailed,
        { c with frames := Function.update c.frames c.currentFrameIndex (recordedFrame c cb) },
        [Call.fenceWait c.currentFrameIndex, Call.fenceReset c.currentFrameIndex,
          Call.acquireNextImage (Semaphore.imageAcquired c.currentFrameIndex)] ++
          frameCalls c cb) := by
  simp [drawFrame, h0, h1, h2, h3, h4]

theorem drawFrame_overlay_failed {c : RenderContext} {dev : DeviceAnswers}
    (cb : Option (RenderBase → RenderBase)) (h0 : dev.swapchainHandle = true)
    (h1 : dev.fenceWait = true) (h2 : dev.fenceReset = true)
    (h3 : dev.acquireResult = VkResult.eSuccess)
    (h4 : dev.frameSubmitResult = VkResult.eSuccess)
    (h5 : dev.overlaySubmitResult ≠ VkResult.eSuccess) :
    c.drawFrame dev cb =
      (DrawStatus.hasFailed,
        { c with frames := Function.update c.frames c.currentFrameIndex (recordedFrame c cb) },
        [Call.fenceWait c.currentFrameIndex, Call.fenceReset c.currentFrameIndex,
          Call.acquireNextImage (Semaphore.imageAcquired c.currentFrameIndex)] ++
          frameCalls c cb ++ overlayCalls c.currentFrameIndex dev.acquiredImageIndex) := by
  simp [drawFrame, h0, h1, h2, h3, h4, h5]

theorem drawFrame_present_failed {c : RenderContext} {dev : DeviceAnswers}
    (cb : Option (RenderBase → RenderBase)) (h0 : dev.swapchainHandle = true)
    (h1 : dev.fenceWait = true) (h2 : dev.fenceReset = true)
    (h3 : dev.acquireResult = VkResult.eSuccess)
    (h4 : dev.frameSubmitResult = VkResult.eSuccess)
    (h5 : dev.overlaySubmitResult = VkResult.eSuccess)
    (h6 : dev.presentResult ≠ VkResult.eSuccess) :
    c.drawFrame dev cb =
      (if dev.presentResult = VkResult.eSuboptimalKHR ∨
          dev.presentResult = VkResult.eErrorOutOfDateKHR then
          DrawStatus.needsSwapChainRecreation else DrawStatus.hasFailed,
        { c with frames := Function.update c.frames c.currentFrameIndex (recordedFrame c cb) },
        [Call.fenceWait c.currentFrameIndex, Call.fenceReset c.currentFrameIndex,
          Call.acquireNextImage (Semaphore.imageAcquired c.currentFrameIndex)] ++
          frameCalls c cb ++ overlayCalls c.currentFrameIndex dev.acquiredImageIndex ++
          [Call.presentImage dev.acquiredImageIndex
            (Semaphore.overlayCompleted c.currentFrameIndex)]) := by
  cases hp : dev.presentResult with
  | eSuccess => exact absurd hp h6
  | eSuboptimalKHR => simp [drawFrame, h0, h1, h2, h3, h4, h5, hp]
  | eErrorOutOfDateKHR => simp [drawFrame, h0, h1, h2, h3, h4, h5, hp]
  | other code => simp [drawFrame, h0, h1, h2, h3, h4, h5, hp]

theorem drawFrame_finished {c : RenderContext} {dev : DeviceAnswers}
    (cb : Option (RenderBase → RenderBase)) (h0 : dev.swapchainHandle = true)
    (h1 : dev.fenceWait = true) (h2 : dev.fenceReset = true)
    (h3 : dev.acquireResult = VkResult.eSuccess)
    (h4 : dev.frameSubmitResult = VkResult.eSuccess)
    (h5 : dev.overlaySubmitResult = VkResult.eSuccess)
    (h6 : dev.presentResult = VkResult.eSuccess) :
    c.drawFrame dev cb =
      (DrawStatus.hasFinished,
        { currentFrameIndex := (c.currentFrameIndex + 1) % maxFramesInFlight,
          frameCounter := (c.frameCounter + 1) % 2 ^ 64,
          frames := Function.update c.frames c.currentFrameIndex (recordedFrame c cb) },
        [Call.fenceWait c.currentFrameIndex, Call.fenceReset c.currentFrameIndex,
          Call.acquireNextImage (Semaphore.imageAcquired c.currentFrameIndex)] ++
          frameCalls c cb ++ overlayCalls c.currentFrameIndex dev.acquiredImageIndex ++
          [Call.presentImage dev.acquiredImageIndex
            (Semaphore.overlayCompleted c.currentFrameIndex)]) := by
  simp [drawFrame, h0, h1, h2, h3, h4, h5, h6, incrementFrameIndex]

end RenderContext

namespace RenderContext

theorem stage_of_frameCalls {c : RenderContext} {cb : Option (RenderBase → RenderBase)}
    {call : Call} (h : call ∈ frameCalls c cb) : call.stage = 4 := by
  unfold frameCalls at h
  simp only [List.mem_append, List.mem_cons, List.mem_singleton, List.not_mem_nil, or_false] at h
  rcases h with ((h | h | h) | h) | h | h
  · subst h; rfl
  · subst h; rfl
  · subst h; rfl
  · split at h
    · simp only [List.mem_singleton] at h; subst h; rfl
    · simp at h
  · subst h; rfl
  · subst h; rfl

theorem stage_of_overlayCalls {i img : Nat} {call : Call} (h : call ∈ overlayCalls i img) :
    call.stage = 5 := by
  unfold overlayCalls at h
  simp only [List.mem_cons, List.mem_singleton, List.not_mem_nil, or_false] at h
  rcases h with h | h | h | h <;> (subst h; rfl)

/-- A call of a stage is made only when every earlier stage has succeeded. -/
theorem stage_reached (c : RenderContext) (dev : DeviceAnswers)
    (cb : Option (RenderBase → RenderBase)) (call : Call)
    (hmem : call ∈ (c.drawFrame dev cb).2.2) :
    dev.swapchainHandle = true ∧ (2 ≤ call.stage → dev.fenceWait = true) ∧
      (3 ≤ call.stage → dev.fenceReset = true) ∧
      (4 ≤ call.stage → dev.acquireResult = VkResult.eSuccess) ∧
      (5 ≤ call.stage → dev.frameSubmitResult = VkResult.eSuccess) ∧
      (6 ≤ call.stage → dev.overlaySubmitResult = VkResult.eSuccess) := by
  by_cases h0 : dev.swapchainHandle = true
  swap
  · rw [drawFrame_no_handle cb (by simpa using h0)] at hmem
    simp at hmem
  by_cases h1 : dev.fenceWait = true
  swap
  · rw [drawFrame_wait_failed cb h0 (by simpa using h1)] at hmem
    simp only [List.mem_singleton] at hmem
    subst hmem
    simp [Call.stage, h0]
  by_cases h2 : dev.fenceReset = true
  swap
  · rw [drawFrame_reset_failed cb h0 h1 (by simpa using h2)] at hmem
    simp only [List.mem_cons, List.mem_singleton, List.not_mem_nil, or_false] at hmem
    rcases hmem with h | h <;> (subst h; simp [Call.stage, h0, h1])
  by_cases h3 : dev.acquireResult = VkResult.eSuccess
  swap
  · rw [drawFrame_acquire_failed cb h0 h1 h2 h3] at hmem
    simp only [List.mem_cons, List.mem_singleton, List.not_mem_nil, or_false] at hmem
    rcases hmem with h | h | h <;> (subst h; simp [Call.stage, h0, h1, h2])
  have key : ∀ call', call' ∈ [Call.fenceWait c.currentFrameIndex,
      Call.fenceReset c.currentFrameIndex,
      Call.acquireNextImage (Semaphore.imageAcquired c.currentFrameIndex)] ++ frameCalls c cb →
      call'.stage ≤ 4 := by
    intro call' h
    rcases List.mem_append.1 h with h | h
    · simp only [List.mem_cons, List.mem_singleton, List.not_mem_nil, or_false] at h
      rcases h with h | h | h <;> (subst h; simp [Call.stage])
    · rw [stage_of_frameCalls h]
  by_cases h4 : dev.frameSubmitResult = VkResult.eSuccess
  swap
  · rw [drawFrame_frame_failed cb h0 h1 h2 h3 h4] at hmem
    have := key call hmem
    refine ⟨h0, fun _ => h1, fun _ => h2, fun _ => h3, ?_, ?_⟩ <;> intro h <;> omega
  have key2 : ∀ call', call' ∈ [Call.fenceWait c.currentFrameIndex,
      Call.fenceReset c.currentFrameIndex,
      Call.acquireNextImage (Semaphore.imageAcquired c.currentFrameIndex)] ++ frameCalls c cb ++
      overlayCalls c.currentFrameIndex dev.acquiredImageIndex → call'.stage ≤ 5 := by
    intro call' h
    rcases List.mem_append.1 h with h | h
    · have := key call' h; omega
    · rw [stage_of_overlayCalls h]
  by_cases h5 : dev.overlaySubmitResult = VkResult.eSuccess
  swap
  · rw [drawFrame_overlay_failed cb h0 h1 h2 h3 h4 h5] at hmem
    have := key2 call hmem
    refine ⟨h0, fun _ => h1, fun _ => h2, fun _ => h3, fun _ => h4, ?_⟩
    intro h; omega
  exact ⟨h0, fun _ => h1, fun _ => h2, fun _ => h3, fun _ => h4, fun _ => h5⟩

/-! ## The fence gate -/

/-- C17 (fence gate). When the wait on the fence of the current slot fails,
`drawFrame` returns `hasFailed`, leaves the context (slot index, frame counter,
frames) as it was, and makes no call other than that wait: no fence reset, no
`acquireNextImage` or `presentImage`, no reset or recording of the frame, no
queue submission. In any call, `FrameState::reset` is reached only when the
fence wait has succeeded. -/
theorem fence_gate (c : RenderContext) (dev : DeviceAnswers)
    (cb : Option (RenderBase → RenderBase)) :
    (dev.fenceWait = false →
      (c.drawFrame dev cb).1 = DrawStatus.hasFailed ∧ (c.drawFrame dev cb).2.1 = c ∧
        ∀ call ∈ (c.drawFrame dev cb).2.2, call = Call.fenceWait c.currentFrameIndex) ∧
    (∀ slot, Call.frameReset slot ∈ (c.drawFrame dev cb).2.2 → dev.fenceWait = true) := by
  constructor
  · intro hw
    by_cases h0 : dev.swapchainHandle = true
    · rw [drawFrame_wait_failed cb h0 hw]
      exact ⟨rfl, rfl, fun call h => by simpa using h⟩
    · rw [drawFrame_no_handle cb (by simpa using h0)]
      exact ⟨rfl, rfl, fun call h => by simp at h⟩
  · intro slot h
    exact (stage_reached c dev cb _ h).2.1 (by simp [Call.stage])

theorem fence_gate_witness :
    (DeviceAnswers.mk true false true VkResult.eSuccess 2 VkResult.eSuccess VkResult.eSuccess
        VkResult.eSuccess).fenceWait = false ∧
      (RenderContext.create.drawFrame
        (DeviceAnswers.mk true false true VkResult.eSuccess 2 VkResult.eSuccess VkResult.eSuccess
          VkResult.eSuccess) none).1 = DrawStatus.hasFailed ∧
      (RenderContext.create.drawFrame
        (DeviceAnswers.mk true false true VkResult.eSuccess 2 VkResult.eSuccess VkResult.eSuccess
          VkResult.eSuccess) none).2.2 = [Call.fenceWait 0] :=
  ⟨rfl, ((fence_gate RenderContext.create _ none).1 rfl).1, by decide⟩

end RenderContext

namespace RenderContext

/-- The calls of a `drawFrame` whose two submissions succeed, whatever
`presentImage` returns. -/
theorem drawFrame_trace_presented {c : RenderContext} {dev : DeviceAnswers}
    (cb : Option (RenderBase → RenderBase)) (h0 : dev.swapchainHandle = true)
    (h1 : dev.fenceWait = true) (h2 : dev.fenceReset = true)
    (h3 : dev.acquireResult = VkResult.eSuccess)
    (h4 : dev.frameSubmitResult = VkResult.eSuccess)
    (h5 : dev.overlaySubmitResult = VkResult.eSuccess) :
    (c.drawFrame dev cb).2.2 =
      [Call.fenceWait c.currentFrameIndex, Call.fenceReset c.currentFrameIndex,
        Call.acquireNextImage (Semaphore.imageAcquired c.currentFrameIndex)] ++
        frameCalls c cb ++ overlayCalls c.currentFrameIndex dev.acquiredImageIndex ++
        [Call.presentImage dev.acquiredImageIndex
          (Semaphore.overlayCompleted c.currentFrameIndex)] := by
  by_cases h6 : dev.presentResult = VkResult.eSuccess
  · rw [drawFrame_finished cb h0 h1 h2 h3 h4 h5 h6]
  · rw [drawFrame_present_failed cb h0 h1 h2 h3 h4 h5 h6]

/-! ## Short circuit -/

/-- C18 (short circuit, no partial present). In every call of `drawFrame` a call
of a stage (fence wait, fence reset, acquire, frame, overlay, present) is made
only when all earlier stages succeeded. When `acquireNextImage` is reached and
returns `eSuboptimalKHR` or `eErrorOutOfDateKHR`, the status is
`needsSwapChainRecreation` and the call makes no queue submission and no
present; any other result of it than `eSuccess`, a failed frame submission and
a failed overlay submission give `hasFailed`. `presentImage` is called only when
both submissions returned `eSuccess`, and when it is reached its result
`eSuboptimalKHR` or `eErrorOutOfDateKHR` gives `needsSwapChainRecreation` and
any other result than `eSuccess` gives `hasFailed`. -/
theorem drawFrame_short_circuit (c : RenderContext) (dev : DeviceAnswers)
    (cb : Option (RenderBase → RenderBase)) :
    (∀ call ∈ (c.drawFrame dev cb).2.2,
      dev.swapchainHandle = true ∧ (2 ≤ call.stage → dev.fenceWait = true) ∧
        (3 ≤ call.stage → dev.fenceReset = true) ∧
        (4 ≤ call.stage → dev.acquireResult = VkResult.eSuccess) ∧
        (5 ≤ call.stage → dev.frameSubmitResult = VkResult.eSuccess) ∧
        (6 ≤ call.stage → dev.overlaySubmitResult = VkResult.eSuccess)) ∧
    (dev.swapchainHandle = true → dev.fenceWait = true → dev.fenceReset = true →
      (dev.acquireResult = VkResult.eSuboptimalKHR ∨
          dev.acquireResult = VkResult.eErrorOutOfDateKHR →
        (c.drawFrame dev cb).1 = DrawStatus.needsSwapChainRecreation ∧
          ∀ call ∈ (c.drawFrame dev cb).2.2, call.isSubmit = false ∧ call.isPresent = false) ∧
      (∀ code, dev.acquireResult = VkResult.other code →
        (c.drawFrame dev cb).1 = DrawStatus.hasFailed) ∧
      (dev.acquireResult = VkResult.eSuccess →
        (dev.frameSubmitResult ≠ VkResult.eSuccess →
          (c.drawFrame dev cb).1 = DrawStatus.hasFailed) ∧
        (dev.frameSubmitResult = VkResult.eSuccess →
          (dev.overlaySubmitResult ≠ VkResult.eSuccess →
            (c.drawFrame dev cb).1 = DrawStatus.hasFailed) ∧
          (dev.overlaySubmitResult = VkResult.eSuccess →
            (dev.presentResult = VkResult.eSuboptimalKHR ∨
                dev.presentResult = VkResult.eErrorOutOfDateKHR →
              (c.drawFrame dev cb).1 = DrawStatus.needsSwapChainRecreation) ∧
            (∀ code, dev.presentResult = VkResult.other code →
              (c.drawFrame dev cb).1 = DrawStatus.hasFailed))))) ∧
    (∀ call ∈ (c.drawFrame dev cb).2.2, call.isPresent = true →
      dev.frameSubmitResult = VkResult.eSuccess ∧
        dev.overlaySubmitResult = VkResult.eSuccess) := by
  refine ⟨fun call h => stage_reached c dev cb call h, ?_, ?_⟩
  · intro h0 h1 h2
    refine ⟨?_, ?_, ?_⟩
    · intro ha
      have h3 : dev.acquireResult ≠ VkResult.eSuccess := by
        rcases ha with ha | ha <;> (rw [ha]; simp)
      rw [drawFrame_acquire_failed cb h0 h1 h2 h3]
      refine ⟨by simp [ha], ?_⟩
      intro call hc
      simp only [List.mem_cons, List.mem_singleton, List.not_mem_nil, or_false] at hc
      rcases hc with h | h | h <;> (subst h; exact ⟨rfl, rfl⟩)
    · intro code ha
      have h3 : dev.acquireResult ≠ VkResult.eSuccess := by rw [ha]; simp
      rw [drawFrame_acquire_failed cb h0 h1 h2 h3]
      simp [ha]
    · intro h3
      refine ⟨?_, ?_⟩
      · intro h4
        rw [drawFrame_frame_failed cb h0 h1 h2 h3 h4]
      · intro h4
        refine ⟨?_, ?_⟩
        · intro h5
          rw [drawFrame_overlay_failed cb h0 h1 h2 h3 h4 h5]
        · intro h5
          refine ⟨?_, ?_⟩
          · intro hp
            have h6 : dev.presentResult ≠ VkResult.eSuccess := by
              rcases hp with hp | hp <;> (rw [hp]; simp)
            rw [drawFrame_present_failed cb h0 h1 h2 h3 h4 h5 h6]
            simp [hp]
          · intro code hp
            have h6 : dev.presentResult ≠ VkResult.eSuccess := by rw [hp]; simp
            rw [drawFrame_present_failed cb h0 h1 h2 h3 h4 h5 h6]
            simp [hp]
  · intro call hc hp
    have hs : call.stage = 6 := by
      cases call <;> first | rfl | simp [Call.isPresent] at hp
    have h := stage_reached c dev cb call hc
    exact ⟨h.2.2.2.2.1 (by omega), h.2.2.2.2.2 (by omega)⟩

theorem drawFrame_short_circuit_witness :
    (RenderContext.create.drawFrame
        (DeviceAnswers.mk true true true VkResult.eErrorOutOfDateKHR 0 VkResult.eSuccess
          VkResult.eSuccess VkResult.eSuccess) none).1 = DrawStatus.needsSwapChainRecreation ∧
      (RenderContext.create.drawFrame
        (DeviceAnswers.mk true true true VkResult.eSuccess 1 VkResult.eSuccess
          (VkResult.other (-4)) VkResult.eSuccess) none).1 = DrawStatus.hasFailed :=
  ⟨(((drawFrame_short_circuit RenderContext.create
      (DeviceAnswers.mk true true true VkResult.eErrorOutOfDateKHR 0 VkResult.eSuccess
        VkResult.eSuccess VkResult.eSuccess) none).2.1 rfl rfl rfl).1 (Or.inr rfl)).1,
    ((((drawFrame_short_circuit RenderContext.create
      (DeviceAnswers.mk true true true VkResult.eSuccess 1 VkResult.eSuccess
        (VkResult.other (-4)) VkResult.eSuccess) none).2.1 rfl rfl rfl).2.2 rfl).2 rfl).1
      (by decide)⟩

end RenderContext

namespace RenderContext

/-! ## Semaphore chain -/

/-- C19 (semaphore chain, amended). Take a call of `drawFrame` that reaches
`presentImage` and in which the signal semaphore of the frame is still its own
completed semaphore when the frame is submitted (the constructor of `RenderBase`
sets it so; a draw callback can change it through `setSignalSemaphore`). Then
the calls are exactly: the fence wait and reset of the slot, `acquireNextImage`
with the image acquired semaphore of the slot, the reset of the frame,
`setWaitSemaphore` with that same image acquired semaphore, `beginRender`, the
callback if there is one, `endRender`, the frame submission signalling the
completed semaphore of the frame, the overlay recorded on the swapchain frame of
the acquired image index, the overlay submission with the completed semaphore of
the frame as wait semaphore, the completed semaphore of the overlay as signal
semaphore and the fence of the slot, and `presentImage` of the acquired image
index waiting on the completed semaphore of the overlay. -/
theorem semaphore_chain (c : RenderContext) (dev : DeviceAnswers)
    (cb : Option (RenderBase → RenderBase))
    (hsignal : (recordedFrame c cb).currentSignalSemaphore =
      some (Semaphore.frameCompleted c.currentFrameIndex))
    (hpresent : ∃ call ∈ (c.drawFrame dev cb).2.2, call.isPresent = true) :
    (c.drawFrame dev cb).2.2 =
      [Call.fenceWait c.currentFrameIndex, Call.fenceReset c.currentFrameIndex,
        Call.acquireNextImage (Semaphore.imageAcquired c.currentFrameIndex),
        Call.frameReset c.currentFrameIndex,
        Call.frameSetWaitSemaphore c.currentFrameIndex
          (Semaphore.imageAcquired c.currentFrameIndex),
        Call.frameBeginRender c.currentFrameIndex] ++
      (if cb.isSome then [Call.drawComponents c.currentFrameIndex] else []) ++
      [Call.frameEndRender c.currentFrameIndex,
        Call.frameSubmit c.currentFrameIndex (recordedFrame c cb).currentWaitSemaphore
          (some (Semaphore.frameCompleted c.currentFrameIndex)),
        Call.overlayBeginRender c.currentFrameIndex dev.acquiredImageIndex,
        Call.overlayRender c.currentFrameIndex c.currentFrameIndex,
        Call.overlayEndRender c.currentFrameIndex,
        Call.overlaySubmit c.currentFrameIndex (Semaphore.frameCompleted c.currentFrameIndex)
          (Semaphore.overlayCompleted c.currentFrameIndex) c.currentFrameIndex,
        Call.presentImage dev.acquiredImageIndex
          (Semaphore.overlayCompleted c.currentFrameIndex)] := by
  obtain ⟨call, hc, hp⟩ := hpresent
  have hs : call.stage = 6 := by
    cases call <;> first | rfl | simp [Call.isPresent] at hp
  have h := stage_reached c dev cb call hc
  rw [drawFrame_trace_presented cb h.1 (h.2.1 (by omega)) (h.2.2.1 (by omega))
    (h.2.2.2.1 (by omega)) (h.2.2.2.2.1 (by omega)) (h.2.2.2.2.2 (by omega))]
  simp [frameCalls, overlayCalls, hsignal]

theorem semaphore_chain_witness :
    (RenderContext.create.drawFrame
        (DeviceAnswers.mk true true true VkResult.eSuccess 2 VkResult.eSuccess VkResult.eSuccess
          VkResult.eSuboptimalKHR)
        (some (fun b => b.setWaitSemaphore (some (Semaphore.layerCompleted 0))))).2.2 =
      [Call.fenceWait 0, Call.fenceReset 0, Call.acquireNextImage (Semaphore.imageAcquired 0),
        Call.frameReset 0, Call.frameSetWaitSemaphore 0 (Semaphore.imageAcquired 0),
        Call.frameBeginRender 0, Call.drawComponents 0, Call.frameEndRender 0,
        Call.frameSubmit 0 (some (Semaphore.layerCompleted 0))
          (some (Semaphore.frameCompleted 0)),
        Call.overlayBeginRender 0 2, Call.overlayRender 0 0, Call.overlayEndRender 0,
        Call.overlaySubmit 0 (Semaphore.frameCompleted 0) (Semaphore.overlayCompleted 0) 0,
        Call.presentImage 2 (Semaphore.overlayCompleted 0)] :=
  semaphore_chain RenderContext.create
    (DeviceAnswers.mk true true true VkResult.eSuccess 2 VkResult.eSuccess VkResult.eSuccess
      VkResult.eSuboptimalKHR)
    (some (fun b => b.setWaitSemaphore (some (Semaphore.layerCompleted 0)))) rfl
    ⟨Call.presentImage 2 (Semaphore.overlayCompleted 0), by decide, rfl⟩

/-- C19 as stated does not hold: with a draw callback that clears the signal
semaphore of the frame, a call in which every device call succeeds reaches
`presentImage`, the frame submission signals no semaphore, and the overlay
submission still waits on the completed semaphore of the frame. -/
theorem semaphore_chain_counterexample :
    (RenderContext.create.drawFrame
        (DeviceAnswers.mk true true true VkResult.eSuccess 0 VkResult.eSuccess VkResult.eSuccess
          VkResult.eSuccess)
        (some (fun b => b.setSignalSemaphore none))).1 = DrawStatus.hasFinished ∧
      (RenderContext.create.drawFrame
        (DeviceAnswers.mk true true true VkResult.eSuccess 0 VkResult.eSuccess VkResult.eSuccess
          VkResult.eSuccess)
        (some (fun b => b.setSignalSemaphore none))).2.2 =
      [Call.fenceWait 0, Call.fenceReset 0, Call.acquireNextImage (Semaphore.imageAcquired 0),
        Call.frameReset 0, Call.frameSetWaitSemaphore 0 (Semaphore.imageAcquired 0),
        Call.frameBeginRender 0, Call.drawComponents 0, Call.frameEndRender 0,
        Call.frameSubmit 0 (some (Semaphore.imageAcquired 0)) none,
        Call.overlayBeginRender 0 0, Call.overlayRender 0 0, Call.overlayEndRender 0,
        Call.overlaySubmit 0 (Semaphore.frameCompleted 0) (Semaphore.overlayCompleted 0) 0,
        Call.presentImage 0 (Semaphore.overlayCompleted 0)] := by
  decide

/-! ## Frame completion bookkeeping -/

theorem currentFrameIndex_lt {c : RenderContext} (h : Reachable c) :
    c.currentFrameIndex < maxFramesInFlight := by
  induction h with
  | create => decide
  | drawFrame c dev cb _ ih =>
    by_cases h0 : dev.swapchainHandle = true
    swap
    · rw [drawFrame_no_handle cb (by simpa using h0)]; exact ih
    by_cases h1 : dev.fenceWait = true
    swap
    · rw [drawFrame_wait_failed cb h0 (by simpa using h1)]; exact ih
    by_cases h2 : dev.fenceReset = true
    swap
    · rw [drawFrame_reset_failed cb h0 h1 (by simpa using h2)]; exact ih
    by_cases h3 : dev.acquireResult = VkResult.eSuccess
    swap
    · rw [drawFrame_acquire_failed cb h0 h1 h2 h3]; exact ih
    by_cases h4 : dev.frameSubmitResult = VkResult.eSuccess
    swap
    · rw [drawFrame_frame_failed cb h0 h1 h2 h3 h4]; exact ih
    by_cases h5 : dev.overlaySubmitResult = VkResult.eSuccess
    swap
    · rw [drawFrame_overlay_failed cb h0 h1 h2 h3 h4 h5]; exact ih
    by_cases h6 : dev.presentResult = VkResult.eSuccess
    swap
    · rw [drawFrame_present_failed cb h0 h1 h2 h3 h4 h5 h6]; exact ih
    rw [drawFrame_finished cb h0 h1 h2 h3 h4 h5 h6]
    exact Nat.mod_lt _ (by decide)

/-- The status of `drawFrame` and what it does to the slot index and the frame
counter, by whether every device call succeeds. -/
theorem drawFrame_bookkeeping (c : RenderContext) (dev : DeviceAnswers)
    (cb : Option (RenderBase → RenderBase)) :
    if dev.swapchainHandle = true ∧ dev.fenceWait = true ∧ dev.fenceReset = true ∧
        dev.acquireResult = VkResult.eSuccess ∧ dev.frameSubmitResult = VkResult.eSuccess ∧
        dev.overlaySubmitResult = VkResult.eSuccess ∧ dev.presentResult = VkResult.eSuccess then
      (c.drawFrame dev cb).1 = DrawStatus.hasFinished ∧
        (c.drawFrame dev cb).2.1.frameCounter = (c.frameCounter + 1) % 2 ^ 64 ∧
        (c.drawFrame dev cb).2.1.currentFrameIndex =
          (c.currentFrameIndex + 1) % maxFramesInFlight
    else
      (c.drawFrame dev cb).1 ≠ DrawStatus.hasFinished ∧
        (c.drawFrame dev cb).2.1.frameCounter = c.frameCounter ∧
        (c.drawFrame dev cb).2.1.currentFrameIndex = c.currentFrameIndex := by
  by_cases h0 : dev.swapchainHandle = true
  swap
  · rw [drawFrame_no_handle cb (by simpa using h0)]; simp [h0]
  by_cases h1 : dev.fenceWait = true
  swap
  · rw [drawFrame_wait_failed cb h0 (by simpa using h1)]; simp [h1]
  by_cases h2 : dev.fenceReset = true
  swap
  · rw [drawFrame_reset_failed cb h0 h1 (by simpa using h2)]; simp [h2]
  by_cases h3 : dev.acquireResult = VkResult.eSuccess
  swap
  · rw [drawFrame_acquire_failed cb h0 h1 h2 h3]
    rw [if_neg (by tauto)]
    refine ⟨?_, rfl, rfl⟩
    split <;> simp
  by_cases h4 : dev.frameSubmitResult = VkResult.eSuccess
  swap
  · rw [drawFrame_frame_failed cb h0 h1 h2 h3 h4]; simp [h4]
  by_cases h5 : dev.overlaySubmitResult = VkResult.eSuccess
  swap
  · rw [drawFrame_overlay_failed cb h0 h1 h2 h3 h4 h5]; simp [h5]
  by_cases h6 : dev.presentResult = VkResult.eSuccess
  swap
  · rw [drawFrame_present_failed cb h0 h1 h2 h3 h4 h5 h6]
    rw [if_neg (by tauto)]
    refine ⟨?_, rfl, rfl⟩
    split <;> simp
  rw [drawFrame_finished cb h0 h1 h2 h3 h4 h5 h6]
  simp [h0, h1, h2, h3, h4, h5, h6]

end RenderContext

namespace RenderContext

/-- C20 (frame completion bookkeeping). `drawFrame` returns `hasFinished` if and
only if the swapchain handle is valid and the fence wait, the fence reset, the
image acquisition, the frame submission, the overlay submission and the present
all succeed. In that case the frame counter is incremented (`++frameCounter` on
a `uint64_t`: the counter plus one, modulo `2 ^ 64`) and the slot index becomes
`(index + 1) % maxFramesInFlight`; for every other outcome both are unchanged.
In every reachable state, and after every call made in one,
`currentFrameIndex < maxFramesInFlight`. -/
theorem frame_bookkeeping (c : RenderContext) (dev : DeviceAnswers)
    (cb : Option (RenderBase → RenderBase)) :
    ((c.drawFrame dev cb).1 = DrawStatus.hasFinished ↔
      dev.swapchainHandle = true ∧ dev.fenceWait = true ∧ dev.fenceReset = true ∧
        dev.acquireResult = VkResult.eSuccess ∧ dev.frameSubmitResult = VkResult.eSuccess ∧
        dev.overlaySubmitResult = VkResult.eSuccess ∧ dev.presentResult = VkResult.eSuccess) ∧
    ((c.drawFrame dev cb).1 = DrawStatus.hasFinished →
      (c.drawFrame dev cb).2.1.frameCounter = (c.frameCounter + 1) % 2 ^ 64 ∧
        (c.frameCounter + 1 < 2 ^ 64 →
          (c.drawFrame dev cb).2.1.frameCounter = c.frameCounter + 1) ∧
        (c.drawFrame dev cb).2.1.currentFrameIndex =
          (c.currentFrameIndex + 1) % maxFramesInFlight) ∧
    ((c.drawFrame dev cb).1 ≠ DrawStatus.hasFinished →
      (c.drawFrame dev cb).2.1.frameCounter = c.frameCounter ∧
        (c.drawFrame dev cb).2.1.currentFrameIndex = c.currentFrameIndex) ∧
    (Reachable c →
      c.currentFrameIndex < maxFramesInFlight ∧
        (c.drawFrame dev cb).2.1.currentFrameIndex < maxFramesInFlight) := by
  have hb := drawFrame_bookkeeping c dev cb
  refine ⟨?_, ?_, ?_, ?_⟩
  · constructor
    · intro hs
      by_contra hall
      rw [if_neg hall] at hb
      exact hb.1 hs
    · intro hall
      rw [if_pos hall] at hb
      exact hb.1
  · intro hs
    split at hb
    · refine ⟨hb.2.1, ?_, hb.2.2⟩
      intro hlt
      rw [hb.2.1, Nat.mod_eq_of_lt hlt]
    · exact absurd hs hb.1
  · intro hs
    split at hb
    · exact absurd hb.1 hs
    · exact hb.2
  · intro hr
    exact ⟨currentFrameIndex_lt hr, currentFrameIndex_lt (Reachable.drawFrame c dev cb hr)⟩

theorem frame_bookkeeping_witness :
    (RenderContext.create.drawFrame
        (DeviceAnswers.mk true true true VkResult.eSuccess 0 VkResult.eSuccess VkResult.eSuccess
          VkResult.eSuccess) none).1 = DrawStatus.hasFinished ∧
      (RenderContext.create.drawFrame
        (DeviceAnswers.mk true true true VkResult.eSuccess 0 VkResult.eSuccess VkResult.eSuccess
          VkResult.eSuccess) none).2.1.frameCounter = 0 + 1 ∧
      (RenderContext.create.drawFrame
        (DeviceAnswers.mk true true true VkResult.eSuccess 0 VkResult.eSuccess VkResult.eSuccess
          VkResult.eSuccess) none).2.1.currentFrameIndex < maxFramesInFlight :=
  ⟨(frame_bookkeeping RenderContext.create
      (DeviceAnswers.mk true true true VkResult.eSuccess 0 VkResult.eSuccess VkResult.eSuccess
        VkResult.eSuccess) none).1.2 ⟨rfl, rfl, rfl, rfl, rfl, rfl, rfl⟩,
    ((frame_bookkeeping RenderContext.create
      (DeviceAnswers.mk true true true VkResult.eSuccess 0 VkResult.eSuccess VkResult.eSuccess
        VkResult.eSuccess) none).2.1 (by decide)).2.1 (by decide),
    ((frame_bookkeeping RenderContext.create
      (DeviceAnswers.mk true true true VkResult.eSuccess 0 VkResult.eSuccess VkResult.eSuccess
        VkResult.eSuccess) none).2.2.2 Reachable.create).2⟩

end RenderContext

/-! ## The timeout of a fence wait -/

/-- The value that `VulkanFence::wait` passes on: a thousand times the number of
milliseconds (that is, the duration in microseconds) for a duration that is not
negative, and `0` for a negative one; the flag it returns tells whether
`waitForFences` returned `eSuccess`. -/
theorem waitTimeout_eq (m : Int) (r : VkResult) :
    (0 ≤ m → m * 1000 < 2 ^ 64 → (VulkanFence.wait m r).1 = m.toNat * 1000) ∧
      (m < 0 → (VulkanFence.wait m r).1 = 0) ∧
      ((VulkanFence.wait m r).2 = true ↔ r = VkResult.eSuccess) := by
  refine ⟨?_, ?_, ?_⟩
  · intro h0 hlt
    have hmax : max 0 m = m := max_eq_right h0
    simp only [VulkanFence.wait, VulkanFence.waitTimeout, hmax]
    apply Nat.mod_eq_of_lt
    have : ((m.toNat * 1000 : Nat) : Int) < ((2 ^ 64 : Nat) : Int) := by
      push_cast
      rw [Int.toNat_of_nonneg h0]
      exact hlt
    exact_mod_cast this
  · intro hneg
    have hmax : max 0 m = 0 := max_eq_left (le_of_lt hneg)
    simp [VulkanFence.wait, VulkanFence.waitTimeout, hmax]
  · simp [VulkanFence.wait]

/-- C22 (fence wait timeout units) does not hold of the code: for the default
duration of one second (1000 ms) `wait` passes the timeout 1,000,000 to
`waitForFences`, which takes nanoseconds, where the duration is 1,000,000,000
ns; for 5 ms it passes 5000, not 5,000,000. The factor in the code is 1000
although its comment names nanoseconds. -/
theorem fence_wait_timeout_units :
    (VulkanFence.wait VulkanFence.defaultDurationMs VkResult.eSuccess).1 = 1000000 ∧
      (VulkanFence.wait VulkanFence.defaultDurationMs VkResult.eSuccess).1 ≠
        1000 * 1000000 ∧
      (VulkanFence.wait 5 (VkResult.other 2)).1 = 5000 ∧
      (VulkanFence.wait 5 (VkResult.other 2)).1 ≠ 5 * 1000000 ∧
      (VulkanFence.wait (-3) VkResult.eSuccess) = (0, true) ∧
      (VulkanFence.wait 5 (VkResult.other 2)).2 = false := by
  decide

/-! ## The quad batch -/

namespace QuadQueue

theorem Checked_append : ∀ (a b : List QuadEvent) (n : Nat),
    Checked n (a ++ b) ↔ Checked n a ∧ Checked (pendingFrom n a) b
  | [], b, n => by simp [Checked, pendingFrom]
  | QuadEvent.writeVertex i :: a, b, n => by
    show (i < vertexDataCapacity ∧ Checked (n + 1) (a ++ b)) ↔
      (i < vertexDataCapacity ∧ Checked (n + 1) a) ∧ Checked (pendingFrom (n + 1) a) b
    rw [Checked_append a b (n + 1), and_assoc]
  | QuadEvent.drawIndexed k :: a, b, n => by
    show ((k = 6 * (n / 4) ∧ 0 < k ∧ k ≤ defaultNumIndices) ∧ Checked 0 (a ++ b)) ↔
      ((k = 6 * (n / 4) ∧ 0 < k ∧ k ≤ defaultNumIndices) ∧ Checked 0 a) ∧
        Checked (pendingFrom 0 a) b
    rw [Checked_append a b 0]
    tauto

theorem pendingFrom_append : ∀ (a b : List QuadEvent) (n : Nat),
    pendingFrom n (a ++ b) = pendingFrom (pendingFrom n a) b
  | [], _, _ => rfl
  | QuadEvent.writeVertex _ :: a, b, n => by
    show pendingFrom (n + 1) (a ++ b) = pendingFrom (pendingFrom (n + 1) a) b
    exact pendingFrom_append a b (n + 1)
  | QuadEvent.drawIndexed _ :: a, b, n => by
    show pendingFrom 0 (a ++ b) = pendingFrom (pendingFrom 0 a) b
    exact pendingFrom_append a b 0

theorem Checked_write : ∀ (events : List QuadEvent) (n index : Nat),
    Checked n events → QuadEvent.writeVertex index ∈ events → index < vertexDataCapacity
  | [], _, _, _, h => by simp at h
  | QuadEvent.writeVertex i :: rest, n, index, hc, h => by
    rcases List.mem_cons.1 h with h | h
    · cases h; exact hc.1
    · exact Checked_write rest (n + 1) index hc.2 h
  | QuadEvent.drawIndexed k :: rest, n, index, hc, h => by
    rcases List.mem_cons.1 h with h | h
    · cases h
    · exact Checked_write rest 0 index hc.2 h

theorem Checked_draw : ∀ (pre : List QuadEvent) (n k : Nat) (post : List QuadEvent),
    Checked n (pre ++ QuadEvent.drawIndexed k :: post) →
      k = 6 * (pendingFrom n pre / 4) ∧ 0 < k ∧ k ≤ defaultNumIndices
  | [], _, _, _, h => h.1
  | QuadEvent.writeVertex _ :: pre, n, k, post, h => Checked_draw pre (n + 1) k post h.2
  | QuadEvent.drawIndexed _ :: pre, _, k, post, h => Checked_draw pre 0 k post h.2

theorem quad_call_inv (q : QuadQueue) (c : QuadCall) (h : Inv q) :
    Inv (q.call c).1 ∧ Checked q.numVertices (q.call c).2 ∧
      pendingFrom q.numVertices (q.call c).2 = (q.call c).1.numVertices := by
  obtain ⟨n, m⟩ := q
  obtain ⟨hmax, hmod, hle⟩ := h
  simp only at hmax hmod hle
  subst hmax
  cases c with
  | add =>
    by_cases hd : n + 4 > 4092
    · have hn : n = 4092 := by omega
      subst hn
      refine ⟨?_, ?_, ?_⟩
      · simp [call, add, draw, Inv]
      · simp [call, add, draw, Checked, vertexDataCapacity, maxNumQuads, defaultNumIndices]
      · simp [call, add, draw, pendingFrom]
    · refine ⟨?_, ?_, ?_⟩
      · simp only [call, add, hd, if_false, Inv]
        exact ⟨trivial, by omega, by omega⟩
      · simp only [call, add, hd, if_false, Checked, vertexDataCapacity, maxNumQuads]
        exact ⟨by omega, by omega, by omega, by omega, trivial⟩
      · simp [call, add, hd, pendingFrom]
  | flush =>
    by_cases hd : n > 0
    · refine ⟨?_, ?_, ?_⟩
      · simp [call, flush, draw, hd, Inv]
      · simp only [call, flush, draw, hd, if_true, Checked, defaultNumIndices]
        exact ⟨⟨by omega, by omega, by omega⟩, trivial⟩
      · simp [call, flush, draw, hd, pendingFrom]
    · have hn : n = 0 := by omega
      subst hn
      refine ⟨?_, ?_, ?_⟩
      · simp [call, flush, Inv]
      · simp [call, flush, Checked]
      · simp [call, flush, pendingFrom]

theorem quad_run_inv : ∀ (calls : List QuadCall) (q : QuadQueue), Inv q →
    Inv (q.run calls).1 ∧ Checked q.numVertices (q.run calls).2 ∧
      pendingFrom q.numVertices (q.run calls).2 = (q.run calls).1.numVertices
  | [], q, h => ⟨h, trivial, rfl⟩
  | c :: rest, q, h => by
    obtain ⟨h1, h2, h3⟩ := quad_call_inv q c h
    obtain ⟨k1, k2, k3⟩ := quad_run_inv rest (q.call c).1 h1
    simp only [run]
    refine ⟨k1, ?_, ?_⟩
    · rw [Checked_append, h3]
      exact ⟨h2, k2⟩
    · rw [pendingFrom_append, h3, k3]

end QuadQueue

namespace QuadQueue

theorem quad_create_inv : Inv create := by
  refine ⟨by decide, by decide, by decide⟩

/-- C24 (quad batch capacity). After every sequence of `add` and `flush` calls on
a new queue: `numVertices` is a multiple of 4, at most `maxVertices = 4092`, and
equal to the number of vertices written since the last draw; every write of
the sequence and of a further `add` goes to an index below 4096; every draw
issues `6 * (vertices written since the draw before it / 4)` indices, which is
at most 6144; a further `add` draws exactly when `numVertices + 4` exceeds
`maxVertices`; and after a further `flush` `numVertices` is 0. -/
theorem quad_batch_capacity (calls : List QuadCall) :
    ((create.run calls).1.numVertices % 4 = 0 ∧
      (create.run calls).1.numVertices ≤ (create.run calls).1.maxVertices ∧
      (create.run calls).1.maxVertices = 4092 ∧
      (create.run calls).1.numVertices = pendingVertices (create.run calls).2) ∧
    (∀ index, QuadEvent.writeVertex index ∈ (create.run calls).2 ++ (create.run calls).1.add.2 →
      index < 4096) ∧
    (∀ pre numIndices post,
      (create.run calls).2 ++ (create.run calls).1.add.2 ++ (create.run calls).1.add.1.flush.2 =
          pre ++ QuadEvent.drawIndexed numIndices :: post →
        numIndices = 6 * (pendingVertices pre / 4) ∧ numIndices ≤ 6144) ∧
    ((∃ numIndices, QuadEvent.drawIndexed numIndices ∈ (create.run calls).1.add.2) ↔
      (create.run calls).1.numVertices + 4 > (create.run calls).1.maxVertices) ∧
    (create.run calls).1.flush.1.numVertices = 0 := by
  have hrun := quad_run_inv (calls ++ [QuadCall.add, QuadCall.flush]) create quad_create_inv
  have hsplit : ∀ (l1 l2 : List QuadCall) (q : QuadQueue),
      q.run (l1 ++ l2) = (((q.run l1).1.run l2).1, (q.run l1).2 ++ ((q.run l1).1.run l2).2) := by
    intro l1
    induction l1 with
    | nil => intro l2 q; simp [run]
    | cons c t ih => intro l2 q; simp [run, ih]
  have hrun1 := quad_run_inv calls create quad_create_inv
  have hadd : (create.run calls).1.run [QuadCall.add, QuadCall.flush] =
      ((create.run calls).1.add.1.flush.1,
        (create.run calls).1.add.2 ++ (create.run calls).1.add.1.flush.2) := by
    simp [run, call]
  rw [hsplit, hadd] at hrun
  obtain ⟨-, hchk, -⟩ := hrun
  simp only at hchk
  have hzero : create.numVertices = 0 := rfl
  rw [hzero] at hchk hrun1
  refine ⟨⟨hrun1.1.2.1, hrun1.1.2.2, hrun1.1.1, hrun1.2.2.symm⟩, ?_, ?_, ?_, ?_⟩
  · intro index hmem
    have hc : Checked 0 ((create.run calls).2 ++ (create.run calls).1.add.2) := by
      rw [← List.append_assoc] at hchk
      exact ((Checked_append _ _ _).1 hchk).1
    exact Checked_write _ 0 index hc hmem
  · intro pre k post he
    rw [← List.append_assoc, he] at hchk
    have := Checked_draw pre 0 k post hchk
    exact ⟨this.1, this.2.2⟩
  · constructor
    · rintro ⟨k, hk⟩
      by_contra hno
      simp [add, hno] at hk
    · intro hd
      exact ⟨(((create.run calls).1.numVertices + 4) * 3) / 2, by simp [add, draw, hd]⟩
  · unfold flush draw
    split
    · rfl
    · simp only
      omega

theorem quad_batch_capacity_witness :
    (create.run [QuadCall.add, QuadCall.add]).2 ++
          (create.run [QuadCall.add, QuadCall.add]).1.add.2 ++
          (create.run [QuadCall.add, QuadCall.add]).1.add.1.flush.2 =
        (List.range 12).map QuadEvent.writeVertex ++ QuadEvent.drawIndexed 18 :: [] ∧
      18 = 6 * (pendingVertices ((List.range 12).map QuadEvent.writeVertex) / 4) ∧ 18 ≤ 6144 :=
  ⟨by decide,
    (quad_batch_capacity [QuadCall.add, QuadCall.add]).2.2.1
      ((List.range 12).map QuadEvent.writeVertex) 18 [] (by decide)⟩

end QuadQueue

/-! ## The gradient cache -/

namespace GradientCache

theorem gradient_run_concat (g : GradientCache) (calls : List GradientCall) (c : GradientCall) :
    g.run (calls ++ [c]) = (g.run calls).call c := by
  simp [run, List.foldl_append]

theorem gradient_call_inv (g : GradientCache) (c : GradientCall) (h : Inv g) : Inv (g.call c) := by
  obtain ⟨h1, h2, h3⟩ := h
  cases c with
  | getTextureForGradient =>
    by_cases hn : g.gradientNeedsRefresh = true
    · simp only [call, getTextureForGradient, hn, if_true]
      refine ⟨fun _ => by simp, ?_, ?_⟩
      · intro d hd
        simp only [List.mem_append, List.mem_singleton] at hd
        show d < g.created + 1
        rcases hd with hd | hd
        · have := h2 d hd
          omega
        · omega
      · intro d hd
        simp only [List.mem_append, List.mem_singleton] at hd
        show d < g.created + 1
        rcases hd with hd | hd
        · have := h3 d hd
          omega
        · omega
    · simp only [call, getTextureForGradient, hn, Bool.false_eq_true, if_false]
      exact ⟨h1, h2, h3⟩
  | triggerRefresh =>
    exact ⟨fun hf => by simp [call, triggerRefresh] at hf, h2, h3⟩
  | reset =>
    refine ⟨fun hf => by simp [call, reset] at hf, ?_, ?_⟩
    · intro d hd
      simp [call, reset] at hd
    · intro d hd
      simp [call, reset] at hd

theorem gradient_run_inv (calls : List GradientCall) : Inv (create.run calls) := by
  induction calls using List.reverseRecOn with
  | nil =>
    exact ⟨fun h => by simp [run, create] at h, fun d hd => by simp [run, create] at hd,
      fun d hd => by simp [run, create] at hd⟩
  | append_singleton l c ih => rw [gradient_run_concat]; exact gradient_call_inv _ c ih

theorem needsRefresh_iff (calls : List GradientCall) :
    (create.run calls).gradientNeedsRefresh = true ↔
      calls.getLast? ≠ some GradientCall.getTextureForGradient := by
  rcases List.eq_nil_or_concat calls with h | ⟨pre, c, h⟩
  · subst h
    simp [run, create]
  · subst h
    rw [List.concat_eq_append, gradient_run_concat, List.getLast?_append]
    cases c <;> simp [call, getTextureForGradient, triggerRefresh, reset]
    split <;> simp_all

/-- A second `getTextureForGradient` right after one returns what the first
returned and leaves the cache as the first left it. -/
theorem getTextureForGradient_twice (g : GradientCache) :
    g.getTextureForGradient.2.getTextureForGradient =
      (g.getTextureForGradient.1, g.getTextureForGradient.2) := by
  by_cases hn : g.gradientNeedsRefresh = true
  · simp [getTextureForGradient, hn]
  · simp only [Bool.not_eq_true] at hn
    simp [getTextureForGradient, hn]

/-- C25 (single-slot gradient cache). After every sequence of
`getTextureForGradient`, `triggerRefresh` and `reset` calls on a new cache, the
cache needs a refresh exactly when the sequence does not end with a
`getTextureForGradient` (it is empty, or a `triggerRefresh` or `reset` came
after the last one). A further `getTextureForGradient` then creates one texture
and one descriptor, neither stored before, and returns that descriptor;
otherwise it leaves the cache as it is and returns the last stored descriptor,
which is the one that the call before it returned. It never returns null, and a
cache that needs no refresh holds a descriptor. -/
theorem gradient_cache_single_slot (calls : List GradientCall) :
    ((create.run calls).gradientNeedsRefresh = true ↔
      calls.getLast? ≠ some GradientCall.getTextureForGradient) ∧
    ((create.run calls).gradientNeedsRefresh = false → (create.run calls).descriptors ≠ []) ∧
    ((create.run calls).gradientNeedsRefresh = true →
      (create.run calls).getTextureForGradient.1 = some (create.run calls).created ∧
      (create.run calls).getTextureForGradient.2.descriptors =
        (create.run calls).descriptors ++ [(create.run calls).created] ∧
      (create.run calls).getTextureForGradient.2.textures =
        (create.run calls).textures ++ [(create.run calls).created] ∧
      (create.run calls).created ∉ (create.run calls).descriptors ∧
      (create.run calls).created ∉ (create.run calls).textures) ∧
    ((create.run calls).gradientNeedsRefresh = false →
      (create.run calls).getTextureForGradient.2 = create.run calls ∧
      (create.run calls).getTextureForGradient.1 = (create.run calls).descriptors.getLast?) ∧
    (∀ pre, calls = pre ++ [GradientCall.getTextureForGradient] →
      (create.run calls).getTextureForGradient.1 = (create.run pre).getTextureForGradient.1) ∧
    (create.run calls).getTextureForGradient.1 ≠ none := by
  obtain ⟨h1, h2, h3⟩ := gradient_run_inv calls
  refine ⟨needsRefresh_iff calls, h1, ?_, ?_, ?_, ?_⟩
  · intro hn
    refine ⟨by simp [getTextureForGradient, hn], by simp [getTextureForGradient, hn],
      by simp [getTextureForGradient, hn], ?_, ?_⟩
    · intro hmem
      exact absurd (h2 _ hmem) (Nat.lt_irrefl _)
    · intro hmem
      exact absurd (h3 _ hmem) (Nat.lt_irrefl _)
  · intro hn
    simp [getTextureForGradient, hn]
  · intro pre hpre
    subst hpre
    rw [gradient_run_concat]
    show (create.run pre).getTextureForGradient.2.getTextureForGradient.1 = _
    rw [getTextureForGradient_twice]
  · by_cases hn : (create.run calls).gradientNeedsRefresh = true
    · simp [getTextureForGradient, hn]
    · simp only [Bool.not_eq_true] at hn
      simp only [getTextureForGradient, hn, Bool.false_eq_true, if_false]
      cases hd : (create.run calls).descriptors with
      | nil => exact absurd hd (h1 hn)
      | cons x t => simp [List.getLast?_cons]

theorem gradient_cache_single_slot_witness :
    (create.run [GradientCall.getTextureForGradient, GradientCall.getTextureForGradient,
        GradientCall.reset, GradientCall.getTextureForGradient]).getTextureForGradient.1 =
      (create.run [GradientCall.getTextureForGradient, GradientCall.getTextureForGradient,
        GradientCall.reset]).getTextureForGradient.1 ∧
    (create.run [GradientCall.getTextureForGradient, GradientCall.getTextureForGradient,
        GradientCall.reset]).getTextureForGradient.1 = some 1 :=
  ⟨(gradient_cache_single_slot [GradientCall.getTextureForGradient,
      GradientCall.getTextureForGradient, GradientCall.reset,
      GradientCall.getTextureForGradient]).2.2.2.2.1 _ rfl, by decide⟩

end GradientCache

/-! ## Chained submissions of a command sequence -/

namespace VulkanCommandSequence

theorem submit_eq (s : VulkanCommandSequence) (useFence : Bool) :
    (s.submit useFence).1 =
        ⟨s.commandBuffers, s.currentWaitSemaphore, some (SequenceSemaphore.owned s.semaphores),
          useFence⟩ ∧
      (s.submit useFence).2.semaphores = s.semaphores + 1 ∧
      (s.submit useFence).2.currentWaitSemaphore = some (SequenceSemaphore.owned s.semaphores) := by
  cases useFence <;> simp [submit, submitPrivate]

/-- The submissions of successive `submit` calls: submission `i` signals the
semaphore that the call created, the one at index `semaphores + i`, and waits on
the wait semaphore of the sequence (`i = 0`) or on the semaphore created by the
call before it. -/
theorem submitAll_get : ∀ (flags : List Bool) (s : VulkanCommandSequence),
    (s.submitAll flags).1.length = flags.length ∧
    (s.submitAll flags).2.semaphores = s.semaphores + flags.length ∧
    (s.submitAll flags).2.currentWaitSemaphore =
      (if flags.length = 0 then s.currentWaitSemaphore
        else some (SequenceSemaphore.owned (s.semaphores + flags.length - 1))) ∧
    ∀ (i : Nat) (sub : SequenceSubmit), (s.submitAll flags).1[i]? = some sub →
      sub.signalSemaphore = some (SequenceSemaphore.owned (s.semaphores + i)) ∧
      sub.waitSemaphore =
        (if i = 0 then s.currentWaitSemaphore
          else some (SequenceSemaphore.owned (s.semaphores + i - 1)))
  | [], s => by simp [submitAll]
  | f :: rest, s => by
    obtain ⟨h1, h2, h3⟩ := submit_eq s f
    obtain ⟨k1, k2, k3, k4⟩ := submitAll_get rest (s.submit f).2
    refine ⟨by simp [submitAll, k1], ?_, ?_, ?_⟩
    · simp only [submitAll, k2, h2, List.length_cons]
      omega
    · simp only [submitAll, k3, h2, h3, List.length_cons]
      split
      · rename_i h0
        simp [h0]
      · rename_i h0
        simp only [Nat.add_one_ne_zero, if_false]
        congr 2
        omega
    · intro i sub hget
      cases i with
      | zero =>
        simp only [submitAll, List.getElem?_cons_zero, Option.some.injEq] at hget
        subst hget
        rw [h1]
        simp
      | succ j =>
        simp only [submitAll, List.getElem?_cons_succ] at hget
        obtain ⟨g1, g2⟩ := k4 j sub hget
        rw [h2] at g1
        rw [h2, h3] at g2
        refine ⟨?_, ?_⟩
        · rw [g1]
          congr 2
          omega
        · rw [g2]
          simp only [Nat.add_one_ne_zero, if_false]
          split
          · rename_i h0
            subst h0
            rfl
          · congr 2
            omega

/-- C26 (command-sequence chaining). For every sequence and every non-empty list
of successive `submit` calls: there is one submission for each call; the first
waits on the wait semaphore the sequence had (none when none was set); each
later one waits on exactly the semaphore that the submission before it signals;
submission `i` signals the semaphore created by its call, the one at index
`semaphores + i` of the array, so the signalled semaphores differ from each
other and from every semaphore the sequence owned before; and afterwards
`getCurrentWaitSemaphore ()` is the semaphore signalled by the last submission. -/
theorem command_sequence_chaining (s : VulkanCommandSequence) (flags : List Bool)
    (hn : flags ≠ []) :
    (s.submitAll flags).1.length = flags.length ∧
    (∃ first, (s.submitAll flags).1[0]? = some first ∧
      first.waitSemaphore = s.currentWaitSemaphore) ∧
    (∀ i, i + 1 < flags.length → ∃ a b, (s.submitAll flags).1[i]? = some a ∧
      (s.submitAll flags).1[i + 1]? = some b ∧ a.signalSemaphore ≠ none ∧
      b.waitSemaphore = a.signalSemaphore) ∧
    (∀ (i : Nat) (sub : SequenceSubmit), (s.submitAll flags).1[i]? = some sub →
      sub.signalSemaphore = some (SequenceSemaphore.owned (s.semaphores + i))) ∧
    ((s.submitAll flags).1.map (fun sub => sub.signalSemaphore)).Nodup ∧
    (∃ last, (s.submitAll flags).1.getLast? = some last ∧
      (s.submitAll flags).2.getCurrentWaitSemaphore = last.signalSemaphore) := by
  obtain ⟨k1, k2, k3, k4⟩ := submitAll_get flags s
  have hpos : 0 < flags.length := List.length_pos.2 hn
  have hget : ∀ i, i < flags.length → ∃ sub, (s.submitAll flags).1[i]? = some sub := by
    intro i hi
    exact ⟨(s.submitAll flags).1[i], List.getElem?_eq_getElem (by omega)⟩
  refine ⟨k1, ?_, ?_, fun i sub h => (k4 i sub h).1, ?_, ?_⟩
  · obtain ⟨first, hf⟩ := hget 0 hpos
    exact ⟨first, hf, by simpa using (k4 0 first hf).2⟩
  · intro i hi
    obtain ⟨a, ha⟩ := hget i (by omega)
    obtain ⟨b, hb⟩ := hget (i + 1) hi
    refine ⟨a, b, ha, hb, ?_, ?_⟩
    · rw [(k4 i a ha).1]
      simp
    · rw [(k4 i a ha).1, (k4 (i + 1) b hb).2]
      simp
  · rw [List.nodup_iff_getElem?_ne_getElem?]
    intro i j hij hj
    rw [List.length_map] at hj
    obtain ⟨a, ha⟩ := hget i (by omega)
    obtain ⟨b, hb⟩ := hget j (by omega)
    rw [List.getElem?_map, List.getElem?_map, ha, hb]
    simp only [Option.map_some', ne_eq, Option.some.injEq]
    rw [(k4 i a ha).1, (k4 j b hb).1]
    simp only [Option.some.injEq, SequenceSemaphore.owned.injEq]
    omega
  · obtain ⟨last, hl⟩ := hget (flags.length - 1) (by omega)
    refine ⟨last, ?_, ?_⟩
    · rw [List.getLast?_eq_getElem?, k1]
      exact hl
    · rw [getCurrentWaitSemaphore, k3, (k4 _ last hl).1]
      rw [if_neg (by omega)]
      congr 2
      omega

theorem command_sequence_chaining_witness :
    [true, false, false] ≠ [] ∧
      (create.setCurrentWaitSemaphore (some (SequenceSemaphore.external 7))).submitAll
          [true, false, false] =
        ([⟨0, some (SequenceSemaphore.external 7), some (SequenceSemaphore.owned 0), true⟩,
          ⟨1, some (SequenceSemaphore.owned 0), some (SequenceSemaphore.owned 1), false⟩,
          ⟨2, some (SequenceSemaphore.owned 1), some (SequenceSemaphore.owned 2), false⟩],
          ⟨3, 3, some (SequenceSemaphore.owned 2), true⟩) ∧
      (((create.setCurrentWaitSemaphore (some (SequenceSemaphore.external 7))).submitAll
          [true, false, false]).1.map (fun sub => sub.signalSemaphore)).Nodup :=
  ⟨by decide, by decide,
    (command_sequence_chaining
      (create.setCurrentWaitSemaphore (some (SequenceSemaphore.external 7)))
      [true, false, false] (by decide)).2.2.2.2.1⟩

end VulkanCommandSequence

namespace RenderContext

/-! ## The fence of an aborted frame -/

theorem fenceAfter_append (dev : DeviceAnswers) (slot : Nat) (fence : FenceState)
    (a b : List Call) :
    fenceAfter dev slot fence (a ++ b) = fenceAfter dev slot (fenceAfter dev slot fence a) b := by
  simp [fenceAfter, List.foldl_append]

theorem fenceAfter_frameCalls (dev : DeviceAnswers) (slot : Nat) (fence : FenceState)
    (c : RenderContext) (cb : Option (RenderBase → RenderBase)) :
    fenceAfter dev slot fence (frameCalls c cb) = fence := by
  unfold frameCalls fenceAfter
  cases cb <;> simp [fenceAfterCall]

/-- The fence of the current slot after a `drawFrame` in which the fence wait
and the reset succeed: its signal is pending if the overlay submission is
reached and succeeds, and otherwise it is left unsignalled without a
submission. -/
theorem fenceAfter_drawFrame (c : RenderContext) (dev : DeviceAnswers)
    (cb : Option (RenderBase → RenderBase)) (fence : FenceState)
    (h0 : dev.swapchainHandle = true) (h1 : dev.fenceWait = true) (h2 : dev.fenceReset = true) :
    fenceAfter dev c.currentFrameIndex fence (c.drawFrame dev cb).2.2 =
      (if dev.acquireResult = VkResult.eSuccess ∧ dev.frameSubmitResult = VkResult.eSuccess ∧
          dev.overlaySubmitResult = VkResult.eSuccess then FenceState.pendingSubmission
        else FenceState.withoutSubmission) := by
  by_cases h3 : dev.acquireResult = VkResult.eSuccess
  swap
  · rw [drawFrame_acquire_failed cb h0 h1 h2 h3]
    simp [fenceAfter, fenceAfterCall, h2, h3]
  by_cases h4 : dev.frameSubmitResult = VkResult.eSuccess
  swap
  · rw [drawFrame_frame_failed cb h0 h1 h2 h3 h4]
    simp only [fenceAfter_append, fenceAfter_frameCalls]
    simp [fenceAfter, fenceAfterCall, h2, h3, h4]
  by_cases h5 : dev.overlaySubmitResult = VkResult.eSuccess
  swap
  · rw [drawFrame_overlay_failed cb h0 h1 h2 h3 h4 h5]
    simp only [fenceAfter_append, fenceAfter_frameCalls]
    simp [fenceAfter, fenceAfterCall, overlayCalls, h2, h3, h4, h5]
  rw [drawFrame_trace_presented cb h0 h1 h2 h3 h4 h5]
  simp only [fenceAfter_append, fenceAfter_frameCalls]
  simp [fenceAfter, fenceAfterCall, overlayCalls, h2, h3, h4, h5]

/-- C29 (an aborted frame does not strand the slot fence) does not hold of the
code. On a new context whose fence is signalled, a `drawFrame` in which
`acquireNextImage` returns `eErrorOutOfDateKHR` returns
`needsSwapChainRecreation` after the calls fence wait, fence reset and
`acquireNextImage`: the fence has been reset and no submission carries it. The
same holds of a `drawFrame` that returns `hasFailed` because the frame
submission fails: no overlay submission is made. -/
theorem aborted_frame_strands_fence :
    (create.drawFrame
        (DeviceAnswers.mk true true true VkResult.eErrorOutOfDateKHR 0 VkResult.eSuccess
          VkResult.eSuccess VkResult.eSuccess) none).1 = DrawStatus.needsSwapChainRecreation ∧
      (create.drawFrame
        (DeviceAnswers.mk true true true VkResult.eErrorOutOfDateKHR 0 VkResult.eSuccess
          VkResult.eSuccess VkResult.eSuccess) none).2.2 =
        [Call.fenceWait 0, Call.fenceReset 0,
          Call.acquireNextImage (Semaphore.imageAcquired 0)] ∧
      fenceAfter
        (DeviceAnswers.mk true true true VkResult.eErrorOutOfDateKHR 0 VkResult.eSuccess
          VkResult.eSuccess VkResult.eSuccess) 0 FenceState.signalled
        (create.drawFrame
          (DeviceAnswers.mk true true true VkResult.eErrorOutOfDateKHR 0 VkResult.eSuccess
            VkResult.eSuccess VkResult.eSuccess) none).2.2 = FenceState.withoutSubmission ∧
      (create.drawFrame
        (DeviceAnswers.mk true true true VkResult.eSuccess 0 (VkResult.other (-4))
          VkResult.eSuccess VkResult.eSuccess) none).1 = DrawStatus.hasFailed ∧
      fenceAfter
        (DeviceAnswers.mk true true true VkResult.eSuccess 0 (VkResult.other (-4))
          VkResult.eSuccess VkResult.eSuccess) 0 FenceState.signalled
        (create.drawFrame
          (DeviceAnswers.mk true true true VkResult.eSuccess 0 (VkResult.other (-4))
            VkResult.eSuccess VkResult.eSuccess) none).2.2 = FenceState.withoutSubmission := by
  decide

end RenderContext

/-! ## The chain of render layers -/

namespace RenderLayer

theorem toInt32_toUInt32 {v : Int} (h0 : 0 < v) (h1 : v < 2 ^ 31) : toInt32 (toUInt32 v) = v := by
  unfold toInt32 toUInt32
  have hm : v % 2 ^ 32 = v := Int.emod_eq_of_lt (le_of_lt h0) (by omega)
  rw [hm]
  have hlt : v.toNat < 2 ^ 31 := by omega
  rw [if_pos hlt]
  omega

/-- The list after `createRenderLayer` on an existing layer: the parent waits on
the completed semaphore of the new layer, the new layer is appended with the
wait semaphore the parent had, and the other layers are as before. -/
theorem createRenderLayer_eq {layers : List RenderLayer} {self : Nat} {parent : RenderLayer}
    (frameArea : Rectangle) (hself : layers[self]? = some parent) :
    createRenderLayer layers self frameArea =
      layers.set self
          { parent with base := ⟨some (Semaphore.layerCompleted layers.length),
              parent.base.currentSignalSemaphore⟩ } ++
        [⟨⟨parent.base.currentWaitSemaphore, some (Semaphore.layerCompleted layers.length)⟩,
          ⟨frameArea.x, frameArea.y, toInt32 (toUInt32 frameArea.w),
            toInt32 (toUInt32 frameArea.h)⟩⟩] := by
  unfold createRenderLayer
  rw [hself]
  rfl

theorem createRenderLayer_get {layers : List RenderLayer} {self : Nat} {parent : RenderLayer}
    (frameArea : Rectangle) (hself : layers[self]? = some parent) :
    (createRenderLayer layers self frameArea).length = layers.length + 1 ∧
    (createRenderLayer layers self frameArea)[layers.length]? =
      some ⟨⟨parent.base.currentWaitSemaphore, some (Semaphore.layerCompleted layers.length)⟩,
        ⟨frameArea.x, frameArea.y, toInt32 (toUInt32 frameArea.w),
          toInt32 (toUInt32 frameArea.h)⟩⟩ ∧
    (createRenderLayer layers self frameArea)[self]? =
      some { parent with base := ⟨some (Semaphore.layerCompleted layers.length),
        parent.base.currentSignalSemaphore⟩ } ∧
    ∀ i, i ≠ self → i < layers.length →
      (createRenderLayer layers self frameArea)[i]? = layers[i]? := by
  have hlt : self < layers.length := by
    by_contra hge
    rw [List.getElem?_eq_none (by omega)] at hself
    cases hself
  rw [createRenderLayer_eq frameArea hself]
  refine ⟨by simp, ?_, ?_, ?_⟩
  · rw [List.getElem?_append_right (by simp)]
    simp
  · rw [List.getElem?_append_left (by simpa using hlt)]
    simp [List.getElem?_set, hlt]
  · intro i hne hi
    rw [List.getElem?_append_left (by simpa using hi)]
    rw [List.getElem?_set_ne (Ne.symm hne)]

theorem Linked_congr {s s' : List RenderLayer} {w : Option Semaphore} :
    ∀ (l : List Nat), (∀ i ∈ l, s'[i]? = s[i]?) → Linked s w l → Linked s' w l
  | [], _, h => h
  | [a], hs, h => by
    obtain ⟨l, h1, h2⟩ := h
    exact ⟨l, by rw [hs a (by simp)]; exact h1, h2⟩
  | a :: b :: rest, hs, h => by
    obtain ⟨⟨l, h1, h2⟩, h3⟩ := h
    refine ⟨⟨l, by rw [hs a (by simp)]; exact h1, h2⟩, ?_⟩
    exact Linked_congr (b :: rest) (fun i hi => hs i (List.mem_cons_of_mem _ hi)) h3

theorem Linked_mem_lt {s : List RenderLayer} {w : Option Semaphore} :
    ∀ (l : List Nat), Linked s w l → ∀ i ∈ l, i < s.length
  | [], h, _, _ => h.elim
  | [a], h, i, hi => by
    obtain ⟨l, h1, -⟩ := h
    simp only [List.mem_singleton] at hi
    subst hi
    by_contra hge
    rw [List.getElem?_eq_none (by omega)] at h1
    cases h1
  | a :: b :: rest, h, i, hi => by
    obtain ⟨⟨l, h1, -⟩, h3⟩ := h
    rcases List.mem_cons.1 hi with hi | hi
    · subst hi
      by_contra hge
      rw [List.getElem?_eq_none (by omega)] at h1
      cases h1
    · exact Linked_mem_lt (b :: rest) h3 i hi

/-- The chain after `createRenderLayer` on the layer `self`: the new layer comes
right behind `self`. -/
theorem Linked_insert {s : List RenderLayer} {w : Option Semaphore} {self : Nat}
    {parent : RenderLayer} (frameArea : Rectangle) (hself : s[self]? = some parent)
    (post : List Nat) (hpost : self ∉ post) :
    ∀ (pre : List Nat), self ∉ pre → Linked s w (pre ++ self :: post) →
      Linked (createRenderLayer s self frameArea) w (pre ++ self :: s.length :: post) := by
  obtain ⟨-, hnew, hpar, hold⟩ := createRenderLayer_get frameArea hself
  have hkeep : ∀ (l : List Nat), self ∉ l → Linked s w l →
      Linked (createRenderLayer s self frameArea) w l := by
    intro l hl hlink
    refine Linked_congr l ?_ hlink
    intro i hi
    exact hold i (fun e => hl (e ▸ hi)) (Linked_mem_lt l hlink i hi)
  have hA : Linked s w (self :: post) →
      Linked (createRenderLayer s self frameArea) w (self :: s.length :: post) := by
    intro hlink
    refine ⟨⟨_, hpar, rfl⟩, ?_⟩
    cases post with
    | nil =>
      obtain ⟨l, h1, h2⟩ := hlink
      rw [hself] at h1
      cases h1
      exact ⟨_, hnew, h2⟩
    | cons b rest =>
      obtain ⟨⟨l, h1, h2⟩, h3⟩ := hlink
      rw [hself] at h1
      cases h1
      exact ⟨⟨_, hnew, h2⟩, hkeep _ hpost h3⟩
  intro pre
  induction pre with
  | nil => intro _ h; exact hA h
  | cons a pre' ih =>
    intro hpre hlink
    have ha : a ≠ self := fun e => hpre (by simp [e])
    have hpre' : self ∉ pre' := fun h => hpre (List.mem_cons_of_mem _ h)
    have halt : a < s.length := Linked_mem_lt _ hlink a (by simp)
    cases pre' with
    | nil =>
      obtain ⟨⟨l, h1, h2⟩, h3⟩ := hlink
      exact ⟨⟨l, by rw [hold a ha halt]; exact h1, h2⟩, ih hpre' h3⟩
    | cons c t =>
      obtain ⟨⟨l, h1, h2⟩, h3⟩ := hlink
      exact ⟨⟨l, by rw [hold a ha halt]; exact h1, h2⟩, ih hpre' h3⟩

/-- The walk along the wait semaphores follows a chain to its end. -/
theorem followWaits_of_linked {s : List RenderLayer} {w : Option Semaphore}
    (hw : ∀ k, w ≠ some (Semaphore.layerCompleted k)) :
    ∀ (rest : List Nat) (a fuel : Nat), Linked s w (a :: rest) → rest.length < fuel →
      followWaits s fuel a = some (a :: rest, w)
  | [], a, fuel, h, hf => by
    obtain ⟨l, h1, h2⟩ := h
    cases fuel with
    | zero => omega
    | succ f =>
      unfold followWaits
      rw [h1]
      simp only
      rw [h2]
      cases w with
      | none => rfl
      | some sem =>
        cases sem with
        | layerCompleted k => exact absurd rfl (hw k)
        | imageAcquired _ => rfl
        | frameCompleted _ => rfl
        | overlayCompleted _ => rfl
  | b :: rest, a, fuel, h, hf => by
    obtain ⟨⟨l, h1, h2⟩, h3⟩ := h
    cases fuel with
    | zero => simp at hf
    | succ f =>
      have hb : b < s.length := Linked_mem_lt _ h3 b (by simp)
      unfold followWaits
      rw [h1]
      simp only
      rw [h2]
      simp only [hb, if_true]
      rw [followWaits_of_linked hw rest b f h3 (by simpa using hf)]
      rfl

end RenderLayer

namespace RenderLayer

theorem OneChain_step {s : List RenderLayer} {w : Option Semaphore} (h : OneChain s w)
    (self : Nat) (frameArea : Rectangle) : OneChain (createRenderLayer s self frameArea) w := by
  obtain ⟨order, hlink, hhead, hperm⟩ := h
  cases hself : s[self]? with
  | none =>
    have : createRenderLayer s self frameArea = s := by
      unfold createRenderLayer
      rw [hself]
    rw [this]
    exact ⟨order, hlink, hhead, hperm⟩
  | some parent =>
    have hlt : self < s.length := by
      by_contra hge
      rw [List.getElem?_eq_none (by omega)] at hself
      cases hself
    have hmem : self ∈ order := hperm.mem_iff.2 (List.mem_range.2 hlt)
    have hnodup : order.Nodup := hperm.nodup_iff.2 (List.nodup_range _)
    obtain ⟨pre, post, hsplit⟩ := List.append_of_mem hmem
    subst hsplit
    have hpre : self ∉ pre := by
      intro hin
      have := List.nodup_append.1 hnodup
      exact this.2.2 hin (List.mem_cons_self _ _)
    have hpost : self ∉ post := by
      have := (List.nodup_append.1 hnodup).2.1
      exact (List.nodup_cons.1 this).1
    refine ⟨pre ++ self :: s.length :: post,
      Linked_insert frameArea hself post hpost pre hpre hlink, ?_, ?_⟩
    · cases pre with
      | nil => simpa using hhead
      | cons a t => simpa using hhead
    · rw [(createRenderLayer_get frameArea hself).1, List.range_succ]
      have h1 : (pre ++ self :: s.length :: post).Perm (s.length :: (pre ++ self :: post)) := by
        have := @List.perm_middle _ s.length (pre ++ [self]) post
        simpa [List.append_assoc] using this
      refine h1.trans ?_
      refine (List.Perm.cons _ hperm).trans ?_
      exact (List.perm_append_singleton _ _).symm

theorem OneChain_run {w : Option Semaphore} : ∀ (calls : List (Nat × Rectangle))
    (s : List RenderLayer), OneChain s w → OneChain (createRenderLayers s calls) w
  | [], _, h => h
  | c :: rest, s, h => by
    show OneChain (createRenderLayers (createRenderLayer s c.1 c.2) rest) w
    exact OneChain_run rest _ (OneChain_step h c.1 c.2)

/-- C21 (layer chain splice). Let `parent` be the layer numbered `self`, with
wait semaphore `w` (possibly none), and let `frameArea` have positive width and
height. After `createRenderLayer (frameArea)` the new layer, the last of the
list, has wait semaphore `w`, signals its own completed semaphore and has the
bounds `frameArea`; the parent waits on the completed semaphore of the new
layer and is otherwise unchanged; and so are all other layers. Consequently,
after any calls of `createRenderLayer` on a layer `P` and on the layers created,
where the wait semaphore `w` of `P` is not itself the completed semaphore of one
of these layers, the walk along the wait semaphores from `P` visits every layer
exactly once and ends at `w`. -/
theorem layer_chain_splice (layers : List RenderLayer) (self : Nat) (parent : RenderLayer)
    (frameArea : Rectangle) (hself : layers[self]? = some parent)
    (hw : 0 < frameArea.w ∧ frameArea.w < 2 ^ 31) (hh : 0 < frameArea.h ∧ frameArea.h < 2 ^ 31) :
    ((createRenderLayer layers self frameArea).length = layers.length + 1 ∧
      (createRenderLayer layers self frameArea)[layers.length]? =
        some ⟨⟨parent.base.currentWaitSemaphore, some (Semaphore.layerCompleted layers.length)⟩,
          frameArea⟩ ∧
      (createRenderLayer layers self frameArea)[self]? =
        some ⟨⟨some (Semaphore.layerCompleted layers.length), parent.base.currentSignalSemaphore⟩,
          parent.bounds⟩ ∧
      ∀ i, i ≠ self → i < layers.length →
        (createRenderLayer layers self frameArea)[i]? = layers[i]?) ∧
    ∀ (P : RenderLayer) (calls : List (Nat × Rectangle)),
      (∀ k, P.base.currentWaitSemaphore ≠ some (Semaphore.layerCompleted k)) →
      ∃ order : List Nat,
        followWaits (createRenderLayers [P] calls) (createRenderLayers [P] calls).length 0 =
          some (order, P.base.currentWaitSemaphore) ∧
        order.Perm (List.range (createRenderLayers [P] calls).length) ∧ order.Nodup := by
  constructor
  · obtain ⟨h1, h2, h3, h4⟩ := createRenderLayer_get frameArea hself
    rw [toInt32_toUInt32 hw.1 hw.2, toInt32_toUInt32 hh.1 hh.2] at h2
    exact ⟨h1, h2, h3, h4⟩
  · intro P calls hP
    have h0 : OneChain [P] P.base.currentWaitSemaphore :=
      ⟨[0], ⟨P, rfl, rfl⟩, rfl, List.Perm.refl _⟩
    obtain ⟨order, hlink, hhead, hperm⟩ := OneChain_run calls [P] h0
    refine ⟨order, ?_, hperm, hperm.nodup_iff.2 (List.nodup_range _)⟩
    cases order with
    | nil => simp at hhead
    | cons a rest =>
      simp only [List.head?_cons, Option.some.injEq] at hhead
      subst hhead
      have hlen := hperm.length_eq
      rw [List.length_range, List.length_cons] at hlen
      exact followWaits_of_linked hP rest 0 _ hlink (by omega)

theorem layer_chain_splice_witness :
    ([(⟨⟨some (Semaphore.imageAcquired 0), some (Semaphore.frameCompleted 0)⟩, ⟨0, 0, 800, 600⟩⟩ :
        RenderLayer)][0]? =
      some ⟨⟨some (Semaphore.imageAcquired 0), some (Semaphore.frameCompleted 0)⟩,
        ⟨0, 0, 800, 600⟩⟩) ∧
    (createRenderLayer
        [⟨⟨some (Semaphore.imageAcquired 0), some (Semaphore.frameCompleted 0)⟩, ⟨0, 0, 800, 600⟩⟩]
        0 ⟨10, 20, 300, 200⟩)[1]? =
      some ⟨⟨some (Semaphore.imageAcquired 0), some (Semaphore.layerCompleted 1)⟩,
        ⟨10, 20, 300, 200⟩⟩ ∧
    followWaits
        (createRenderLayers
          [⟨⟨some (Semaphore.imageAcquired 0), some (Semaphore.frameCompleted 0)⟩,
            ⟨0, 0, 800, 600⟩⟩]
          [(0, ⟨10, 20, 300, 200⟩), (1, ⟨15, 25, 30, 20⟩), (0, ⟨0, 0, 5, 5⟩)]) 4 0 =
      some ([0, 3, 1, 2], some (Semaphore.imageAcquired 0)) :=
  ⟨rfl,
    (layer_chain_splice
      [⟨⟨some (Semaphore.imageAcquired 0), some (Semaphore.frameCompleted 0)⟩, ⟨0, 0, 800, 600⟩⟩]
      0 _ ⟨10, 20, 300, 200⟩ rfl (by decide) (by decide)).1.2.1,
    by decide⟩

end RenderLayer

/-! ## Leases of descriptor sets -/

namespace VulkanDescriptorSetPool

theorem acquireFromBlocks_all_empty : ∀ (blocks : List DescriptorBlock) (i : Nat),
    (∀ b ∈ blocks, b.free = []) → acquireFromBlocks blocks i = none
  | [], _, _ => rfl
  | b :: rest, i, h => by
    have hb : b.free = [] := h b (by simp)
    unfold acquireFromBlocks
    simp only [DescriptorBlock.isEmpty, hb, List.isEmpty_nil, Bool.not_true, Bool.false_eq_true,
      if_false]
    rw [acquireFromBlocks_all_empty rest (i + 1) (fun b' hb' => h b' (List.mem_cons_of_mem _ hb'))]
    rfl

theorem acquireFromBlocks_first_free : ∀ (pre : List DescriptorBlock) (b : DescriptorBlock)
    (post : List DescriptorBlock) (i : Nat), (∀ b' ∈ pre, b'.free = []) → b.free ≠ [] →
    acquireFromBlocks (pre ++ b :: post) i =
      some (⟨i + pre.length, b.acquire.1⟩, pre ++ b.acquire.2 :: post)
  | [], b, post, i, _, hb => by
    unfold acquireFromBlocks
    have : b.isEmpty = false := by
      unfold DescriptorBlock.isEmpty
      cases hf : b.free with
      | nil => exact absurd hf hb
      | cons x t => rfl
    simp [this]
  | a :: pre, b, post, i, hpre, hb => by
    have ha : a.free = [] := hpre a (by simp)
    show acquireFromBlocks (a :: (pre ++ b :: post)) i = _
    unfold acquireFromBlocks
    simp only [DescriptorBlock.isEmpty, ha, List.isEmpty_nil, Bool.not_true, Bool.false_eq_true,
      if_false]
    rw [acquireFromBlocks_first_free pre b post (i + 1)
      (fun b' hb' => hpre b' (List.mem_cons_of_mem _ hb')) hb]
    simp only [Option.map_some', List.length_cons, List.cons_append]
    congr 3
    omega

theorem exists_first_free : ∀ (blocks : List DescriptorBlock),
    (∀ b ∈ blocks, b.free = []) ∨
      ∃ pre b post, blocks = pre ++ b :: post ∧ (∀ b' ∈ pre, b'.free = []) ∧ b.free ≠ []
  | [] => Or.inl (by simp)
  | a :: rest => by
    by_cases ha : a.free = []
    · rcases exists_first_free rest with h | ⟨pre, b, post, h1, h2, h3⟩
      · left
        intro b hb
        rcases List.mem_cons.1 hb with hb | hb
        · rw [hb]; exact ha
        · exact h b hb
      · right
        refine ⟨a :: pre, b, post, by rw [h1]; rfl, ?_, h3⟩
        intro b' hb'
        rcases List.mem_cons.1 hb' with hb' | hb'
        · rw [hb']; exact ha
        · exact h2 b' hb'
    · exact Or.inr ⟨[], a, rest, rfl, by simp, ha⟩

end VulkanDescriptorSetPool

namespace DescriptorBlock

theorem acquire_of_ne_nil {b : DescriptorBlock} (h : b.free ≠ []) :
    ∃ x, b.free = b.free.dropLast ++ [x] ∧ b.acquire = (x, { b with free := b.free.dropLast }) := by
  rcases List.eq_nil_or_concat b.free with hf | ⟨init, x, hf⟩
  · exact absurd hf h
  · refine ⟨x, ?_, ?_⟩
    · rw [hf, List.concat_eq_append, List.dropLast_concat]
    · unfold acquire
      have : b.free.getLast? = some x := by
        rw [hf, List.concat_eq_append, List.getLast?_append]
        simp
      rw [this]

end DescriptorBlock

namespace DescriptorSystem

theorem leased_append (pool : VulkanDescriptorSetPool) (live : List VulkanDescriptor)
    (d : VulkanDescriptor) (i : Nat) :
    leased ⟨pool, live ++ [d]⟩ i =
      leased ⟨pool, live⟩ i ++ (if d.block = i then [d.descriptorSet] else []) := by
  unfold leased
  by_cases h : d.block = i
  · simp [List.filter_append, h]
  · simp [List.filter_append, h]

theorem eraseIdx_of_getElem? {α : Type} : ∀ (l : List α) (p : Nat) (d : α), l[p]? = some d →
    ∃ l1 l2, l = l1 ++ d :: l2 ∧ l.eraseIdx p = l1 ++ l2
  | [], p, d, h => by simp at h
  | x :: t, 0, d, h => by
    simp only [List.getElem?_cons_zero, Option.some.injEq] at h
    subst h
    exact ⟨[], t, rfl, rfl⟩
  | x :: t, p + 1, d, h => by
    simp only [List.getElem?_cons_succ] at h
    obtain ⟨l1, l2, h1, h2⟩ := eraseIdx_of_getElem? t p d h
    refine ⟨x :: l1, l2, by rw [h1]; rfl, ?_⟩
    simp [List.eraseIdx, h2]

end DescriptorSystem

namespace DescriptorBlock

/-- The first `acquire` on a new block of at least one set hands out the last
set and leaves the others free. -/
theorem create_acquire {m : Nat} (hm : 1 ≤ m) :
    (create m).acquire = (some (m - 1), ⟨List.range m, (List.range (m - 1)).map some⟩) := by
  obtain ⟨k, rfl⟩ : ∃ k, m = k + 1 := ⟨m - 1, by omega⟩
  unfold acquire create
  simp [List.range_succ, List.getLast?_append, List.dropLast_concat]

end DescriptorBlock

namespace VulkanDescriptorSetPool

theorem acquire_first (p : VulkanDescriptorSetPool) {pre : List DescriptorBlock}
    {b : DescriptorBlock} {post : List DescriptorBlock} (hsplit : p.blocks = pre ++ b :: post)
    (hpre : ∀ b' ∈ pre, b'.free = []) (hb : b.free ≠ []) :
    p.acquire = (⟨pre.length, b.acquire.1⟩, { p with blocks := pre ++ b.acquire.2 :: post }) := by
  unfold acquire
  rw [hsplit, acquireFromBlocks_first_free pre b post 0 hpre hb]
  simp

theorem acquire_new (p : VulkanDescriptorSetPool) (h : ∀ b ∈ p.blocks, b.free = []) :
    p.acquire = (⟨p.blocks.length, (DescriptorBlock.create p.maxSets).acquire.1⟩,
      { p with blocks := p.blocks ++ [(DescriptorBlock.create p.maxSets).acquire.2] }) := by
  unfold acquire
  rw [acquireFromBlocks_all_empty p.blocks 0 h]

end VulkanDescriptorSetPool

namespace DescriptorSystem

theorem leased_concat (pool pool' : VulkanDescriptorSetPool) (live : List VulkanDescriptor)
    (d : VulkanDescriptor) (i : Nat) :
    leased ⟨pool', live ++ [d]⟩ i =
      leased ⟨pool, live⟩ i ++ (if d.block = i then [d.descriptorSet] else []) := by
  unfold leased
  by_cases h : d.block = i
  · simp [List.filter_append, h]
  · simp [List.filter_append, h]

theorem leased_nil_of_lt (pool : VulkanDescriptorSetPool) {live : List VulkanDescriptor} {i : Nat}
    (h : ∀ d ∈ live, d.block < i) : leased ⟨pool, live⟩ i = [] := by
  unfold leased
  rw [List.map_eq_nil_iff, List.filter_eq_nil_iff]
  intro d hd
  have := h d hd
  simp only [beq_iff_eq]
  omega

theorem descriptor_create_inv (m : Nat) : Inv m (create m) := by
  refine ⟨rfl, fun d hd => by simp [create] at hd, ?_⟩
  intro i b hb
  cases i with
  | zero =>
    simp only [create, VulkanDescriptorSetPool.create, List.getElem?_cons_zero,
      Option.some.injEq] at hb
    subst hb
    refine ⟨rfl, ?_⟩
    simp [leased, create, DescriptorBlock.create]
  | succ j =>
    simp [create, VulkanDescriptorSetPool.create] at hb

theorem construct_new {s : DescriptorSystem} (hm : 1 ≤ s.pool.maxSets)
    (hall : ∀ b ∈ s.pool.blocks, b.free = []) :
    s.construct =
      ⟨{ s.pool with blocks := s.pool.blocks ++
          [⟨List.range s.pool.maxSets, (List.range (s.pool.maxSets - 1)).map some⟩] },
        s.live ++ [⟨s.pool.blocks.length, some (s.pool.maxSets - 1)⟩]⟩ := by
  unfold construct
  rw [VulkanDescriptorSetPool.acquire_new s.pool hall, DescriptorBlock.create_acquire hm]

theorem construct_first {s : DescriptorSystem} {pre : List DescriptorBlock}
    {b : DescriptorBlock} {post : List DescriptorBlock} {x : Option Nat}
    (hsplit : s.pool.blocks = pre ++ b :: post)
    (hpre : ∀ b' ∈ pre, b'.free = []) (hx : b.free = b.free.dropLast ++ [x]) :
    s.construct =
      ⟨{ s.pool with blocks := pre ++ { b with free := b.free.dropLast } :: post },
        s.live ++ [⟨pre.length, x⟩]⟩ := by
  have hb : b.free ≠ [] := by
    intro e
    rw [e] at hx
    simp at hx
  obtain ⟨y, hy1, hy2⟩ := DescriptorBlock.acquire_of_ne_nil hb
  have hxy : x = y := by
    rw [hy1] at hx
    have := List.append_inj_right' hx rfl
    simpa using this.symm
  subst hxy
  unfold construct
  rw [VulkanDescriptorSetPool.acquire_first s.pool hsplit hpre hb, hy2]

theorem construct_inv {m : Nat} (hm : 1 ≤ m) {s : DescriptorSystem} (h : Inv m s) :
    Inv m s.construct := by
  obtain ⟨hmax, hlive, hblocks⟩ := h
  rcases VulkanDescriptorSetPool.exists_first_free s.pool.blocks with
    hall | ⟨pre, b, post, hsplit, hpre, hb⟩
  · rw [construct_new (by omega) hall]
    obtain ⟨pool, live⟩ := s
    simp only at hmax hlive hblocks hall ⊢
    refine ⟨hmax, ?_, ?_⟩
    · intro d hd
      simp only [List.mem_append, List.mem_singleton] at hd
      simp only [List.length_append, List.length_singleton]
      rcases hd with hd | hd
      · have := hlive d hd
        omega
      · subst hd
        simp
    · intro i b' hb'
      simp only at hb'
      rw [leased_concat pool]
      by_cases hi : i < pool.blocks.length
      · rw [List.getElem?_append_left hi] at hb'
        have := hblocks i b' hb'
        simp only
        rw [if_neg (by omega), List.append_nil]
        exact this
      · have hi' : i = pool.blocks.length := by
          by_contra hne'
          rw [List.getElem?_eq_none (by simp; omega)] at hb'
          cases hb'
        subst hi'
        rw [List.getElem?_append_right (Nat.le_refl _)] at hb'
        simp only [Nat.sub_self, List.getElem?_cons_zero, Option.some.injEq] at hb'
        subst hb'
        subst hmax
        refine ⟨rfl, ?_⟩
        simp only [if_true]
        rw [leased_nil_of_lt pool hlive, List.nil_append]
        obtain ⟨k, hk⟩ : ∃ k, pool.maxSets = k + 1 := ⟨pool.maxSets - 1, by omega⟩
        rw [hk]
        simp [List.range_succ]
  · obtain ⟨x, hx1, -⟩ := DescriptorBlock.acquire_of_ne_nil hb
    rw [construct_first hsplit hpre hx1]
    obtain ⟨pool, live⟩ := s
    simp only at hmax hlive hblocks hsplit ⊢
    have hlen : pool.blocks.length = pre.length + 1 + post.length := by
      rw [hsplit]; simp; omega
    have hbget : pool.blocks[pre.length]? = some b := by
      rw [hsplit, List.getElem?_append_right (Nat.le_refl _)]
      simp
    refine ⟨hmax, ?_, ?_⟩
    · intro d hd
      simp only [List.mem_append, List.mem_singleton] at hd
      simp only [List.length_append, List.length_cons]
      rcases hd with hd | hd
      · have := hlive d hd
        omega
      · subst hd
        simp only
        omega
    · intro i b' hb'
      simp only at hb'
      rw [leased_concat pool]
      simp only
      by_cases hi : i = pre.length
      · subst hi
        rw [List.getElem?_append_right (Nat.le_refl _)] at hb'
        simp only [Nat.sub_self, List.getElem?_cons_zero, Option.some.injEq] at hb'
        subst hb'
        obtain ⟨h1, h2⟩ := hblocks pre.length b hbget
        refine ⟨h1, ?_⟩
        simp only [if_true]
        rw [hx1] at h2
        refine List.Perm.trans ?_ h2
        rw [List.append_assoc]
        exact List.Perm.append_left _ List.perm_append_comm
      · rw [if_neg (fun e => hi e.symm), List.append_nil]
        have hsame : (pre ++ ({ b with free := b.free.dropLast } : DescriptorBlock) :: post)[i]? =
            pool.blocks[i]? := by
          rw [hsplit]
          by_cases hlt : i < pre.length
          · rw [List.getElem?_append_left hlt, List.getElem?_append_left hlt]
          · rw [List.getElem?_append_right (by omega), List.getElem?_append_right (by omega)]
            have : i - pre.length = (i - pre.length - 1) + 1 := by omega
            rw [this]
            simp
        rw [hsame] at hb'
        exact hblocks i b' hb'

end DescriptorSystem

namespace DescriptorSystem

theorem leased_split (pool : VulkanDescriptorSetPool) (l1 l2 : List VulkanDescriptor)
    (d : VulkanDescriptor) (i : Nat) :
    leased ⟨pool, l1 ++ d :: l2⟩ i =
      leased ⟨pool, l1⟩ i ++ (if d.block = i then [d.descriptorSet] else []) ++
        leased ⟨pool, l2⟩ i := by
  unfold leased
  by_cases h : d.block = i
  · simp [List.filter_append, List.filter_cons, h]
  · simp [List.filter_append, List.filter_cons, h]

theorem leased_join (pool pool' : VulkanDescriptorSetPool) (l1 l2 : List VulkanDescriptor)
    (i : Nat) :
    leased ⟨pool', l1 ++ l2⟩ i = leased ⟨pool, l1⟩ i ++ leased ⟨pool, l2⟩ i := by
  unfold leased
  simp [List.filter_append]

theorem destruct_inv {m : Nat} {s : DescriptorSystem} (h : Inv m s) (position : Nat) :
    Inv m (s.destruct position) := by
  obtain ⟨hmax, hlive, hblocks⟩ := h
  obtain ⟨pool, live⟩ := s
  simp only at hmax hlive hblocks
  unfold destruct
  simp only
  cases hd : live[position]? with
  | none => exact ⟨hmax, hlive, hblocks⟩
  | some d =>
    simp only
    obtain ⟨l1, l2, hl, herase⟩ := eraseIdx_of_getElem? live position d hd
    have hdlt : d.block < pool.blocks.length := hlive d (by rw [hl]; simp)
    have hbget : pool.blocks[d.block]? = some (pool.blocks[d.block]) :=
      List.getElem?_eq_getElem hdlt
    rw [hbget]
    simp only
    rw [herase]
    refine ⟨hmax, ?_, ?_⟩
    · intro d' hd'
      simp only [List.length_set]
      apply hlive
      rw [hl]
      simp only [List.mem_append, List.mem_cons] at hd' ⊢
      tauto
    · intro i b' hb'
      simp only at hb'
      rw [leased_join pool]
      by_cases hi : i = d.block
      · subst hi
        rw [List.getElem?_set_self hdlt] at hb'
        simp only [Option.some.injEq] at hb'
        subst hb'
        obtain ⟨h1, h2⟩ := hblocks d.block _ hbget
        refine ⟨h1, ?_⟩
        rw [hl, leased_split] at h2
        simp only [if_true] at h2
        refine List.Perm.trans ?_ h2
        simp only [DescriptorBlock.dispose, List.append_assoc]
        refine List.Perm.append_left _ ?_
        rw [← List.append_assoc, ← List.append_assoc]
        exact List.Perm.append_right _ List.perm_append_comm
      · rw [List.getElem?_set_ne (fun e => hi e.symm)] at hb'
        obtain ⟨h1, h2⟩ := hblocks i b' hb'
        refine ⟨h1, ?_⟩
        rw [hl, leased_split, if_neg (fun e => hi e.symm), List.append_nil] at h2
        exact h2

theorem descriptor_run_concat (s : DescriptorSystem) (calls : List DescriptorCall) (c : DescriptorCall) :
    s.run (calls ++ [c]) = (s.run calls).call c := by
  simp [run, List.foldl_append]

theorem descriptor_run_inv {m : Nat} (hm : 1 ≤ m) (calls : List DescriptorCall) :
    Inv m ((create m).run calls) := by
  induction calls using List.reverseRecOn with
  | nil => exact descriptor_create_inv m
  | append_singleton l c ih =>
    rw [descriptor_run_concat]
    cases c with
    | construct => exact construct_inv hm ih
    | destruct position => exact destruct_inv ih position

end DescriptorSystem

namespace DescriptorSystem

theorem mem_leased {s : DescriptorSystem} {d : VulkanDescriptor} (h : d ∈ s.live) :
    d.descriptorSet ∈ s.leased d.block := by
  unfold leased
  exact List.mem_map.2 ⟨d, List.mem_filter.2 ⟨h, by simp⟩, rfl⟩

/-- C30 (descriptor sets are never leased twice). For a pool with `maxSets ≥ 1`
and every sequence of constructions and destructions of `VulkanDescriptor`
objects: in every block the free pointers and the sets held by live
descriptors are together exactly the sets of the block, each once, so they are
disjoint; what `acquire` returns next is a set (not null) that no live
descriptor holds; `acquire` takes the last free set of the first block in
creation order that has a free set, and it appends a new block, handing out a
set of it, only when every block has an empty free list. -/
theorem descriptor_sets_leased_once (maxSets : Nat) (hmax : 1 ≤ maxSets)
    (calls : List DescriptorCall) :
    (∀ (i : Nat) (b : DescriptorBlock), ((create maxSets).run calls).pool.blocks[i]? = some b →
      b.sets = List.range maxSets ∧
      (b.free ++ ((create maxSets).run calls).leased i).Perm (b.sets.map some) ∧
      (b.free ++ ((create maxSets).run calls).leased i).Nodup ∧
      ∀ x ∈ b.free, x ∉ ((create maxSets).run calls).leased i) ∧
    (((create maxSets).run calls).pool.acquire.1 ∉ ((create maxSets).run calls).live ∧
      ((create maxSets).run calls).pool.acquire.1.descriptorSet ≠ none) ∧
    (∀ pre b post, ((create maxSets).run calls).pool.blocks = pre ++ b :: post →
      (∀ b' ∈ pre, b'.free = []) → b.free ≠ [] →
      ((create maxSets).run calls).pool.acquire =
        (⟨pre.length, b.acquire.1⟩,
          { ((create maxSets).run calls).pool with blocks := pre ++ b.acquire.2 :: post }) ∧
      some b.acquire.1 = b.free.getLast? ∧ b.acquire.2.free = b.free.dropLast ∧
      b.acquire.2.sets = b.sets) ∧
    ((∀ b ∈ ((create maxSets).run calls).pool.blocks, b.free = []) →
      ((create maxSets).run calls).pool.acquire =
        (⟨((create maxSets).run calls).pool.blocks.length, some (maxSets - 1)⟩,
          { ((create maxSets).run calls).pool with
            blocks := ((create maxSets).run calls).pool.blocks ++
              [⟨List.range maxSets, (List.range (maxSets - 1)).map some⟩] })) := by
  obtain ⟨h1, h2, h3⟩ := descriptor_run_inv hmax calls
  have hnodup : ∀ (i : Nat) (b : DescriptorBlock),
      ((create maxSets).run calls).pool.blocks[i]? = some b →
      (b.free ++ ((create maxSets).run calls).leased i).Nodup := by
    intro i b hb
    refine (h3 i b hb).2.nodup_iff.2 ?_
    exact (List.nodup_range _).map (fun a b h => Option.some.inj h)
  have hfirst : ∀ pre b post, ((create maxSets).run calls).pool.blocks = pre ++ b :: post →
      (∀ b' ∈ pre, b'.free = []) → b.free ≠ [] →
      ((create maxSets).run calls).pool.acquire =
        (⟨pre.length, b.acquire.1⟩,
          { ((create maxSets).run calls).pool with blocks := pre ++ b.acquire.2 :: post }) ∧
      some b.acquire.1 = b.free.getLast? ∧ b.acquire.2.free = b.free.dropLast ∧
      b.acquire.2.sets = b.sets := by
    intro pre b post hsplit hpre hb
    refine ⟨VulkanDescriptorSetPool.acquire_first _ hsplit hpre hb, ?_⟩
    obtain ⟨x, hx1, hx2⟩ := DescriptorBlock.acquire_of_ne_nil hb
    rw [hx2]
    refine ⟨?_, rfl, rfl⟩
    simp only
    rw [hx1, List.getLast?_append]
    simp
  have hnew : (∀ b ∈ ((create maxSets).run calls).pool.blocks, b.free = []) →
      ((create maxSets).run calls).pool.acquire =
        (⟨((create maxSets).run calls).pool.blocks.length, some (maxSets - 1)⟩,
          { ((create maxSets).run calls).pool with
            blocks := ((create maxSets).run calls).pool.blocks ++
              [⟨List.range maxSets, (List.range (maxSets - 1)).map some⟩] }) := by
    intro hall
    rw [VulkanDescriptorSetPool.acquire_new _ hall, h1, DescriptorBlock.create_acquire hmax]
    simp [h1]
  refine ⟨?_, ?_, hfirst, hnew⟩
  · intro i b hb
    obtain ⟨k1, k2⟩ := h3 i b hb
    refine ⟨k1, by rw [k1]; exact k2, hnodup i b hb, ?_⟩
    intro x hx hl
    exact (List.nodup_append.1 (hnodup i b hb)).2.2 hx hl
  · rcases VulkanDescriptorSetPool.exists_first_free ((create maxSets).run calls).pool.blocks with
      hall | ⟨pre, b, post, hsplit, hpre, hb⟩
    · rw [hnew hall]
      refine ⟨?_, by simp⟩
      intro hmem
      have := h2 _ hmem
      simp at this
    · obtain ⟨hacq, hlast, -, -⟩ := hfirst pre b post hsplit hpre hb
      rw [hacq]
      have hbget : ((create maxSets).run calls).pool.blocks[pre.length]? = some b := by
        rw [hsplit, List.getElem?_append_right (Nat.le_refl _)]
        simp
      have hxfree : b.acquire.1 ∈ b.free := by
        obtain ⟨x, hx1, hx2⟩ := DescriptorBlock.acquire_of_ne_nil hb
        rw [hx2]
        simp only
        rw [hx1]
        simp
      refine ⟨?_, ?_⟩
      · intro hmem
        have hl := mem_leased hmem
        exact (List.nodup_append.1 (hnodup _ b hbget)).2.2 hxfree hl
      · have hin : b.acquire.1 ∈ (List.range maxSets).map some :=
          (h3 _ b hbget).2.mem_iff.1 (List.mem_append_left _ hxfree)
        obtain ⟨k, -, hk⟩ := List.mem_map.1 hin
        simp only
        rw [← hk]
        simp

theorem descriptor_sets_leased_once_witness :
    1 ≤ 2 ∧
      ((create 2).run [DescriptorCall.construct, DescriptorCall.construct,
          DescriptorCall.construct, DescriptorCall.destruct 0]) =
        ⟨⟨2, [⟨[0, 1], [some 1]⟩, ⟨[0, 1], [some 0]⟩]⟩, [⟨0, some 0⟩, ⟨1, some 1⟩]⟩ ∧
      ((create 2).run [DescriptorCall.construct, DescriptorCall.construct,
          DescriptorCall.construct, DescriptorCall.destruct 0]).pool.acquire.1 ∉
        ((create 2).run [DescriptorCall.construct, DescriptorCall.construct,
          DescriptorCall.construct, DescriptorCall.destruct 0]).live :=
  ⟨by decide, by decide,
    (descriptor_sets_leased_once 2 (by decide)
      [DescriptorCall.construct, DescriptorCall.construct, DescriptorCall.construct,
        DescriptorCall.destruct 0]).2.1.1⟩

end DescriptorSystem

/-! ## Defragmentation and the ranges in use -/

/-- The ranges in use, in list order. -/
theorem used_mergePair (left : VulkanMemoryRange) (l : List VulkanMemoryRange) :
    (mergePair left l).filter (fun r => !r.free) = (left :: l).filter (fun r => !r.free) := by
  cases l with
  | nil => rfl
  | cons right rest =>
    by_cases h : (right.isFree && left.isFree) = true
    · simp only [mergePair, h, if_true]
      simp only [Bool.and_eq_true, VulkanMemoryRange.isFree] at h
      simp [List.filter_cons, h.1, h.2]
    · simp [mergePair, h]

theorem used_mergeFromRight : ∀ (l : List VulkanMemoryRange),
    (mergeFromRight l).filter (fun r => !r.free) = l.filter (fun r => !r.free)
  | [] => rfl
  | left :: rest => by
    show (mergePair left (mergeFromRight rest)).filter _ = _
    rw [used_mergePair, List.filter_cons, List.filter_cons, used_mergeFromRight rest]

theorem used_moveFirstToStart (l : List VulkanMemoryRange) :
    (moveFirstToStart l).filter (fun r => !r.free) = l.filter (fun r => !r.free) := by
  cases l with
  | nil => rfl
  | cons h t =>
    rw [moveFirstToStart_cons]
    by_cases hf : h.isFree = true
    · rw [if_pos hf]
      simp only [VulkanMemoryRange.isFree] at hf
      simp [List.filter_cons, hf]
    · rw [if_neg hf]

theorem used_growLastToEnd (S : Nat) (l : List VulkanMemoryRange) :
    (growLastToEnd S l).filter (fun r => !r.free) = l.filter (fun r => !r.free) := by
  rcases List.eq_nil_or_concat l with h | ⟨init, z, h⟩
  · subst h; rfl
  · subst h
    rw [List.concat_eq_append, growLastToEnd_concat]
    by_cases hf : (z.isFree && decide (z.getEnd < S)) = true
    · rw [if_pos hf]
      simp only [Bool.and_eq_true, VulkanMemoryRange.isFree] at hf
      simp [List.filter_append, List.filter_cons, hf.1]
    · rw [if_neg hf]

theorem count_eq_count_used {x : VulkanMemoryRange} (hx : x.free = false)
    (l : List VulkanMemoryRange) : l.count x = (l.filter (fun r => !r.free)).count x := by
  rw [List.count_filter]
  simp [hx]

/-- Defragmentation keeps every range that is in use and not empty, as often as
it is stored. -/
theorem count_defragmentRanges (b : VulkanMemory) {x : VulkanMemoryRange}
    (hx : x.free = false) (hne : x.memorySize ≠ 0) :
    b.defragmentRanges.ranges.count x = b.ranges.count x := by
  by_cases hall : ∀ r ∈ b.ranges, r.isFree = true
  · rw [defragmentRanges_of_all_free hall]
    have h0 : b.ranges.count x = 0 := by
      rw [List.count_eq_zero]
      intro hmem
      have := hall x hmem
      simp [VulkanMemoryRange.isFree, hx] at this
    rw [h0]
    rw [List.count_eq_zero]
    intro hmem
    simp only [List.mem_singleton] at hmem
    rw [hmem] at hx
    simp at hx
  · rw [(defragmentRanges_ranges hall).1]
    rw [count_eq_count_used hx, used_growLastToEnd, used_moveFirstToStart,
      ← count_eq_count_used hx]
    rw [List.count_filter (by simp [VulkanMemoryRange.isEmpty, VulkanMemoryRange.getSize, hne])]
    rw [count_eq_count_used hx, used_mergeFromRight, ← count_eq_count_used hx]
    exact (List.perm_insertionSort _ _).count_eq x

theorem count_set_of_ne {x a c : VulkanMemoryRange} (hxa : x ≠ a) (hxc : x ≠ c) :
    ∀ (l : List VulkanMemoryRange) (i : Nat), l[i]? = some a → (l.set i c).count x = l.count x
  | [], _, h => by simp at h
  | h :: t, 0, hget => by
    simp only [List.getElem?_cons_zero, Option.some.injEq] at hget
    subst hget
    simp only [List.set_cons_zero]
    rw [List.count_cons_of_ne hxc, List.count_cons_of_ne hxa]
  | h :: t, i + 1, hget => by
    simp only [List.getElem?_cons_succ] at hget
    simp only [List.set_cons_succ, List.count_cons]
    rw [count_set_of_ne hxa hxc t i hget]

theorem disposeRange_of_mem {m : VulkanMemory} {x : VulkanMemoryRange} (hmem : x ∈ m.ranges)
    (d : Bool) :
    ∃ i, m.ranges[i]? = some x ∧
      m.disposeRange x d = some (if d then
        defragmentRanges { m with ranges := m.ranges.set i { x with free := true } }
        else { m with ranges := m.ranges.set i { x with free := true } }) := by
  obtain ⟨i, hi⟩ := findRange_of_mem hmem
  obtain ⟨hget, -⟩ := findRange_get hi
  refine ⟨i, hget, ?_⟩
  unfold disposeRange
  rw [hi]
  simp only
  rw [hget]
  cases d <;> simp

/-- C27 (defragmentation never touches live leases). Let `x` be a range in use
of non-zero size. `defragmentRanges` stores `x` as often as before, and so does
`disposeRange (r, defragmentAfter)` for every stored range `r` other than `x`,
with or without defragmentation: offset, size and used flag of `x` are as they
were. Hence `contains (x)` is true after the call whenever it was true before,
and a later `disposeRange (x)` finds the range. -/
theorem defragment_keeps_leases (b : VulkanMemory) (x : VulkanMemoryRange)
    (hx : x.free = false) (hne : x.memorySize ≠ 0) :
    (b.defragmentRanges.ranges.count x = b.ranges.count x ∧
      (b.contains x = true → b.defragmentRanges.contains x = true)) ∧
    ∀ (r : VulkanMemoryRange) (d : Bool), r ∈ b.ranges → x ≠ r →
      ∃ b', b.disposeRange r d = some b' ∧ b'.ranges.count x = b.ranges.count x ∧
        (b.contains x = true →
          b'.contains x = true ∧ ∀ d', ∃ b'', b'.disposeRange x d' = some b'') := by
  have hcontains : ∀ (m m' : VulkanMemory), m'.ranges.count x = m.ranges.count x →
      m.contains x = true → m'.contains x = true := by
    intro m m' hc hm
    rw [contains_iff] at hm ⊢
    rw [← List.count_pos_iff] at hm ⊢
    omega
  refine ⟨⟨count_defragmentRanges b hx hne,
    hcontains _ _ (count_defragmentRanges b hx hne)⟩, ?_⟩
  intro r d hr hxr
  obtain ⟨i, hget, hdisp⟩ := disposeRange_of_mem hr d
  have hxfree : x ≠ { r with free := true } := by
    intro e
    rw [e] at hx
    simp at hx
  have hset : (b.ranges.set i { r with free := true }).count x = b.ranges.count x :=
    count_set_of_ne hxr hxfree b.ranges i hget
  have hcount : (if d then
        defragmentRanges { b with ranges := b.ranges.set i { r with free := true } }
        else { b with ranges := b.ranges.set i { r with free := true } }).ranges.count x =
      b.ranges.count x := by
    cases d with
    | true =>
      simp only [if_true]
      rw [count_defragmentRanges _ hx hne]
      exact hset
    | false => exact hset
  refine ⟨_, hdisp, hcount, ?_⟩
  intro hb
  have hc := hcontains _ _ hcount hb
  refine ⟨hc, ?_⟩
  intro d'
  obtain ⟨j, -, hj⟩ := disposeRange_of_mem ((contains_iff _ _).1 hc) d'
  exact ⟨_, hj⟩

theorem defragment_keeps_leases_witness :
    (⟨1, 16, 32, false⟩ : VulkanMemoryRange).free = false ∧
      (⟨1, 16, 32, false⟩ : VulkanMemoryRange).memorySize ≠ 0 ∧
      (⟨1, 64, 0, [⟨1, 8, 0, true⟩, ⟨1, 8, 8, false⟩, ⟨1, 16, 32, false⟩, ⟨1, 16, 48, true⟩,
          ⟨1, 16, 16, true⟩]⟩ : VulkanMemory).defragmentRanges.ranges =
        [⟨1, 8, 0, true⟩, ⟨1, 8, 8, false⟩, ⟨1, 16, 16, true⟩, ⟨1, 16, 32, false⟩,
          ⟨1, 16, 48, true⟩] ∧
      (⟨1, 64, 0, [⟨1, 8, 0, true⟩, ⟨1, 8, 8, false⟩, ⟨1, 16, 32, false⟩, ⟨1, 16, 48, true⟩,
          ⟨1, 16, 16, true⟩]⟩ : VulkanMemory).defragmentRanges.ranges.count ⟨1, 16, 32, false⟩ =
        (⟨1, 64, 0, [⟨1, 8, 0, true⟩, ⟨1, 8, 8, false⟩, ⟨1, 16, 32, false⟩, ⟨1, 16, 48, true⟩,
          ⟨1, 16, 16, true⟩]⟩ : VulkanMemory).ranges.count ⟨1, 16, 32, false⟩ :=
  ⟨rfl, by decide, by decide,
    (defragment_keeps_leases
      ⟨1, 64, 0, [⟨1, 8, 0, true⟩, ⟨1, 8, 8, false⟩, ⟨1, 16, 32, false⟩, ⟨1, 16, 48, true⟩,
        ⟨1, 16, 16, true⟩]⟩ ⟨1, 16, 32, false⟩ rfl (by decide)).1.1⟩

/-! ## The runs of free ranges -/

theorem merge_size {ro rs xo E : Nat} (h2 : ro ≤ xo) (h3 : xo < E) (h4 : E < deviceSizeLimit) :
    wadd rs (wsub (wadd xo (E - xo)) (wadd ro rs)) = E - ro := by
  simp only [wadd, wsub, deviceSizeLimit_eq] at h4 ⊢
  omega

theorem lastEnd_mem : ∀ (run : List VulkanMemoryRange) (r : VulkanMemoryRange),
    ∃ p ∈ r :: run, lastEnd r run = p.memoryOffset + p.memorySize
  | [], r => ⟨r, by simp, rfl⟩
  | x :: run, r => by
    obtain ⟨p, hp, he⟩ := lastEnd_mem run x
    exact ⟨p, List.mem_cons_of_mem _ hp, he⟩

/-- What `mergeAdjacentRanges` makes of a sorted list without empty ranges: the
first range spans its run, and behind it, once the emptied ranges are removed,
stand the spans of the other runs. -/
theorem mergeFromRight_runs : ∀ (rest : List VulkanMemoryRange) (r : VulkanMemoryRange),
    (r :: rest).Pairwise offsetLE → NoWrap (r :: rest) →
    ∃ run runs t, freeRuns (r :: rest) = (r :: run) :: runs ∧
      (∀ p ∈ run, p ∈ rest) ∧
      mergeFromRight (r :: rest) = { r with memorySize := lastEnd r run - r.memoryOffset } :: t ∧
      t.filter (fun q => !q.isEmpty) = runs.filterMap spanOfRun ∧
      r.memoryOffset < lastEnd r run ∧
      (∀ q ∈ runs.filterMap spanOfRun, q.memorySize ≠ 0 ∧
        (∃ p ∈ rest, q.memoryOffset = p.memoryOffset) ∧
        (∃ p ∈ rest, q.memoryOffset + q.memorySize = p.memoryOffset + p.memorySize)) ∧
      (runs.filterMap spanOfRun).Pairwise offsetLE ∧
      (({ r with memorySize := lastEnd r run - r.memoryOffset } : VulkanMemoryRange) ::
        runs.filterMap spanOfRun).Chain' NotBothFree
  | [], r, _, hn => by
    refine ⟨[], [], [], rfl, by simp, ?_, rfl, ?_, by simp, by simp, by simp⟩
    · show [r] = _
      simp [lastEnd]
    · have := (hn r (by simp)).1
      simp only [lastEnd]
      omega
  | x :: rest, r, hs, hn => by
    have hs' : (x :: rest).Pairwise offsetLE := (List.pairwise_cons.1 hs).2
    have hn' : NoWrap (x :: rest) := fun p hp => hn p (List.mem_cons_of_mem _ hp)
    obtain ⟨runx, runs, t, hfr, hrun, hmr, hfilt, hlt, hq, hpw, hch⟩ :=
      mergeFromRight_runs rest x hs' hn'
    have hrx : r.memoryOffset ≤ x.memoryOffset := (List.pairwise_cons.1 hs).1 x (by simp)
    have hrle : ∀ p ∈ x :: rest, r.memoryOffset ≤ p.memoryOffset :=
      fun p hp => (List.pairwise_cons.1 hs).1 p hp
    obtain ⟨pe, hpe, hpe2⟩ := lastEnd_mem runx x
    have hpe' : pe ∈ x :: rest := by
      rcases List.mem_cons.1 hpe with h | h
      · rw [h]; simp
      · exact List.mem_cons_of_mem _ (hrun pe h)
    have hE : lastEnd x runx < deviceSizeLimit := by
      rw [hpe2]
      exact (hn' pe hpe').2
    have hr := hn r (by simp)
    have hxspan : spanOfRun (x :: runx) =
        some { x with memorySize := lastEnd x runx - x.memoryOffset } := rfl
    have hxne : ({ x with memorySize := lastEnd x runx - x.memoryOffset } :
        VulkanMemoryRange).isEmpty = false := by
      simp only [VulkanMemoryRange.isEmpty, VulkanMemoryRange.getSize, beq_eq_false_iff_ne, ne_eq]
      omega
    by_cases hboth : (x.free && r.free) = true
    · -- the first range joins the run of its neighbour
      have hxf : x.free = true := by simp only [Bool.and_eq_true] at hboth; exact hboth.1
      have hrf : r.free = true := by simp only [Bool.and_eq_true] at hboth; exact hboth.2
      refine ⟨x :: runx, runs, ({ x with memoryOffset := 0, memorySize := 0 } : VulkanMemoryRange) :: t,
        ?_, ?_, ?_, ?_, ?_, ?_, hpw, ?_⟩
      · show (match freeRuns (x :: rest) with
          | (x :: run) :: runs =>
            if x.free && r.free then (r :: x :: run) :: runs else [r] :: (x :: run) :: runs
          | runs => [r] :: runs) = _
        rw [hfr]
        simp only [hboth, if_true]
      · intro p hp
        rcases List.mem_cons.1 hp with h | h
        · rw [h]; simp
        · exact List.mem_cons_of_mem _ (hrun p h)
      · show mergePair r (mergeFromRight (x :: rest)) = _
        rw [hmr]
        simp only [mergePair, VulkanMemoryRange.isFree, hxf, hrf, Bool.and_self, if_true]
        simp only [VulkanMemoryRange.getEnd, VulkanMemoryRange.getOffset,
          VulkanMemoryRange.getSize, lastEnd]
        rw [merge_size hrx hlt hE]
      · rw [List.filter_cons]
        simp only [VulkanMemoryRange.isEmpty, VulkanMemoryRange.getSize, beq_self_eq_true,
          Bool.not_true, Bool.false_eq_true, if_false]
        exact hfilt
      · show r.memoryOffset < lastEnd x runx
        omega
      · intro q hq'
        obtain ⟨h1, ⟨p, hp, hp2⟩, ⟨p', hp', hp2'⟩⟩ := hq q hq'
        exact ⟨h1, ⟨p, List.mem_cons_of_mem _ hp, hp2⟩, ⟨p', List.mem_cons_of_mem _ hp', hp2'⟩⟩
      · show List.Chain' NotBothFree
          (({ r with memorySize := lastEnd x runx - r.memoryOffset } : VulkanMemoryRange) ::
            runs.filterMap spanOfRun)
        cases hl : runs.filterMap spanOfRun with
        | nil => simp
        | cons h tl =>
          rw [hl] at hch
          have h1 := (List.chain'_cons.1 hch).1
          have h2 := (List.chain'_cons.1 hch).2
          refine List.chain'_cons.2 ⟨?_, h2⟩
          intro hb
          exact h1 ⟨hxf, hb.2⟩
    · -- the first range is a run of its own
      refine ⟨[], (x :: runx) :: runs,
        ({ x with memorySize := lastEnd x runx - x.memoryOffset } : VulkanMemoryRange) :: t,
        ?_, by simp, ?_, ?_, ?_, ?_, ?_, ?_⟩
      · show (match freeRuns (x :: rest) with
          | (x :: run) :: runs =>
            if x.free && r.free then (r :: x :: run) :: runs else [r] :: (x :: run) :: runs
          | runs => [r] :: runs) = _
        rw [hfr]
        simp only [hboth, Bool.false_eq_true, if_false]
      · show mergePair r (mergeFromRight (x :: rest)) = _
        rw [hmr]
        have hcond : ((({ x with memorySize := lastEnd x runx - x.memoryOffset } :
            VulkanMemoryRange).isFree && r.isFree) = true) = False := by
          simp only [VulkanMemoryRange.isFree, eq_iff_iff, iff_false]
          exact hboth
        simp only [mergePair, hcond, if_false, lastEnd]
        congr 1
        cases r
        simp
      · rw [List.filter_cons, hxne]
        simp only [Bool.not_false, if_true, List.filterMap_cons, hxspan]
        rw [hfilt]
      · simp only [lastEnd]
        omega
      · intro q hq'
        simp only [List.filterMap_cons, hxspan, List.mem_cons] at hq'
        rcases hq' with h | h
        · subst h
          refine ⟨?_, ⟨x, by simp, rfl⟩, ⟨pe, hpe', ?_⟩⟩
          · simp only [ne_eq]
            omega
          · simp only
            omega
        · obtain ⟨h1, ⟨p, hp, hp2⟩, ⟨p', hp', hp2'⟩⟩ := hq q h
          exact ⟨h1, ⟨p, List.mem_cons_of_mem _ hp, hp2⟩,
            ⟨p', List.mem_cons_of_mem _ hp', hp2'⟩⟩
      · simp only [List.filterMap_cons, hxspan]
        refine List.pairwise_cons.2 ⟨?_, hpw⟩
        intro q hq'
        obtain ⟨-, ⟨p, hp, hp2⟩, -⟩ := hq q hq'
        show x.memoryOffset ≤ q.memoryOffset
        rw [hp2]
        exact (List.pairwise_cons.1 hs').1 p hp
      · simp only [List.filterMap_cons, hxspan, lastEnd]
        refine List.chain'_cons.2 ⟨?_, hch⟩
        intro hb
        apply hboth
        simp only [Bool.and_eq_true]
        exact ⟨hb.2, hb.1⟩

/-- After `mergeAdjacentRanges` and `removeEmptyRanges` a sorted list without
empty ranges holds one range for every maximal run of consecutive free ranges,
from the first offset of the run to its last end; the list is sorted, has no
empty range and no two consecutive free ranges. -/
theorem merged_runs (s : List VulkanMemoryRange) (hs : s.Pairwise offsetLE) (hn : NoWrap s) :
    (mergeFromRight s).filter (fun q => !q.isEmpty) = mergedRuns s ∧
      (mergedRuns s).Pairwise offsetLE ∧ (mergedRuns s).Chain' NotBothFree ∧
      (∀ q ∈ mergedRuns s, q.memorySize ≠ 0 ∧ (∃ p ∈ s, q.memoryOffset = p.memoryOffset) ∧
        (∃ p ∈ s, q.memoryOffset + q.memorySize = p.memoryOffset + p.memorySize)) := by
  cases s with
  | nil => simp [mergeFromRight, mergedRuns, freeRuns]
  | cons r rest =>
    obtain ⟨run, runs, t, hfr, hrun, hmr, hfilt, hlt, hq, hpw, hch⟩ :=
      mergeFromRight_runs rest r hs hn
    obtain ⟨pe, hpe, hpe2⟩ := lastEnd_mem run r
    have hpe' : pe ∈ r :: rest := by
      rcases List.mem_cons.1 hpe with h | h
      · rw [h]; simp
      · exact List.mem_cons_of_mem _ (hrun pe h)
    have hm : mergedRuns (r :: rest) =
        ({ r with memorySize := lastEnd r run - r.memoryOffset } : VulkanMemoryRange) ::
          runs.filterMap spanOfRun := by
      unfold mergedRuns
      rw [hfr]
      rfl
    have hne : ({ r with memorySize := lastEnd r run - r.memoryOffset } :
        VulkanMemoryRange).isEmpty = false := by
      simp only [VulkanMemoryRange.isEmpty, VulkanMemoryRange.getSize, beq_eq_false_iff_ne, ne_eq]
      omega
    rw [hm]
    refine ⟨?_, ?_, hch, ?_⟩
    · rw [hmr, List.filter_cons, hne]
      simp only [Bool.not_false, if_true]
      rw [hfilt]
    · refine List.pairwise_cons.2 ⟨?_, hpw⟩
      intro q hq'
      obtain ⟨-, ⟨p, hp, hp2⟩, -⟩ := hq q hq'
      show r.memoryOffset ≤ q.memoryOffset
      rw [hp2]
      exact (List.pairwise_cons.1 hs).1 p hp
    · intro q hq'
      rcases List.mem_cons.1 hq' with h | h
      · subst h
        refine ⟨?_, ⟨r, by simp, rfl⟩, ⟨pe, hpe', ?_⟩⟩
        · simp only [ne_eq]
          omega
        · simp only
          omega
      · obtain ⟨h1, ⟨p, hp, hp2⟩, ⟨p', hp', hp2'⟩⟩ := hq q h
        exact ⟨h1, ⟨p, List.mem_cons_of_mem _ hp, hp2⟩, ⟨p', List.mem_cons_of_mem _ hp', hp2'⟩⟩

/-! ## The first and the last range -/

theorem moveFirstToStart_map_free (l : List VulkanMemoryRange) :
    (moveFirstToStart l).map (fun r => r.free) = l.map (fun r => r.free) := by
  cases l with
  | nil => rfl
  | cons h t =>
    rw [moveFirstToStart_cons]
    split <;> rfl

theorem growLastToEnd_map_free (S : Nat) (l : List VulkanMemoryRange) :
    (growLastToEnd S l).map (fun r => r.free) = l.map (fun r => r.free) := by
  rcases List.eq_nil_or_concat l with h | ⟨init, z, h⟩
  · subst h; rfl
  · subst h
    rw [List.concat_eq_append, growLastToEnd_concat]
    split <;> simp

theorem growLastToEnd_map_offset (S : Nat) (l : List VulkanMemoryRange) :
    (growLastToEnd S l).map (fun r => r.memoryOffset) = l.map (fun r => r.memoryOffset) := by
  rcases List.eq_nil_or_concat l with h | ⟨init, z, h⟩
  · subst h; rfl
  · subst h
    rw [List.concat_eq_append, growLastToEnd_concat]
    split <;> simp

theorem chain_of_map_free {l l' : List VulkanMemoryRange}
    (h : l'.map (fun r => r.free) = l.map (fun r => r.free)) (hc : l.Chain' NotBothFree) :
    l'.Chain' NotBothFree := by
  have e : ∀ m : List VulkanMemoryRange, m.Chain' NotBothFree ↔
      (m.map (fun r => r.free)).Chain' (fun a b => ¬ (a = true ∧ b = true)) := by
    intro m
    rw [List.chain'_map]
    rfl
  rw [e] at hc ⊢
  rw [h]
  exact hc

theorem pairwise_of_map_offset {l l' : List VulkanMemoryRange}
    (h : l'.map (fun r => r.memoryOffset) = l.map (fun r => r.memoryOffset))
    (hc : l.Pairwise offsetLE) : l'.Pairwise offsetLE := by
  have e : ∀ m : List VulkanMemoryRange, m.Pairwise offsetLE ↔
      (m.map (fun r => r.memoryOffset)).Pairwise (fun a b => a ≤ b) := by
    intro m
    rw [List.pairwise_map]
    rfl
  rw [e] at hc ⊢
  rw [h]
  exact hc

theorem moveFirstToStart_pairwise {l : List VulkanMemoryRange} (h : l.Pairwise offsetLE) :
    (moveFirstToStart l).Pairwise offsetLE := by
  cases l with
  | nil => exact h
  | cons a t =>
    rw [moveFirstToStart_cons]
    split
    · refine List.pairwise_cons.2 ⟨?_, (List.pairwise_cons.1 h).2⟩
      intro q _
      exact Nat.zero_le _
    · exact h

/-- The ranges of the list after the first has been moved: sizes and flags are
those of the list, and no end has grown. -/
theorem moveFirstToStart_mem {l : List VulkanMemoryRange} {q : VulkanMemoryRange}
    (hq : q ∈ moveFirstToStart l) :
    ∃ p ∈ l, q.memorySize = p.memorySize ∧ q.free = p.free ∧ q.memory = p.memory ∧
      q.memoryOffset ≤ p.memoryOffset := by
  cases l with
  | nil => simp [moveFirstToStart_nil] at hq
  | cons a t =>
    rw [moveFirstToStart_cons] at hq
    rcases List.mem_cons.1 hq with h | h
    · refine ⟨a, by simp, ?_⟩
      rw [h]
      split
      · exact ⟨rfl, rfl, rfl, Nat.zero_le _⟩
      · exact ⟨rfl, rfl, rfl, Nat.le_refl _⟩
    · exact ⟨q, List.mem_cons_of_mem _ h, rfl, rfl, rfl, Nat.le_refl _⟩

theorem moveFirstToStart_head {l : List VulkanMemoryRange} {r : VulkanMemoryRange}
    (h : (moveFirstToStart l).head? = some r) (hf : r.free = true) : r.memoryOffset = 0 := by
  cases l with
  | nil => simp [moveFirstToStart_nil] at h
  | cons a t =>
    rw [moveFirstToStart_cons] at h
    simp only [List.head?_cons, Option.some.injEq] at h
    by_cases ha : a.isFree = true
    · rw [if_pos ha] at h
      rw [← h]
    · rw [if_neg ha] at h
      rw [← h] at hf
      exact absurd hf (by simpa [VulkanMemoryRange.isFree] using ha)

theorem wsub_pos {S o : Nat} (hS : S < deviceSizeLimit) (ho : o < S) :
    wsub S o = S - o ∧ wsub S o ≠ 0 ∧ wadd o (wsub S o) = S := by
  simp only [wadd, wsub, deviceSizeLimit_eq] at hS ⊢
  omega

theorem wadd_wsub_self {S o : Nat} (hS : S < deviceSizeLimit) (ho : o < deviceSizeLimit) :
    wadd o (wsub S o) = S := by
  simp only [wadd, wsub, deviceSizeLimit_eq] at hS ho ⊢
  omega

/-- The ranges of the list after the last has been grown: a range of the list,
or the last range of it, free and ending before the end of the block, with the
size that makes it end there. -/
theorem growLastToEnd_mem {S : Nat} {l : List VulkanMemoryRange} {q : VulkanMemoryRange}
    (hq : q ∈ growLastToEnd S l) :
    q ∈ l ∨ ∃ z ∈ l, z.free = true ∧ z.getEnd < S ∧
      q = { z with memorySize := wsub S z.getOffset } := by
  rcases List.eq_nil_or_concat l with h | ⟨init, z, h⟩
  · subst h
    simp [growLastToEnd_nil] at hq
  · subst h
    rw [List.concat_eq_append] at hq ⊢
    rw [growLastToEnd_concat] at hq
    rcases List.mem_append.1 hq with h | h
    · exact Or.inl (List.mem_append_left _ h)
    · simp only [List.mem_singleton] at h
      by_cases hc : (z.isFree && decide (z.getEnd < S)) = true
      · rw [if_pos hc] at h
        simp only [Bool.and_eq_true, decide_eq_true_eq, VulkanMemoryRange.isFree] at hc
        exact Or.inr ⟨z, by simp, hc.1, hc.2, h⟩
      · rw [if_neg hc] at h
        exact Or.inl (by rw [h]; simp)

theorem growLastToEnd_last {S : Nat} {l : List VulkanMemoryRange} {r : VulkanMemoryRange}
    (hS : S < deviceSizeLimit) (hoff : ∀ q ∈ l, q.memoryOffset < deviceSizeLimit)
    (h : (growLastToEnd S l).getLast? = some r) (hf : r.free = true) : ¬ r.getEnd < S := by
  rcases List.eq_nil_or_concat l with hl | ⟨init, z, hl⟩
  · subst hl
    simp [growLastToEnd_nil] at h
  · subst hl
    rw [List.concat_eq_append] at h hoff
    have hlast : ∀ (y : VulkanMemoryRange), (init ++ [y]).getLast? = some y := by
      intro y
      rw [List.getLast?_append]
      simp
    rw [growLastToEnd_concat, hlast] at h
    simp only [Option.some.injEq] at h
    by_cases hc : (z.isFree && decide (z.getEnd < S)) = true
    · rw [if_pos hc] at h
      rw [← h]
      simp only [VulkanMemoryRange.getEnd, VulkanMemoryRange.getOffset, VulkanMemoryRange.getSize]
      rw [wadd_wsub_self hS (hoff z (by simp))]
      exact Nat.lt_irrefl _
    · rw [if_neg hc] at h
      rw [← h] at hf
      intro hlt
      apply hc
      simp only [Bool.and_eq_true, decide_eq_true_eq, VulkanMemoryRange.isFree]
      exact ⟨hf, by rw [h]; exact hlt⟩

theorem growLastToEnd_head {S : Nat} {l : List VulkanMemoryRange} {r : VulkanMemoryRange}
    (h : (growLastToEnd S l).head? = some r) :
    ∃ a, l.head? = some a ∧ r.memoryOffset = a.memoryOffset ∧ r.free = a.free := by
  have h1 := congrArg List.head? (growLastToEnd_map_offset S l)
  have h2 := congrArg List.head? (growLastToEnd_map_free S l)
  rw [List.head?_map, List.head?_map, h] at h1 h2
  cases hl : l.head? with
  | none => rw [hl] at h1; simp at h1
  | some a =>
    rw [hl] at h1 h2
    simp only [Option.map_some', Option.some.injEq] at h1 h2
    exact ⟨a, rfl, h1, h2⟩

/-- The list that `defragmentRanges` makes of the merged runs is one that it
leaves as it is. -/
theorem settled_of_merged {S : Nat} {m : List VulkanMemoryRange} (hS : S < deviceSizeLimit)
    (hpw : m.Pairwise offsetLE) (hch : m.Chain' NotBothFree)
    (hq : ∀ q ∈ m, q.memorySize ≠ 0 ∧ q.memoryOffset + q.memorySize < deviceSizeLimit)
    (hused : ¬ ∀ r ∈ growLastToEnd S (moveFirstToStart m), r.isFree = true) :
    Settled S (growLastToEnd S (moveFirstToStart m)) := by
  have hq1 : ∀ q ∈ moveFirstToStart m,
      q.memorySize ≠ 0 ∧ q.memoryOffset + q.memorySize < deviceSizeLimit := by
    intro q hq'
    obtain ⟨p, hp, h1, -, -, h4⟩ := moveFirstToStart_mem hq'
    have := hq p hp
    rw [h1]
    exact ⟨this.1, by omega⟩
  refine ⟨hused, ?_, ?_, ?_, ?_, ?_⟩
  · exact pairwise_of_map_offset (growLastToEnd_map_offset S _) (moveFirstToStart_pairwise hpw)
  · intro r hr
    rcases growLastToEnd_mem hr with h | ⟨z, hz, -, hz2, he⟩
    · exact (hq1 r h).1
    · have hz' := hq1 z hz
      rw [he]
      simp only [VulkanMemoryRange.getOffset]
      have hend : z.getEnd = z.memoryOffset + z.memorySize := getEnd_of_lt hz'.2
      rw [hend] at hz2
      exact (wsub_pos hS (by omega)).2.1
  · exact chain_of_map_free (growLastToEnd_map_free S _)
      (chain_of_map_free (moveFirstToStart_map_free m) hch)
  · intro r hr hf
    obtain ⟨a, ha, h1, h2⟩ := growLastToEnd_head hr
    rw [h1]
    exact moveFirstToStart_head ha (by rw [← h2]; exact hf)
  · intro r hr hf
    refine growLastToEnd_last hS ?_ hr hf
    intro q hq'
    have := (hq1 q hq').2
    omega

theorem mergeFromRight_of_chain : ∀ (l : List VulkanMemoryRange), l.Chain' NotBothFree →
    mergeFromRight l = l
  | [], _ => rfl
  | [a], _ => rfl
  | a :: x :: rest, h => by
    have h1 := (List.chain'_cons.1 h).1
    have h2 := (List.chain'_cons.1 h).2
    show mergePair a (mergeFromRight (x :: rest)) = _
    rw [mergeFromRight_of_chain (x :: rest) h2]
    have hc : ¬ ((x.isFree && a.isFree) = true) := by
      simp only [Bool.and_eq_true, VulkanMemoryRange.isFree]
      intro hb
      exact h1 ⟨hb.2, hb.1⟩
    simp [mergePair, hc]

/-- A settled list is left as it is by `defragmentRanges`. -/
theorem defragmentRanges_of_settled {b : VulkanMemory} (h : Settled b.memorySize b.ranges) :
    b.defragmentRanges = b := by
  obtain ⟨hused, hpw, hne, hch, hhead, hlast⟩ := h
  obtain ⟨hr, ha, hs, ht⟩ := defragmentRanges_ranges hused
  have hsort : b.ranges.insertionSort offsetLE = b.ranges := List.Sorted.insertionSort_eq hpw
  have hfilter : b.ranges.filter (fun r => !r.isEmpty) = b.ranges := by
    rw [List.filter_eq_self]
    intro r hr'
    simp [VulkanMemoryRange.isEmpty, VulkanMemoryRange.getSize, hne r hr']
  have hmove : moveFirstToStart b.ranges = b.ranges := by
    cases hl : b.ranges with
    | nil => rfl
    | cons a t =>
      rw [moveFirstToStart_cons]
      by_cases hf : a.isFree = true
      · rw [if_pos hf]
        have := hhead a (by rw [hl]; rfl) hf
        congr 1
        cases a
        simp only at this
        subst this
        rfl
      · rw [if_neg hf]
  have hgrow : growLastToEnd b.memorySize b.ranges = b.ranges := by
    rcases List.eq_nil_or_concat b.ranges with hl | ⟨init, z, hl⟩
    · rw [hl]; rfl
    · rw [hl, List.concat_eq_append, growLastToEnd_concat]
      have hz : b.ranges.getLast? = some z := by
        rw [hl, List.concat_eq_append, List.getLast?_append]
        simp
      have hc : ¬ ((z.isFree && decide (z.getEnd < b.memorySize)) = true) := by
        simp only [Bool.and_eq_true, decide_eq_true_eq, VulkanMemoryRange.isFree]
        intro hb
        exact hlast z hz hb.1 hb.2
      rw [if_neg hc]
  rw [hsort, mergeFromRight_of_chain _ hch, hfilter, hmove, hgrow] at hr
  cases hb : b.defragmentRanges with
  | mk addr memorySize memoryTypeIndex ranges =>
    rw [hb] at hr ha hs ht
    simp only at hr ha hs ht
    cases b
    simp only at hr ha hs ht
    subst hr ha hs ht
    rfl

theorem freeRuns_join : ∀ (s : List VulkanMemoryRange), (freeRuns s).flatten = s
  | [] => rfl
  | r :: rest => by
    have ih := freeRuns_join rest
    show (match freeRuns rest with
      | (x :: run) :: runs =>
        if x.free && r.free then (r :: x :: run) :: runs else [r] :: (x :: run) :: runs
      | runs => [r] :: runs).flatten = r :: rest
    cases h : freeRuns rest with
    | nil =>
      rw [h] at ih
      simp only [List.flatten_cons, List.flatten_nil, List.append_nil]
      rw [← ih]
      rfl
    | cons g gs =>
      rw [h] at ih
      cases g with
      | nil =>
        simp only [List.flatten_cons, List.nil_append, List.singleton_append] at ih ⊢
        rw [ih]
      | cons x run =>
        simp only
        split
        · simp only [List.flatten_cons, List.cons_append] at ih ⊢
          rw [ih]
        · simp only [List.flatten_cons, List.cons_append, List.nil_append] at ih ⊢
          rw [ih]

/-- The result of `defragmentRanges` on a block whose ranges are not all free,
none of them empty or wrapping: the merged runs of the sorted list, with the
first and the last range adjusted; this list is settled. -/
theorem defragmentRanges_merged {b : VulkanMemory} (hS : b.memorySize < deviceSizeLimit)
    (hn : NoWrap b.ranges) (hused : ∃ r ∈ b.ranges, r.free = false) :
    b.defragmentRanges.ranges =
        growLastToEnd b.memorySize
          (moveFirstToStart (mergedRuns (b.ranges.insertionSort offsetLE))) ∧
      b.defragmentRanges.memorySize = b.memorySize ∧
      Settled b.memorySize b.defragmentRanges.ranges ∧
      (∀ q ∈ mergedRuns (b.ranges.insertionSort offsetLE), q.memorySize ≠ 0 ∧
        (∃ p ∈ b.ranges, q.memoryOffset = p.memoryOffset) ∧
        (∃ p ∈ b.ranges, q.memoryOffset + q.memorySize = p.memoryOffset + p.memorySize)) := by
  obtain ⟨x, hx, hxf⟩ := hused
  have hall : ¬ ∀ r ∈ b.ranges, r.isFree = true := by
    intro h
    have := h x hx
    simp [VulkanMemoryRange.isFree, hxf] at this
  obtain ⟨hr, -, hs, -⟩ := defragmentRanges_ranges hall
  have hperm := List.perm_insertionSort offsetLE b.ranges
  have hsorted : (b.ranges.insertionSort offsetLE).Pairwise offsetLE :=
    List.sorted_insertionSort offsetLE b.ranges
  have hn' : NoWrap (b.ranges.insertionSort offsetLE) :=
    fun r hr' => hn r (hperm.mem_iff.1 hr')
  obtain ⟨h1, h2, h3, h4⟩ := merged_runs _ hsorted hn'
  rw [h1] at hr
  have h4' : ∀ q ∈ mergedRuns (b.ranges.insertionSort offsetLE), q.memorySize ≠ 0 ∧
      (∃ p ∈ b.ranges, q.memoryOffset = p.memoryOffset) ∧
      (∃ p ∈ b.ranges, q.memoryOffset + q.memorySize = p.memoryOffset + p.memorySize) := by
    intro q hq
    obtain ⟨k1, ⟨p, hp, hp2⟩, ⟨p', hp', hp2'⟩⟩ := h4 q hq
    exact ⟨k1, ⟨p, hperm.mem_iff.1 hp, hp2⟩, ⟨p', hperm.mem_iff.1 hp', hp2'⟩⟩
  refine ⟨hr, hs, ?_, h4'⟩
  rw [hr]
  refine settled_of_merged hS h2 h3 ?_ ?_
  · intro q hq
    obtain ⟨k1, -, ⟨p', hp', hp2'⟩⟩ := h4' q hq
    exact ⟨k1, by rw [hp2']; exact (hn p' hp').2⟩
  · rw [← hr]
    intro h
    have hc := count_defragmentRanges b hxf (hn x hx).1
    have hmem : x ∈ b.defragmentRanges.ranges := by
      rw [← List.count_pos_iff, hc, List.count_pos_iff]
      exact hx
    have := h x hmem
    simp [VulkanMemoryRange.isFree, hxf] at this

/-! ## Defragmentation twice -/

/-- C28 (defragmentation is idempotent), amended. For every block (of a size
below `2 ^ 64`) whose ranges all have non-zero size, pairwise distinct offsets
and an end `offset + size` below `2 ^ 64`, `defragmentRanges` applied twice gives
exactly what it gives applied once. -/
theorem defragment_idempotent (b : VulkanMemory) (hS : b.memorySize < deviceSizeLimit)
    (hn : NoWrap b.ranges)
    (_hdistinct : b.ranges.Pairwise (fun p q => p.memoryOffset ≠ q.memoryOffset)) :
    b.defragmentRanges.defragmentRanges = b.defragmentRanges := by
  by_cases hall : ∀ r ∈ b.ranges, r.isFree = true
  · rw [defragmentRanges_of_all_free hall]
    rw [defragmentRanges_of_all_free (by
      intro r hr
      simp only [List.mem_singleton] at hr
      rw [hr]
      rfl)]
  · have hused : ∃ r ∈ b.ranges, r.free = false := by
      by_contra hno
      apply hall
      intro r hr
      by_contra hf
      exact hno ⟨r, hr, by simpa [VulkanMemoryRange.isFree] using hf⟩
    obtain ⟨-, hs, hsettled, -⟩ := defragmentRanges_merged hS hn hused
    apply defragmentRanges_of_settled
    rw [hs]
    exact hsettled

theorem defragment_idempotent_witness :
    ((64 : Nat) < deviceSizeLimit ∧
      NoWrap [⟨1, 8, 4, true⟩, ⟨1, 8, 48, true⟩, ⟨1, 8, 16, false⟩, ⟨1, 8, 24, true⟩,
        ⟨1, 8, 32, true⟩] ∧
      ([⟨1, 8, 4, true⟩, ⟨1, 8, 48, true⟩, ⟨1, 8, 16, false⟩, ⟨1, 8, 24, true⟩,
        ⟨1, 8, 32, true⟩] : List VulkanMemoryRange).Pairwise
          (fun p q => p.memoryOffset ≠ q.memoryOffset)) ∧
      (⟨1, 64, 0, [⟨1, 8, 4, true⟩, ⟨1, 8, 48, true⟩, ⟨1, 8, 16, false⟩, ⟨1, 8, 24, true⟩,
        ⟨1, 8, 32, true⟩]⟩ : VulkanMemory).defragmentRanges.ranges =
        [⟨1, 8, 0, true⟩, ⟨1, 8, 16, false⟩, ⟨1, 40, 24, true⟩] ∧
      (⟨1, 64, 0, [⟨1, 8, 4, true⟩, ⟨1, 8, 48, true⟩, ⟨1, 8, 16, false⟩, ⟨1, 8, 24, true⟩,
        ⟨1, 8, 32, true⟩]⟩ : VulkanMemory).defragmentRanges.defragmentRanges =
        (⟨1, 64, 0, [⟨1, 8, 4, true⟩, ⟨1, 8, 48, true⟩, ⟨1, 8, 16, false⟩, ⟨1, 8, 24, true⟩,
          ⟨1, 8, 32, true⟩]⟩ : VulkanMemory).defragmentRanges :=
  ⟨⟨by decide, by unfold NoWrap; decide, by decide⟩, by decide,
    defragment_idempotent
      ⟨1, 64, 0, [⟨1, 8, 4, true⟩, ⟨1, 8, 48, true⟩, ⟨1, 8, 16, false⟩, ⟨1, 8, 24, true⟩,
        ⟨1, 8, 32, true⟩]⟩ (by decide) (by unfold NoWrap; decide) (by decide)⟩

/-- C28 as stated fails. The block of 64 bytes in which `acquireRange` was called
for 1, 1 and 62 bytes, the second range was disposed of, and `acquireRange` was
called for 48 bytes aligned to 16, holds four ranges of non-zero size at the
distinct offsets 0, 16, 2 and 64; the free one at offset 64 has the size
`2 ^ 64 - 62`. The first `defragmentRanges` sets its size to 0, the second
removes it. -/
theorem defragment_idempotent_counterexample :
    ((((((VulkanMemory.create 1 64 0).acquireRange VulkanMemoryRange.empty 1 0).2.2.acquireRange
        VulkanMemoryRange.empty 1 0).2.2.acquireRange VulkanMemoryRange.empty 62 0).2.2.disposeRange
        ⟨1, 1, 1, false⟩ false).map
          (fun m => (m.acquireRange VulkanMemoryRange.empty 48 16).2.2)) =
      some ⟨1, 64, 0, [⟨1, 1, 0, false⟩, ⟨1, 48, 16, false⟩, ⟨1, 62, 2, false⟩,
        ⟨1, 2 ^ 64 - 62, 64, true⟩]⟩ ∧
    (⟨1, 64, 0, [⟨1, 1, 0, false⟩, ⟨1, 48, 16, false⟩, ⟨1, 62, 2, false⟩,
      ⟨1, 2 ^ 64 - 62, 64, true⟩]⟩ : VulkanMemory).defragmentRanges.ranges =
      [⟨1, 1, 0, false⟩, ⟨1, 62, 2, false⟩, ⟨1, 48, 16, false⟩, ⟨1, 0, 64, true⟩] ∧
    (⟨1, 64, 0, [⟨1, 1, 0, false⟩, ⟨1, 48, 16, false⟩, ⟨1, 62, 2, false⟩,
      ⟨1, 2 ^ 64 - 62, 64, true⟩]⟩ : VulkanMemory).defragmentRanges.defragmentRanges.ranges =
      [⟨1, 1, 0, false⟩, ⟨1, 62, 2, false⟩, ⟨1, 48, 16, false⟩] ∧
    ([⟨1, 1, 0, false⟩, ⟨1, 48, 16, false⟩, ⟨1, 62, 2, false⟩,
      ⟨1, 2 ^ 64 - 62, 64, true⟩] : List VulkanMemoryRange).Pairwise
        (fun p q => p.memoryOffset ≠ q.memoryOffset) ∧
    (∀ r ∈ ([⟨1, 1, 0, false⟩, ⟨1, 48, 16, false⟩, ⟨1, 62, 2, false⟩,
      ⟨1, 2 ^ 64 - 62, 64, true⟩] : List VulkanMemoryRange), r.memorySize ≠ 0) := by
  refine ⟨by decide, by decide, by decide, by decide, by decide⟩

/-! ## The list after defragmentation -/

/-- The adjusted list, range by range: the ranges between the first and the last
stay, a free first range is moved to offset 0 with its size, and a free last
range that ends inside the block is made to end at the end of the block. -/
theorem adjusted_ranges {S : Nat} {m : List VulkanMemoryRange} (hS : S < deviceSizeLimit)
    (hm : ∀ q ∈ m, q.memoryOffset + q.memorySize ≤ S ∧ q.memorySize ≠ 0) :
    (∀ q tl, m = q :: tl → tl ≠ [] →
      (growLastToEnd S (moveFirstToStart m)).head? =
        some (if q.free then { q with memoryOffset := 0 } else q)) ∧
    (∀ init z, m = init ++ [z] → init ≠ [] →
      (growLastToEnd S (moveFirstToStart m)).getLast? =
        some (if z.free then { z with memorySize := S - z.memoryOffset } else z)) ∧
    (∀ (i : Nat) (q : VulkanMemoryRange), 0 < i → i + 1 < m.length → m[i]? = some q →
      (growLastToEnd S (moveFirstToStart m))[i]? = some q) := by
  have hzform : ∀ z ∈ m, (if z.isFree && decide (z.getEnd < S) then
      ({ z with memorySize := wsub S z.getOffset } : VulkanMemoryRange) else z) =
      (if z.free then { z with memorySize := S - z.memoryOffset } else z) := by
    intro z hz
    obtain ⟨h1, h2⟩ := hm z hz
    have hend : z.getEnd = z.memoryOffset + z.memorySize :=
      getEnd_of_lt (by omega)
    cases hf : z.free with
    | false => simp [VulkanMemoryRange.isFree, hf]
    | true =>
      simp only [VulkanMemoryRange.isFree, hf, Bool.true_and, if_true, hend,
        VulkanMemoryRange.getOffset]
      by_cases hlt : z.memoryOffset + z.memorySize < S
      · simp only [hlt, decide_True, if_true]
        rw [(wsub_pos hS (by omega)).1]
      · simp only [hlt, decide_False, Bool.false_eq_true, if_false]
        have : z.memorySize = S - z.memoryOffset := by omega
        cases z
        simp only at this hf ⊢
        rw [← this, hf]
  refine ⟨?_, ?_, ?_⟩
  · intro q tl hq htl
    subst hq
    rw [moveFirstToStart_cons]
    have := growLastToEnd_append S [if q.isFree then { q with memoryOffset := 0 } else q] htl
    rw [List.singleton_append] at this
    rw [this]
    rfl
  · intro init z hz hinit
    have hzm : z ∈ m := by rw [hz]; simp
    subst hz
    rw [moveFirstToStart_append _ hinit, growLastToEnd_concat, List.getLast?_append]
    simp only [List.getLast?_singleton]
    rw [hzform z hzm]
    rfl
  · intro i q hi hlen hget
    rcases List.eq_nil_or_concat m with h | ⟨init, z, h⟩
    · subst h; simp at hlen
    · subst h
      rw [List.concat_eq_append] at hget hlen ⊢
      simp only [List.length_append, List.length_singleton] at hlen
      cases init with
      | nil => simp at hlen
      | cons a mid =>
        rw [moveFirstToStart_append _ (by simp), growLastToEnd_concat, moveFirstToStart_cons]
        rw [List.getElem?_append_left (by simpa using hlen)] at hget ⊢
        cases i with
        | zero => omega
        | succ j =>
          simp only [List.getElem?_cons_succ] at hget ⊢
          exact hget

/-- C23 (defragmentation postcondition), amended. For every block (of a size
below `2 ^ 64`) that has a range in use and whose ranges all have non-zero size
and lie inside the block: after `defragmentRanges` the list is sorted by
ascending offset, holds no empty range and no two consecutive free ranges, and
every range lies inside the block. It is the list of the spans of the maximal
runs of consecutive free ranges of the sorted list (a span starts at the first
offset of its run and ends at its last end; a range in use is its own span), in
which a free first range is moved to offset 0 keeping its size, a free last
range is made to end at `memorySize`, and all ranges in between are the spans
themselves. So a free first range has offset 0 and a free last range ends at
`memorySize`. -/
theorem defragment_postcondition (b : VulkanMemory) (hS : b.memorySize < deviceSizeLimit)
    (hin : ∀ r ∈ b.ranges, r.memorySize ≠ 0 ∧ r.memoryOffset + r.memorySize ≤ b.memorySize)
    (hused : ∃ r ∈ b.ranges, r.free = false) :
    (b.defragmentRanges.ranges.Pairwise offsetLE ∧
      (∀ r ∈ b.defragmentRanges.ranges,
        r.memorySize ≠ 0 ∧ r.memoryOffset + r.memorySize ≤ b.memorySize) ∧
      b.defragmentRanges.ranges.Chain' NotBothFree) ∧
    ((freeRuns (b.ranges.insertionSort offsetLE)).flatten = b.ranges.insertionSort offsetLE ∧
      b.defragmentRanges.ranges.length = (mergedRuns (b.ranges.insertionSort offsetLE)).length ∧
      (∀ q tl, mergedRuns (b.ranges.insertionSort offsetLE) = q :: tl →
        b.defragmentRanges.ranges.head? =
          some (if q.free then { q with memoryOffset := 0 } else q)) ∧
      (∀ init z, mergedRuns (b.ranges.insertionSort offsetLE) = init ++ [z] →
        b.defragmentRanges.ranges.getLast? =
          some (if z.free then { z with memorySize := b.memorySize - z.memoryOffset } else z)) ∧
      (∀ (i : Nat) (q : VulkanMemoryRange), 0 < i →
        i + 1 < (mergedRuns (b.ranges.insertionSort offsetLE)).length →
        (mergedRuns (b.ranges.insertionSort offsetLE))[i]? = some q →
        b.defragmentRanges.ranges[i]? = some q)) ∧
    ((∀ r, b.defragmentRanges.ranges.head? = some r → r.free = true → r.memoryOffset = 0) ∧
      (∀ r, b.defragmentRanges.ranges.getLast? = some r → r.free = true →
        r.memoryOffset + r.memorySize = b.memorySize)) := by
  have hn : NoWrap b.ranges := fun r hr => ⟨(hin r hr).1, by have := (hin r hr).2; omega⟩
  obtain ⟨hr, -, hsettled, hq⟩ := defragmentRanges_merged hS hn hused
  obtain ⟨hnotall, hpw, hne, hch, hhead, hlast⟩ := hsettled
  have hm : ∀ q ∈ mergedRuns (b.ranges.insertionSort offsetLE),
      q.memoryOffset + q.memorySize ≤ b.memorySize ∧ q.memorySize ≠ 0 := by
    intro q hq'
    obtain ⟨k1, -, ⟨p, hp, hp2⟩⟩ := hq q hq'
    exact ⟨by rw [hp2]; exact (hin p hp).2, k1⟩
  have hinside : ∀ r ∈ b.defragmentRanges.ranges,
      r.memoryOffset + r.memorySize ≤ b.memorySize := by
    intro r hr'
    rw [hr] at hr'
    have h1 : ∀ q ∈ moveFirstToStart (mergedRuns (b.ranges.insertionSort offsetLE)),
        q.memoryOffset + q.memorySize ≤ b.memorySize := by
      intro q hq'
      obtain ⟨p, hp, h1, -, -, h4⟩ := moveFirstToStart_mem hq'
      have := (hm p hp).1
      omega
    rcases growLastToEnd_mem hr' with h | ⟨z, hz, -, hz2, he⟩
    · exact h1 r h
    · have hz' := h1 z hz
      have hend : z.getEnd = z.memoryOffset + z.memorySize := getEnd_of_lt (by omega)
      rw [hend] at hz2
      rw [he]
      simp only [VulkanMemoryRange.getOffset]
      rw [(wsub_pos hS (by omega)).1]
      omega
  obtain ⟨a1, a2, a3⟩ := adjusted_ranges hS hm
  have hlen : b.defragmentRanges.ranges.length =
      (mergedRuns (b.ranges.insertionSort offsetLE)).length := by
    rw [hr]
    have := congrArg List.length (growLastToEnd_map_free b.memorySize
      (moveFirstToStart (mergedRuns (b.ranges.insertionSort offsetLE))))
    have h2 := congrArg List.length
      (moveFirstToStart_map_free (mergedRuns (b.ranges.insertionSort offsetLE)))
    simp only [List.length_map] at this h2
    omega
  -- a single merged range is the range in use
  have hsingle : ∀ q, mergedRuns (b.ranges.insertionSort offsetLE) = [q] → q.free = false := by
    intro q hq1
    by_contra hf
    apply hnotall
    intro r hr'
    rw [hr, hq1, moveFirstToStart_cons] at hr'
    have hqf : q.free = true := by simpa using hf
    have hfr : r.free ∈ (growLastToEnd b.memorySize
        [if q.isFree then { q with memoryOffset := 0 } else q]).map (fun r => r.free) :=
      List.mem_map.2 ⟨r, hr', rfl⟩
    rw [growLastToEnd_map_free] at hfr
    simp only [VulkanMemoryRange.isFree, hqf, if_true, List.map_cons, List.map_nil,
      List.mem_singleton] at hfr
    rw [VulkanMemoryRange.isFree, hfr]
  refine ⟨⟨hpw, fun r hr' => ⟨hne r hr', hinside r hr'⟩, hch⟩,
    ⟨freeRuns_join _, hlen, ?_, ?_, ?_⟩, ⟨hhead, ?_⟩⟩
  · intro q tl hq1
    cases tl with
    | nil =>
      have hf := hsingle q hq1
      rw [hr, hq1, moveFirstToStart_cons]
      have h1 : q.isFree = false := hf
      simp only [h1, Bool.false_eq_true, if_false, hf]
      have := growLastToEnd_used b.memorySize [] hf
      simp only [List.nil_append] at this
      rw [this]
      rfl
    | cons x t =>
      rw [hr]
      exact a1 q (x :: t) hq1 (by simp)
  · intro init z hz1
    cases init with
    | nil =>
      have hf := hsingle z hz1
      rw [hr, hz1, List.nil_append, moveFirstToStart_cons]
      have h1 : z.isFree = false := hf
      simp only [h1, Bool.false_eq_true, if_false, hf]
      have := growLastToEnd_used b.memorySize [] hf
      simp only [List.nil_append] at this
      rw [this]
      rfl
    | cons x t =>
      rw [hr]
      exact a2 (x :: t) z hz1 (by simp)
  · intro i q hi hlt hget
    rw [hr]
    exact a3 i q hi hlt hget
  · intro r hr' hf
    have h1 := hlast r hr' hf
    have h2 := hinside r (List.mem_of_getLast?_eq_some hr')
    have hend : r.getEnd = r.memoryOffset + r.memorySize := getEnd_of_lt (by omega)
    rw [hend] at h1
    omega

theorem defragment_postcondition_witness :
    ((64 : Nat) < deviceSizeLimit ∧
      (∀ r ∈ ([⟨1, 8, 48, true⟩, ⟨1, 16, 0, false⟩, ⟨1, 8, 16, true⟩, ⟨1, 8, 24, true⟩,
          ⟨1, 8, 40, false⟩] : List VulkanMemoryRange),
        r.memorySize ≠ 0 ∧ r.memoryOffset + r.memorySize ≤ 64) ∧
      ∃ r ∈ ([⟨1, 8, 48, true⟩, ⟨1, 16, 0, false⟩, ⟨1, 8, 16, true⟩, ⟨1, 8, 24, true⟩,
          ⟨1, 8, 40, false⟩] : List VulkanMemoryRange), r.free = false) ∧
      freeRuns [⟨1, 16, 0, false⟩, ⟨1, 8, 16, true⟩, ⟨1, 8, 24, true⟩, ⟨1, 8, 40, false⟩,
          ⟨1, 8, 48, true⟩] =
        [[⟨1, 16, 0, false⟩], [⟨1, 8, 16, true⟩, ⟨1, 8, 24, true⟩], [⟨1, 8, 40, false⟩],
          [⟨1, 8, 48, true⟩]] ∧
      (⟨1, 64, 0, [⟨1, 8, 48, true⟩, ⟨1, 16, 0, false⟩, ⟨1, 8, 16, true⟩, ⟨1, 8, 24, true⟩,
          ⟨1, 8, 40, false⟩]⟩ : VulkanMemory).defragmentRanges.ranges =
        [⟨1, 16, 0, false⟩, ⟨1, 16, 16, true⟩, ⟨1, 8, 40, false⟩, ⟨1, 16, 48, true⟩] ∧
      (⟨1, 64, 0, [⟨1, 8, 48, true⟩, ⟨1, 16, 0, false⟩, ⟨1, 8, 16, true⟩, ⟨1, 8, 24, true⟩,
          ⟨1, 8, 40, false⟩]⟩ : VulkanMemory).defragmentRanges.ranges.Chain' NotBothFree :=
  ⟨⟨by decide, by decide, by decide⟩, by decide, by decide,
    (defragment_postcondition
      ⟨1, 64, 0, [⟨1, 8, 48, true⟩, ⟨1, 16, 0, false⟩, ⟨1, 8, 16, true⟩, ⟨1, 8, 24, true⟩,
        ⟨1, 8, 40, false⟩]⟩ (by decide) (by decide) (by decide)).1.2.2⟩

/-- C23 as stated fails on blocks whose first range does not start at 0 or whose
last range does not end at the end of the block. In the block of 10 bytes with
the free range `[2, 5)` and the range `[5, 10)` in use, the run of the free
range starts at 2 and ends at 5, but after `defragmentRanges` the free range is
`[0, 3)`: no free range starts at 2 or ends at 5. In the block of 10 bytes with
the range `[0, 5)` in use and the free range `[5, 7)`, the free range afterwards
is `[5, 10)`, which does not end at the last end 7 of its run. -/
theorem defragment_postcondition_counterexample :
    mergedRuns (([⟨1, 3, 2, true⟩, ⟨1, 5, 5, false⟩] : List VulkanMemoryRange).insertionSort
        offsetLE) = [⟨1, 3, 2, true⟩, ⟨1, 5, 5, false⟩] ∧
    (⟨1, 10, 0, [⟨1, 3, 2, true⟩, ⟨1, 5, 5, false⟩]⟩ : VulkanMemory).defragmentRanges.ranges =
      [⟨1, 3, 0, true⟩, ⟨1, 5, 5, false⟩] ∧
    (¬ ∃ q ∈ (⟨1, 10, 0, [⟨1, 3, 2, true⟩, ⟨1, 5, 5, false⟩]⟩ :
        VulkanMemory).defragmentRanges.ranges,
      q.free = true ∧ (q.memoryOffset = 2 ∨ q.memoryOffset + q.memorySize = 5)) ∧
    mergedRuns (([⟨1, 5, 0, false⟩, ⟨1, 2, 5, true⟩] : List VulkanMemoryRange).insertionSort
        offsetLE) = [⟨1, 5, 0, false⟩, ⟨1, 2, 5, true⟩] ∧
    (⟨1, 10, 0, [⟨1, 5, 0, false⟩, ⟨1, 2, 5, true⟩]⟩ : VulkanMemory).defragmentRanges.ranges =
      [⟨1, 5, 0, false⟩, ⟨1, 5, 5, true⟩] ∧
    (¬ ∃ q ∈ (⟨1, 10, 0, [⟨1, 5, 0, false⟩, ⟨1, 2, 5, true⟩]⟩ :
        VulkanMemory).defragmentRanges.ranges,
      q.free = true ∧ q.memoryOffset + q.memorySize = 7) := by
  refine ⟨by decide, by decide, by decide, by decide, by decide, by decide⟩

end parawave
